import Mathlib

/-!
# lightkv: size classes, free lists, segments and records

A shallow embedding of `src/lightkv.c`.

The header `lightkv.h` is not part of the sources, so everything it declares is
a field of `Config` (the constants) or is described where it is modelled (the
layout of `loc` and of the record header).

Conventions of the embedding.
* `uint32_t` values are natural numbers below `2 ^ 32`; every operation that can
  wrap is written with an explicit `% 2 ^ 32`.
* Where the source leaves a value open (memory it reads without having written
  it, the result of a function that ends without `return`), the value is an
  argument of the definition, so that statements say which values they are
  about.
* A byte is a natural number below `256`; a buffer is a `List Nat`.
* A pointer to a `freeloc` is a natural number, `0` being `NULL`.
* Calls that only print (`printf`, `print_record`, `print_buf`) are left out.
* A computation that dereferences `NULL` or a freed node, indexes an array out
  of its bounds, or touches a byte outside a buffer or a mapped file has no
  defined result: it returns `none`.
-/

namespace LightKV

/-! ## Constants of `lightkv.h` -/

/-- Constants declared by `lightkv.h`. `LEN_BYTES` and `EXTLEN_BYTES` are the
widths, in bytes, of the `len` and `extlen` fields of a record header;
`NUM_BITS` is the width, in bits, of the `num` field of a `loc`. -/
structure Config where
  RECORD_HEADER_SIZE : Nat
  LEN_BYTES : Nat
  EXTLEN_BYTES : Nat
  RECORD_DEL : Nat
  RECORD_VAL : Nat
  FIRST_SIZECLASS : Nat
  MAX_SIZES : Nat
  MAX_FILESIZE : Nat
  NUM_BITS : Nat
deriving Repr

/-- The header fields fit in the header: the layout condition on `Config`. -/
def Config.header_ok (cfg : Config) : Prop :=
  1 + cfg.LEN_BYTES + cfg.EXTLEN_BYTES ≤ cfg.RECORD_HEADER_SIZE

instance (cfg : Config) : Decidable cfg.header_ok :=
  inferInstanceAs (Decidable (1 + cfg.LEN_BYTES + cfg.EXTLEN_BYTES ≤ cfg.RECORD_HEADER_SIZE))

/-! ## Size classes -/

/-- One smear step of `roundsize`: `v |= v >> k`. -/
def smear (k v : Nat) : Nat := v ||| (v >>> k)

/-- Function `roundsize` (lines 28-39): `v--`, five smear steps, `v++`, on `uint32_t`. -/
def roundsize (v : Nat) : Nat :=
  let v := (v + (2 ^ 32 - 1)) % 2 ^ 32
  let v := smear 1 v
  let v := smear 2 v
  let v := smear 4 v
  let v := smear 8 v
  let v := smear 16 v
  (v + 1) % 2 ^ 32

/-- The loop `while (v >>= 1) n++;` of `get_sizeslot`. A `uint32_t` is zero
after at most 32 shifts, so 32 units of fuel are never used up. -/
def sizeslot_loop : Nat → Nat → Nat → Nat
  | 0, _, n => n
  | fuel + 1, v, n => if v >>> 1 ≠ 0 then sizeslot_loop fuel (v >>> 1) (n + 1) else n

/-- Function `get_sizeslot` (lines 41-52). The result is a C `int`. -/
def get_sizeslot (cfg : Config) (v : Nat) : Int :=
  let n : Int := (sizeslot_loop 32 v 0 : Nat)
  let n := n - (cfg.FIRST_SIZECLASS : Int)
  if n < 0 then 0
  else if n > (cfg.FIRST_SIZECLASS : Int) + (cfg.MAX_SIZES : Int) - 1 then (cfg.MAX_SIZES : Int) - 1
  else n

/-- Function `get_slotsize` (lines 54-57): `pow(2, slot + FIRST_SIZECLASS)` converted to
`uint32_t`. The power is taken exactly; a negative exponent gives a fraction,
which converts to `0`; the conversion keeps the low 32 bits. -/
def get_slotsize (cfg : Config) (slot : Int) : Nat :=
  let e : Int := slot + (cfg.FIRST_SIZECLASS : Int)
  if e < 0 then 0 else 2 ^ e.toNat % 2 ^ 32

/-! ## Locations and free-list nodes -/

/-- The union `loc` of `lightkv.h`: a 64-bit `val` overlaid with the fields
`l.num` (segment number), `l.offset` (byte offset in the segment) and
`l.sclass` (size class). The handle given to the caller is `val`, that is, the
same three fields. The header that declares the widths is absent. `offset` is
the upper half of `val`, 32 bits: the handle `4295098368 = 2 ^ 32 + 2 ^ 17` that
`main` passes to `lightkv_get` (line 343) is the first record of segment 0, at
offset 1. `num` is `NUM_BITS` wide. Arithmetic on `offset` and on `num` wraps at
these widths where the code does it; `sclass` only ever receives a class index
below `MAX_SIZES`. -/
structure loc where
  num : Nat
  offset : Nat
  sclass : Nat
deriving DecidableEq, Repr

/-- A node of a free list: `struct freeloc` with its `next` and `prev`
pointers. -/
structure freeloc where
  l : loc
  next : Nat
  prev : Nat
deriving DecidableEq, Repr

/-- The heap of `freeloc` nodes: address to node, `none` for an address that was
never allocated or has been passed to `free`. -/
abbrev Heap := Nat → Option freeloc

/-- Read through the pointer `p`: undefined for `NULL` and for a node that is
not allocated. -/
def Heap.deref (hp : Heap) (p : Nat) : Option freeloc :=
  if p = 0 then none else hp p

/-- Store `nd` at address `p`. -/
def Heap.set (hp : Heap) (p : Nat) (nd : Option freeloc) : Heap :=
  fun q => if q = p then nd else hp q

/-- The store, `struct lightkv`: the mapped files, their count, the append
cursor, the first usable location and the table of free-list heads. `heap` and
`nalloc` are the `malloc` state for `freeloc` nodes: addresses `1 .. nalloc`
have been handed out, and `malloc` hands out `nalloc + 1` next. A freed address
is never handed out again, so every access to a freed node is recognised. The
fields `basepath` and `prealloc` are only stored by the source and are left
out. -/
structure lightkv where
  filemaps : Nat → Option (List Nat)
  nfiles : Nat
  end_loc : loc
  start_loc : loc
  freelist : Nat → Nat
  heap : Heap
  nalloc : Nat

/-! ## Free lists -/

/-- Function `freeloc_new` (lines 59-64): a fresh node `f` holding `l`, both links
`NULL`. The source function ends without a `return` statement, so the source
does not say what its caller receives: that value is `ret f`, with `ret` an
argument. See `yields_node` and `yields_null` for the two values builds of the
source produce. -/
def freeloc_new (kv : lightkv) (l : loc) (ret : Nat → Nat) : lightkv × Nat :=
  let f := kv.nalloc + 1
  ({ kv with heap := kv.heap.set f (some ⟨l, 0, 0⟩), nalloc := f }, ret f)

/-- The caller of `freeloc_new` receives the node the function built: `f` is the
last value computed and is still in the result register. Builds without
optimisation behave so. -/
def yields_node : Nat → Nat := fun f => f

/-- The caller of `freeloc_new` receives `NULL`, as in optimising builds. -/
def yields_null : Nat → Nat := fun _ => 0

/-- Function `freelist_add` (lines 66-73): link `n` in front of `head`. -/
def freelist_add (hp : Heap) (head n : Nat) : Option (Heap × Nat) :=
  if head ≠ 0 then
    match hp.deref head with
    | none => none
    | some hd =>
      let hp1 := hp.set head (some { hd with prev := n })
      match hp1.deref n with
      | none => none
      | some nd => some (hp1.set n (some { nd with next := head }), n)
  else some (hp, n)

/-- The loop of `freelist_get` (lines 79-92) with its variables `head`, `f`
and `diff`. Each iteration reads the node `head`; the fuel bounds the number of
iterations, and running out of it on a list that has not ended is a walk that
does not terminate. -/
def freelist_get_loop (cfg : Config) (hp : Heap) (size : Nat) : Nat → Nat → Nat → Nat → Option Nat
  | 0, head, f, _ => if head = 0 then some f else none
  | fuel + 1, head, f, diff =>
    if head = 0 then some f
    else
      match hp.deref head with
      | none => none
      | some nd =>
        let t := (get_slotsize cfg (nd.l.sclass : Int) + (2 ^ 32 - size)) % 2 ^ 32
        if f = 0 then freelist_get_loop cfg hp size fuel nd.next head t
        else if t < diff then freelist_get_loop cfg hp size fuel nd.next head t
        else freelist_get_loop cfg hp size fuel nd.next f diff

/-- Function `freelist_get` (lines 75-95): the node whose slot size minus `size`, as a
`uint32_t` difference, is smallest; `NULL` on the empty list. `size` is a
`uint32_t`. -/
def freelist_get (cfg : Config) (kv : lightkv) (head size : Nat) : Option Nat :=
  freelist_get_loop cfg kv.heap size (kv.nalloc + 1) head 0 0

/-- Function `freelist_remove` (lines 97-115), line by line: when `f` is the head, the
successor's `prev` is cleared and `head = f` is assigned; otherwise
`tmp = f->next; tmp->prev = f->prev; f->prev->next = tmp`. Then `free(f)`, and
`head` is returned. -/
def freelist_remove (hp : Heap) (head f : Nat) : Option (Heap × Nat) :=
  if f ≠ 0 then
    match hp.deref f with
    | none => none
    | some fd =>
      if f = head then
        if fd.next ≠ 0 then
          match hp.deref fd.next with
          | none => none
          | some nx =>
            let hp1 := hp.set fd.next (some { nx with prev := 0 })
            some (hp1.set f none, f)
        else some (hp.set f none, f)
      else
        let tmp := fd.next
        match hp.deref tmp with
        | none => none
        | some td =>
          let hp1 := hp.set tmp (some { td with prev := fd.prev })
          match hp1.deref f with
          | none => none
          | some fd1 =>
            match hp1.deref fd1.prev with
            | none => none
            | some pd =>
              let hp2 := hp1.set fd1.prev (some { pd with next := tmp })
              some (hp2.set f none, head)
  else some (hp, head)

/-- The locations held by the list that starts at `head`, in list order, read by
following `next`; `none` when the walk meets a freed or unallocated node or
does not end within the fuel. -/
def freelist_locs (hp : Heap) : Nat → Nat → Option (List loc)
  | 0, head => if head = 0 then some [] else none
  | fuel + 1, head =>
    if head = 0 then some []
    else
      match hp.deref head with
      | none => none
      | some nd => (freelist_locs hp fuel nd.next).map (fun ls => nd.l :: ls)

/-! ## Buffers and record headers -/

/-- Store the low `n` bytes of `val` at `off`, least significant byte first:
an assignment to an unsigned header field `n` bytes wide. -/
def put_le (buf : List Nat) : Nat → Nat → Nat → List Nat
  | _, 0, _ => buf
  | off, n + 1, val => put_le (buf.set off (val % 256)) (off + 1) n (val / 256)

/-- Read the `n`-byte unsigned field at `off`. -/
def get_le (buf : List Nat) : Nat → Nat → Nat
  | _, 0 => 0
  | off, n + 1 => buf.getD off 0 + 256 * get_le buf (off + 1) n

/-- The bytes of `dst` after `memcpy(dst + off, src, src.length)`; the callers
check that the range lies inside `dst`. -/
def blit (dst : List Nat) (off : Nat) (src : List Nat) : List Nat :=
  dst.take off ++ src ++ dst.drop (off + src.length)

/-- Modelled from the spec: the layout of the record header, which `lightkv.h`
declares. The wire format is `[kind: 1 enum byte][total_length: unsigned
integer][key_length: unsigned integer]`: `type` is byte `0`, `len` the next
`LEN_BYTES` bytes, `extlen` the `EXTLEN_BYTES` bytes after that. This is
`rec->type`. -/
def rec_type (r : List Nat) : Nat := r.getD 0 0

/-- The field `rec->len` of a record buffer. -/
def rec_len (cfg : Config) (r : List Nat) : Nat := get_le r 1 cfg.LEN_BYTES

/-- The field `rec->extlen` of a record buffer. -/
def rec_extlen (cfg : Config) (r : List Nat) : Nat :=
  get_le r (1 + cfg.LEN_BYTES) cfg.EXTLEN_BYTES

/-- The three header assignments `rec->type = ..; rec->len = ..; rec->extlen = ..`
on a buffer. -/
def set_header (cfg : Config) (r : List Nat) (type len extlen : Nat) : List Nat :=
  put_le (put_le (r.set 0 (type % 256)) 1 cfg.LEN_BYTES len)
    (1 + cfg.LEN_BYTES) cfg.EXTLEN_BYTES extlen

/-- The function `strlen`: the number of bytes before the first NUL. A key is given as the
bytes of its buffer up to, and not including, the terminator. -/
def strlen (key : List Nat) : Nat := (key.takeWhile (fun b => b ≠ 0)).length

/-! ## Segments -/

/-- Calls `alloc_file` and then `map_file`: the file is truncated, the position set
to `size - 2` and one zero byte written there, so the mapping is `size - 1`
zero bytes. -/
def alloc_map (size : Nat) : List Nat := List.replicate (size - 1) 0

/-- Function `create_nextloc` (lines 159-182). In `off = end_loc.offset + size + 2`
both operands are 32 bits wide (`offset` is a 32-bit field, `size` a
`uint32_t`), so the sum is taken modulo `2 ^ 32` and only then widened to the
`uint64_t off`. `next.l.num++` and `next.l.offset++` wrap at the width of the
field. -/
def create_nextloc (cfg : Config) (kv : lightkv) (size : Nat) : lightkv × loc :=
  let next : loc := { kv.end_loc with sclass := 0 }
  let off := (kv.end_loc.offset + size + 2) % 2 ^ 32
  if off > cfg.MAX_FILESIZE then
    let next : loc := { next with num := (next.num + 1) % 2 ^ cfg.NUM_BITS, offset := 1 }
    ({ kv with
        nfiles := kv.nfiles + 1,
        filemaps := fun i => if i = next.num then some (alloc_map cfg.MAX_FILESIZE)
                             else kv.filemaps i },
     next)
  else
    (kv, { next with offset := (next.offset + 1) % 2 ^ 32 })

/-- Function `write_record` (lines 184-194): `memcpy(dst, rec, rec->len)` with
`dst = filemaps[l.num] + l.offset`; the result is `rec->len`. The source and the
destination range must lie inside the record buffer and the mapping. -/
def write_record (cfg : Config) (kv : lightkv) (l : loc) (r : List Nat) :
    Option (lightkv × Nat) :=
  match kv.filemaps l.num with
  | none => none
  | some seg =>
    let n := rec_len cfg r
    if n ≤ r.length ∧ l.offset + n ≤ seg.length then
      some ({ kv with
                filemaps := fun i => if i = l.num then some (blit seg l.offset (r.take n))
                                     else kv.filemaps i },
            n)
    else none

/-- Function `read_record` (lines 196-207): a copy of the `get_slotsize(l.sclass)` bytes
at `filemaps[l.num] + l.offset`. The debugging dump is left out. -/
def read_record (cfg : Config) (kv : lightkv) (l : loc) : Option (List Nat) :=
  match kv.filemaps l.num with
  | none => none
  | some seg =>
    let slotsize := get_slotsize cfg (l.sclass : Int)
    if l.offset + slotsize ≤ seg.length then some ((seg.drop l.offset).take slotsize)
    else none

/-! ## Store operations -/

/-- Function `lightkv_init` (lines 209-237): segment 0 is created and mapped, `nfiles`
is 1, the cursor `end_loc` is `(0, 0)` and `start_loc` is `(0, 1)`. The source
never assigns `freelist[]`: the table keeps what the block `malloc` returned
happens to hold. That content is the argument `table`; see `all_null`. No
`freeloc` node has been allocated. The `sclass` of the two locations is not
assigned either; it is never read (`create_nextloc` and `lightkv_insert`
overwrite it in every copy they use) and is `0` here. -/
def lightkv_init (cfg : Config) (table : Nat → Nat) : lightkv :=
  { filemaps := fun i => if i = 0 then some (alloc_map cfg.MAX_FILESIZE) else none,
    nfiles := 1,
    end_loc := ⟨0, 0, 0⟩,
    start_loc := ⟨0, 1, 0⟩,
    freelist := table,
    heap := fun _ => none,
    nalloc := 0 }

/-- The block `malloc` returned to `lightkv_init` reads as zero: every head of the
table is `NULL`. -/
def all_null : Nat → Nat := fun _ => 0

/-- The record buffer that `lightkv_insert` builds (lines 247-253). -/
def mk_record (cfg : Config) (key val : List Nat) (len : Nat) : List Nat :=
  let keylen := strlen key
  let size := cfg.RECORD_HEADER_SIZE + keylen + len
  let r := set_header cfg (List.replicate size 0) cfg.RECORD_VAL size keylen
  let r := blit r cfg.RECORD_HEADER_SIZE (key.take keylen)
  blit r (cfg.RECORD_HEADER_SIZE + keylen) (val.take len)

/-- Function `lightkv_insert` (lines 239-274). `val` is the caller's buffer, of which
`len` bytes are copied. The result is the new store and the handle
`diskloc.val`. The new cursor offset `diskloc.l.offset + l - 1` is computed on
32-bit unsigned values, where subtracting 1 is adding `2 ^ 32 - 1`. -/
def lightkv_insert (cfg : Config) (kv : lightkv) (key val : List Nat) (len : Nat) :
    Option (lightkv × loc) :=
  let keylen := strlen key
  let size := cfg.RECORD_HEADER_SIZE + keylen + len
  if val.length < len then none
  else
    let r := mk_record cfg key val len
    let rsize := roundsize (size % 2 ^ 32)
    let slot := get_sizeslot cfg rsize
    if slot < 0 ∨ (cfg.MAX_SIZES : Int) ≤ slot then none
    else
      match freelist_get cfg kv (kv.freelist slot.toNat) (size % 2 ^ 32) with
      | none => none
      | some f =>
        let found : Option (lightkv × loc) :=
          if f ≠ 0 then
            match kv.heap.deref f with
            | none => none
            | some fd =>
              match freelist_remove kv.heap (kv.freelist slot.toNat) f with
              | none => none
              | some (hp, head) =>
                some ({ kv with
                          heap := hp,
                          freelist := fun i => if i = slot.toNat then head else kv.freelist i },
                      fd.l)
          else some (create_nextloc cfg kv rsize)
        match found with
        | none => none
        | some (kv1, diskloc0) =>
          let diskloc : loc := { diskloc0 with sclass := slot.toNat }
          match write_record cfg kv1 diskloc r with
          | none => none
          | some (kv2, l) =>
            some ({ kv2 with
                      end_loc := { kv2.end_loc with
                                     num := diskloc.num,
                                     offset := (2 ^ 32 - 1 + (diskloc.offset + l)) % 2 ^ 32 } },
                  diskloc)

/-- Function `get_key` (lines 276-282): the `extlen` bytes after the header. -/
def get_key (cfg : Config) (r : List Nat) : Option (List Nat) :=
  let l := rec_extlen cfg r
  if l = 0 ∨ cfg.RECORD_HEADER_SIZE + l ≤ r.length then
    some ((r.drop cfg.RECORD_HEADER_SIZE).take l)
  else none

/-- Function `get_val` (lines 284-290): the `len - RECORD_HEADER_SIZE - extlen` bytes
after the key, and their count. A negative count has no defined copy. -/
def get_val (cfg : Config) (r : List Nat) : Option (List Nat × Nat) :=
  let len := rec_len cfg r
  let extlen := rec_extlen cfg r
  if len < cfg.RECORD_HEADER_SIZE + extlen then none
  else
    let l := len - cfg.RECORD_HEADER_SIZE - extlen
    if l = 0 ∨ len ≤ r.length then
      some ((r.drop (cfg.RECORD_HEADER_SIZE + extlen)).take l, l)
    else none

/-- What `lightkv_get` reports: `false`, or `true` with the key, the value and the
value length. -/
inductive GetResult where
  | notfound : GetResult
  | found (key val : List Nat) (len : Nat) : GetResult
deriving DecidableEq, Repr

/-- Function `lightkv_get` (lines 292-306). The header is read through a `record *`, so
the slot buffer must hold a whole header. -/
def lightkv_get (cfg : Config) (kv : lightkv) (recid : loc) : Option GetResult :=
  match read_record cfg kv recid with
  | none => none
  | some r =>
    if r.length < cfg.RECORD_HEADER_SIZE then none
    else if rec_type r ≠ cfg.RECORD_VAL then some GetResult.notfound
    else
      match get_key cfg r, get_val cfg r with
      | some key, some (val, l) => some (GetResult.found key val (l % 2 ^ 32))
      | _, _ => none

/-- Function `lightkv_delete` (lines 308-321): a scratch record with header
`(RECORD_DEL, 0, 0)` is passed to `write_record`, then the value received from
`freeloc_new` is put in front of `freelist[l.sclass]`. The result is always
`true`. The scratch record is a block of `slotsize` bytes: the three header
assignments write past it when the slot is smaller than a header, and then the
call has no defined result. `ret` is what `freeloc_new` yields to its
caller. -/
def lightkv_delete (cfg : Config) (kv : lightkv) (recid : loc) (ret : Nat → Nat) :
    Option (lightkv × Bool) :=
  let l := recid
  let slotsize := get_slotsize cfg (l.sclass : Int)
  if slotsize < cfg.RECORD_HEADER_SIZE ∨ slotsize < 1 + cfg.LEN_BYTES + cfg.EXTLEN_BYTES then none
  else
    let r := set_header cfg (List.replicate slotsize 0) cfg.RECORD_DEL 0 0
    match write_record cfg kv l r with
    | none => none
    | some (kv1, _) =>
      let (kv2, f) := freeloc_new kv1 l ret
      if cfg.MAX_SIZES ≤ l.sclass then none
      else
        match freelist_add kv2.heap (kv2.freelist l.sclass) f with
        | none => none
        | some (hp, head) =>
          some ({ kv2 with
                    heap := hp,
                    freelist := fun i => if i = l.sclass then head else kv2.freelist i },
                true)

/-! ## A concrete configuration -/

/-- A small configuration for running the code: a packed 6-byte header (1-byte
type, 4-byte `len`, 1-byte `extlen`), size classes 8, 16, 32, 64 and 128 bytes,
256-byte segments, 16-bit segment numbers. -/
def demo : Config :=
  { RECORD_HEADER_SIZE := 6, LEN_BYTES := 4, EXTLEN_BYTES := 1,
    RECORD_DEL := 0, RECORD_VAL := 1,
    FIRST_SIZECLASS := 3, MAX_SIZES := 5, MAX_FILESIZE := 256, NUM_BITS := 16 }

/-! ## Notions used in the statements -/

/-- Every address above `nalloc` is unallocated: `malloc` hands out unused memory. -/
def heap_fresh (kv : lightkv) : Prop := ∀ p, kv.nalloc < p → kv.heap p = none

/-- A slot of class `c` holds a whole record header: the scratch record of
`lightkv_delete` has room for the three header assignments. -/
def holds_header (cfg : Config) (c : Nat) : Prop :=
  cfg.RECORD_HEADER_SIZE ≤ get_slotsize cfg (c : Int) ∧
    1 + cfg.LEN_BYTES + cfg.EXTLEN_BYTES ≤ get_slotsize cfg (c : Int)

instance (cfg : Config) (c : Nat) : Decidable (holds_header cfg c) :=
  inferInstanceAs (Decidable (cfg.RECORD_HEADER_SIZE ≤ get_slotsize cfg (c : Int) ∧
    1 + cfg.LEN_BYTES + cfg.EXTLEN_BYTES ≤ get_slotsize cfg (c : Int)))

/-- The encoded size of a record: `size` in `lightkv_insert`. -/
def record_size (cfg : Config) (key : List Nat) (len : Nat) : Nat :=
  cfg.RECORD_HEADER_SIZE + strlen key + len

/-- The rounded slot size of a record: `rsize` in `lightkv_insert`. -/
def record_rsize (cfg : Config) (key : List Nat) (len : Nat) : Nat :=
  roundsize (record_size cfg key len % 2 ^ 32)

/-- The size class of a record: `slot` in `lightkv_insert`. -/
def record_slot (cfg : Config) (key : List Nat) (len : Nat) : Int :=
  get_sizeslot cfg (record_rsize cfg key len)

/-! ## Runs of the store on `demo` -/

/-- The store after `h = insert("a", "x")`, `delete(h)`, `insert("b", "y")`,
with the handle the second insert returned. Both records are 8 bytes, size
class 0. -/
def after_reuse : Option (lightkv × loc) := do
  let (kv1, h) ← lightkv_insert demo (lightkv_init demo all_null) [97] [120] 1
  let (kv2, _) ← lightkv_delete demo kv1 h yields_node
  lightkv_insert demo kv2 [98] [121] 1

/-- The run `insert("k", "v")`, `delete`, `get` on the handle of the insert. -/
def get_after_delete : Option GetResult := do
  let (kv1, h) ← lightkv_insert demo (lightkv_init demo all_null) [107] [118] 1
  let (kv2, _) ← lightkv_delete demo kv1 h yields_node
  lightkv_get demo kv2 h

/-- The run `hA = insert("aa", 8 bytes)`, `hB = insert("b", "2")`,
`delete(hA)`, `insert("cc", 8 bytes)`, `hD = insert("d", "4")`: the handles
`hA`, `hB`, `hD` and what `get(hB)` reports at the end. -/
def overwrite_run : Option (loc × loc × loc × GetResult) := do
  let (kv1, hA) ← lightkv_insert demo (lightkv_init demo all_null) [97, 97] [1, 2, 3, 4, 5, 6, 7, 8] 8
  let (kv2, hB) ← lightkv_insert demo kv1 [98] [50] 1
  let (kv3, _) ← lightkv_delete demo kv2 hA yields_node
  let (kv4, _) ← lightkv_insert demo kv3 [99, 99] [8, 7, 6, 5, 4, 3, 2, 1] 8
  let (kv5, hD) ← lightkv_insert demo kv4 [100] [52] 1
  let g ← lightkv_get demo kv5 hB
  pure (hA, hB, hD, g)

/-- The run `h = insert("k", "v")`, `delete(h)`, `delete(h)`: the handle, the
result of the second delete and the free list of the handle's class. `ret` is what
`freeloc_new` yields in the two deletes. -/
def double_delete_run (ret : Nat → Nat) : Option (loc × Bool × List loc) := do
  let (kv1, h) ← lightkv_insert demo (lightkv_init demo all_null) [107] [118] 1
  let (kv2, _) ← lightkv_delete demo kv1 h ret
  let (kv3, b) ← lightkv_delete demo kv2 h ret
  let ls ← freelist_locs kv3.heap kv3.nalloc (kv3.freelist h.sclass)
  pure (h, b, ls)

/-- A configuration with room for a long key: `demo` with 1024-byte segments and 8 size
classes; the `extlen` field is still one byte wide. -/
def demo_wide : Config :=
  { demo with MAX_SIZES := 8, MAX_FILESIZE := 1024 }

/-- A key of 256 bytes `'a'`: its length does not fit a one-byte `extlen`. -/
def long_key : List Nat := List.replicate 256 97

/-- The run `h = insert(long_key, "v")` on a fresh `demo_wide` store: the handle, the
`extlen` and `len` fields stored at the handle's location, and the length of the key and
of the value that `get(h)` reports. -/
def long_key_run : Option (loc × Nat × Nat × Option (Nat × Nat)) := do
  let (kv1, h) ← lightkv_insert demo_wide (lightkv_init demo_wide all_null) long_key [118] 1
  let r ← read_record demo_wide kv1 h
  let g ← lightkv_get demo_wide kv1 h
  pure (h, rec_extlen demo_wide r, rec_len demo_wide r,
    match g with
    | GetResult.notfound => none
    | GetResult.found k v _ => some (k.length, v.length))

/-- The source range of the `memcpy` in `get_key` (line 279): the index of the first byte
read in the record buffer and the number of bytes read, `r->extlen`. -/
def get_key_span (cfg : Config) (r : List Nat) : Option (Nat × Nat) :=
  some (cfg.RECORD_HEADER_SIZE, rec_extlen cfg r)

/-- The source range of the `memcpy` in `get_val` (line 287): the first index
`RECORD_HEADER_SIZE + r->extlen` and the count `r->len - RECORD_HEADER_SIZE - r->extlen`.
A negative count is passed on converted to `size_t`; it describes no range (`none`). -/
def get_val_span (cfg : Config) (r : List Nat) : Option (Nat × Nat) :=
  if rec_len cfg r < cfg.RECORD_HEADER_SIZE + rec_extlen cfg r then none
  else some (cfg.RECORD_HEADER_SIZE + rec_extlen cfg r,
    rec_len cfg r - cfg.RECORD_HEADER_SIZE - rec_extlen cfg r)

/-- Every byte of the range has an index below `n`. -/
def reads_below (n : Nat) : Option (Nat × Nat) → Prop
  | none => False
  | some sp => sp.2 = 0 ∨ sp.1 + sp.2 ≤ n

instance (n : Nat) (sp : Option (Nat × Nat)) : Decidable (reads_below n sp) :=
  match sp with
  | none => isFalse (fun h => h)
  | some sp => inferInstanceAs (Decidable (sp.2 = 0 ∨ sp.1 + sp.2 ≤ n))

/-- The run `hA = insert("aa", 8 bytes)`, `hB = insert("b", "2")`, `delete(hA)`,
`insert("cc", 8 bytes)`, `insert("dd", 12 bytes)`, then `get(hB)`: the handle `hB`, the
slot buffer `read_record` produces for it, and whether `get(hB)` has a defined result. -/
def overread_run : Option (loc × List Nat × Bool) := do
  let (kv1, hA) ← lightkv_insert demo (lightkv_init demo all_null) [97, 97] [1, 2, 3, 4, 5, 6, 7, 8] 8
  let (kv2, hB) ← lightkv_insert demo kv1 [98] [50] 1
  let (kv3, _) ← lightkv_delete demo kv2 hA yields_node
  let (kv4, _) ← lightkv_insert demo kv3 [99, 99] [8, 7, 6, 5, 4, 3, 2, 1] 8
  let (kv5, _) ← lightkv_insert demo kv4 [100, 100] [1, 2, 3, 4, 5, 6, 7, 8, 9, 10, 11, 12] 12
  let r ← read_record demo kv5 hB
  pure (hB, r, (lightkv_get demo kv5 hB).isSome)

/-- The nodes of the list that starts at `head`, in list order, as addresses; `none` when
the walk meets `NULL`-less garbage (a freed or unallocated node) or does not end within
the fuel. -/
def freelist_nodes (hp : Heap) : Nat → Nat → Option (List Nat)
  | 0, head => if head = 0 then some [] else none
  | fuel + 1, head =>
    if head = 0 then some []
    else
      match hp.deref head with
      | none => none
      | some nd => (freelist_nodes hp fuel nd.next).map (fun ps => head :: ps)

/-- The slack `freelist_get` computes for the node at `p` (lines 82 and 85):
`get_slotsize(p->l.l.sclass) - size` as a `uint32_t` difference. -/
def slack (cfg : Config) (hp : Heap) (size p : Nat) : Nat :=
  match hp.deref p with
  | none => 0
  | some nd => (get_slotsize cfg (nd.l.sclass : Int) + (2 ^ 32 - size)) % 2 ^ 32

/-- The node `g` is the first one of `ps` with the least value of `w`: every node before it
has a larger value and every node after it has a value at least as large. -/
def first_min (w : Nat → Nat) (g : Nat) (ps : List Nat) : Prop :=
  ∃ pre post, ps = pre ++ g :: post ∧ (∀ p, p ∈ pre → w g < w p) ∧ (∀ p, p ∈ post → w g ≤ w p)

/-- A store whose heap holds one list of three nodes, `1 -> 2 -> 3`, with slot classes 2, 0
and 0 (slot sizes 32, 8 and 8). -/
def mixed_list : lightkv :=
  { lightkv_init demo all_null with
    heap := fun p =>
      if p = 1 then some ⟨⟨0, 1, 2⟩, 2, 0⟩
      else if p = 2 then some ⟨⟨0, 33, 0⟩, 3, 1⟩
      else if p = 3 then some ⟨⟨0, 41, 0⟩, 0, 2⟩
      else none,
    nalloc := 3 }

/-- The `demo` store after `delete` on the class-0 handles `(0, 1, 0)`, `(0, 9, 0)` and
`(0, 17, 0)`: the class-0 free list is `3 -> 2 -> 1`. -/
def three_free : Option lightkv := do
  let (kv1, _) ← lightkv_delete demo (lightkv_init demo all_null) ⟨0, 1, 0⟩ yields_node
  let (kv2, _) ← lightkv_delete demo kv1 ⟨0, 9, 0⟩ yields_node
  let (kv3, _) ← lightkv_delete demo kv2 ⟨0, 17, 0⟩ yields_node
  pure kv3

/-- The call `freelist_remove(head, f)` on the class-0 list of `three_free`: the head it
returns and the locations of the list that starts at that head. -/
def remove_run (f : Nat) : Option (Nat × Option (List loc)) := do
  let kv ← three_free
  let (hp, head) ← freelist_remove kv.heap (kv.freelist 0) f
  pure (head, freelist_locs hp kv.nalloc head)

/-- The store states reached from `lightkv_init`, with a table that reads `NULL`, by
calls of `lightkv_insert` and `lightkv_delete` that return; `delete` may be given any
handle, and in it `freeloc_new` yields its node or `NULL`. -/
inductive Reachable (cfg : Config) : lightkv → Prop where
  | init : Reachable cfg (lightkv_init cfg all_null)
  | insert (kv kv2 : lightkv) (key val : List Nat) (len : Nat) (h : loc) :
      Reachable cfg kv → lightkv_insert cfg kv key val len = some (kv2, h) → Reachable cfg kv2
  | delete (kv kv2 : lightkv) (h : loc) (b : Bool) (ret : Nat → Nat) :
      Reachable cfg kv → (ret (kv.nalloc + 1) = kv.nalloc + 1 ∨ ret (kv.nalloc + 1) = 0) →
      lightkv_delete cfg kv h ret = some (kv2, b) → Reachable cfg kv2

/-- The links of a heap respect classes: addresses above `n` are unallocated, and every
allocated node points, by `next` and by `prev`, below `n + 1` and, where it points at an
allocated node, at one whose location has the same size class. -/
def heap_ok (hp : Heap) (n : Nat) : Prop :=
  (∀ p, n < p → hp p = none) ∧
  ∀ p nd, hp.deref p = some nd →
    nd.next ≤ n ∧ nd.prev ≤ n ∧
    (∀ nx, hp.deref nd.next = some nx → nx.l.sclass = nd.l.sclass) ∧
    (∀ pv, hp.deref nd.prev = some pv → pv.l.sclass = nd.l.sclass)

/-- The class invariant of a store: its heap links respect classes and every list head
that is an allocated node holds a location of the list's class. -/
def class_inv (kv : lightkv) : Prop :=
  heap_ok kv.heap kv.nalloc ∧
  (∀ c, kv.freelist c ≤ kv.nalloc) ∧
  ∀ c nd, kv.heap.deref (kv.freelist c) = some nd → nd.l.sclass = c

/-- A `demo` store whose cursor offset is `2 ^ 32 - 16`: adding a rounded size of 32 and 2
to it passes `2 ^ 32`. -/
def wrap_store : lightkv :=
  { lightkv_init demo all_null with end_loc := ⟨0, 4294967280, 0⟩ }

/-- A `demo` store whose cursor is at offset 250 of segment `2 ^ 16 - 1`, the last segment
number of a 16-bit `num`; the segment is mapped. -/
def last_segment_store : lightkv :=
  { lightkv_init demo all_null with
    end_loc := ⟨65535, 250, 0⟩,
    filemaps := fun i => if i = 65535 then some (alloc_map demo.MAX_FILESIZE) else none,
    nfiles := 65536 }

/-- The block `malloc` returned to `lightkv_init` holds what an earlier owner left in
it: every head of the table reads as the address `1`, which is not a node of the store. -/
def stale_table : Nat → Nat := fun _ => 1

/-! ## Size classes: lemmas -/

theorem smear_testBit (k v i : Nat) :
    (smear k v).testBit i = (v.testBit i || v.testBit (k + i)) := by
  unfold smear
  rw [Nat.testBit_lor, Nat.testBit_shiftRight]

/-- Doubling step: if bit `i` of `a` collects bits `i .. i+n-1` of `v`, then bit `i` of
`smear n a` collects bits `i .. i+2n-1` of `v`. -/
theorem smear_window (v a n : Nat)
    (h : ∀ i, a.testBit i = true ↔ ∃ j, j < n ∧ v.testBit (i + j) = true) (i : Nat) :
    (smear n a).testBit i = true ↔ ∃ j, j < 2 * n ∧ v.testBit (i + j) = true := by
  rw [smear_testBit, Bool.or_eq_true, h, h]
  constructor
  · rintro (⟨j, hj, hb⟩ | ⟨j, hj, hb⟩)
    · exact ⟨j, by omega, hb⟩
    · refine ⟨n + j, by omega, ?_⟩
      have : i + (n + j) = n + i + j := by omega
      rw [this]; exact hb
  · rintro ⟨j, hj, hb⟩
    by_cases hjn : j < n
    · exact Or.inl ⟨j, hjn, hb⟩
    · refine Or.inr ⟨j - n, by omega, ?_⟩
      have : n + i + (j - n) = i + j := by omega
      rw [this]; exact hb

theorem smear_all_testBit (v i : Nat) :
    (smear 16 (smear 8 (smear 4 (smear 2 (smear 1 v))))).testBit i = true ↔
      ∃ j, j < 32 ∧ v.testBit (i + j) = true := by
  have h1 : ∀ i, v.testBit i = true ↔ ∃ j, j < 1 ∧ v.testBit (i + j) = true := by
    intro i
    constructor
    · intro h; exact ⟨0, by omega, by simpa using h⟩
    · rintro ⟨j, hj, hb⟩
      have : j = 0 := by omega
      subst this; simpa using hb
  have h2 := smear_window v v 1 h1
  have h4 := smear_window v _ 2 h2
  have h8 := smear_window v _ 4 h4
  have h16 := smear_window v _ 8 h8
  exact smear_window v _ 16 h16 i

theorem testBit_log2_self (m : Nat) (hm : m ≠ 0) : m.testBit m.log2 = true := by
  rw [Nat.testBit_to_div_mod]
  have h1 : 2 ^ m.log2 ≤ m := Nat.log2_self_le hm
  have h2 : m < 2 ^ (m.log2 + 1) := Nat.lt_log2_self
  have h3 : m / 2 ^ m.log2 = 1 := by
    apply Nat.div_eq_of_lt_le
    · simpa using h1
    · rw [pow_succ] at h2; omega
  simp [h3]

/-- The five smear steps fill every bit below the top bit of a non-zero `uint32_t`. -/
theorem smear_all_eq (m : Nat) (hm : m ≠ 0) (hlt : m < 2 ^ 32) :
    smear 16 (smear 8 (smear 4 (smear 2 (smear 1 m)))) = 2 ^ (m.log2 + 1) - 1 := by
  apply Nat.eq_of_testBit_eq
  intro i
  rw [Nat.testBit_two_pow_sub_one]
  have hlog : m.log2 < 32 := (Nat.log2_lt hm).2 hlt
  by_cases hi : i < m.log2 + 1
  · rw [decide_eq_true hi]
    rw [smear_all_testBit]
    refine ⟨m.log2 - i, by omega, ?_⟩
    have : i + (m.log2 - i) = m.log2 := by omega
    rw [this]; exact testBit_log2_self m hm
  · rw [decide_eq_false hi]
    rw [Bool.eq_false_iff]
    intro hb
    rw [smear_all_testBit] at hb
    obtain ⟨j, _, hb⟩ := hb
    have h1 : 2 ^ (i + j) ≤ m := Nat.testBit_implies_ge hb
    have h2 : i + j ≤ m.log2 := (Nat.le_log2 hm).2 h1
    omega

theorem smear_all_zero : smear 16 (smear 8 (smear 4 (smear 2 (smear 1 0)))) = 0 := by
  decide

/-- Closed form of `roundsize` on `2 ≤ v ≤ 2 ^ 31`. -/
theorem roundsize_eq (v : Nat) (h2 : 2 ≤ v) (hv : v ≤ 2 ^ 31) :
    roundsize v = 2 ^ ((v - 1).log2 + 1) := by
  have hm : (v + (2 ^ 32 - 1)) % 2 ^ 32 = v - 1 := by omega
  have hne : v - 1 ≠ 0 := by omega
  have hlt : v - 1 < 2 ^ 32 := by omega
  have hlog : (v - 1).log2 < 31 := (Nat.log2_lt hne).2 (by omega)
  have hpos : 0 < 2 ^ ((v - 1).log2 + 1) := Nat.pos_pow_of_pos _ (by decide)
  have hle : 2 ^ ((v - 1).log2 + 1) ≤ 2 ^ 31 := Nat.pow_le_pow_right (by decide) (by omega)
  unfold roundsize
  simp only [hm, smear_all_eq (v - 1) hne hlt]
  omega

theorem roundsize_one : roundsize 1 = 1 := by decide

/-- On `1 ≤ n ≤ 2 ^ 31` the result of `roundsize` is not below its argument. -/
theorem le_roundsize (n : Nat) (h1 : 1 ≤ n) (h2 : n ≤ 2 ^ 31) : n ≤ roundsize n := by
  by_cases hn : n = 1
  · subst hn
    rw [roundsize_one]
  · rw [roundsize_eq n (by omega) h2]
    have : n - 1 < 2 ^ ((n - 1).log2 + 1) := Nat.lt_log2_self
    omega

theorem sizeslot_loop_eq (fuel : Nat) : ∀ v n : Nat, v < 2 ^ fuel →
    sizeslot_loop fuel v n = n + v.log2 := by
  induction fuel with
  | zero =>
    intro v n hv
    have : v = 0 := by simpa using hv
    subst this
    simp [sizeslot_loop, Nat.log2_zero]
  | succ f ih =>
    intro v n hv
    unfold sizeslot_loop
    rw [Nat.shiftRight_one]
    by_cases h2 : 2 ≤ v
    · have hne : v / 2 ≠ 0 := by omega
      have hlt : v / 2 < 2 ^ f := by rw [pow_succ] at hv; omega
      rw [if_pos hne, ih _ _ hlt]
      conv_rhs => rw [Nat.log2]
      rw [if_pos h2]; omega
    · have hz : v / 2 = 0 := by omega
      rw [hz]
      conv_rhs => rw [Nat.log2]
      simp [h2]

theorem sizeslot_loop_two_pow (k : Nat) (hk : k ≤ 31) : sizeslot_loop 32 (2 ^ k) 0 = k := by
  have hlt : 2 ^ k < 2 ^ 32 := Nat.pow_lt_pow_right (by decide) (by omega)
  rw [sizeslot_loop_eq 32 _ _ hlt, Nat.log2_two_pow]; omega

theorem get_sizeslot_two_pow (cfg : Config) (k : Nat) (hk : k ≤ 31)
    (h1 : cfg.FIRST_SIZECLASS ≤ k) (h2 : k < cfg.FIRST_SIZECLASS + cfg.MAX_SIZES) :
    get_sizeslot cfg (2 ^ k) = ((k - cfg.FIRST_SIZECLASS : Nat) : Int) := by
  unfold get_sizeslot
  simp only [sizeslot_loop_two_pow k hk]
  split_ifs <;> omega

theorem get_slotsize_nat (cfg : Config) (i : Nat) (hi : i + cfg.FIRST_SIZECLASS ≤ 31) :
    get_slotsize cfg (i : Int) = 2 ^ (i + cfg.FIRST_SIZECLASS) := by
  unfold get_slotsize
  have he : ¬ ((i : Int) + (cfg.FIRST_SIZECLASS : Int) < 0) := by omega
  have ht : ((i : Int) + (cfg.FIRST_SIZECLASS : Int)).toNat = i + cfg.FIRST_SIZECLASS := by omega
  simp only [he, if_false, ht]
  apply Nat.mod_eq_of_lt
  exact Nat.pow_lt_pow_right (by decide) (by omega)

/-! ## Buffers: lemmas -/

theorem getD_set_zero (buf : List Nat) (i j x : Nat) :
    (buf.set i x).getD j 0 = if i = j ∧ j < buf.length then x else buf.getD j 0 := by
  simp only [List.getD_eq_getElem?_getD, List.getElem?_set]
  by_cases hij : i = j
  · subst hij
    by_cases hl : i < buf.length
    · simp [hl]
    · simp [hl, List.getElem?_eq_none (Nat.le_of_not_lt hl)]
  · simp [hij]

theorem length_put_le (n : Nat) : ∀ (buf : List Nat) (off val : Nat),
    (put_le buf off n val).length = buf.length := by
  induction n with
  | zero => intro buf off val; rfl
  | succ n ih => intro buf off val; simp [put_le, ih]

theorem getD_put_le_outside (n : Nat) : ∀ (buf : List Nat) (off val i : Nat),
    (i < off ∨ off + n ≤ i) → (put_le buf off n val).getD i 0 = buf.getD i 0 := by
  induction n with
  | zero => intro buf off val i _; rfl
  | succ n ih =>
    intro buf off val i hi
    simp only [put_le]
    rw [ih _ _ _ _ (by omega), getD_set_zero]
    have : ¬ (off = i ∧ i < buf.length) := by omega
    simp [this]

theorem get_le_congr (n : Nat) : ∀ (a b : List Nat) (off : Nat),
    (∀ i, off ≤ i → i < off + n → a.getD i 0 = b.getD i 0) →
    get_le a off n = get_le b off n := by
  induction n with
  | zero => intro a b off _; rfl
  | succ n ih =>
    intro a b off h
    simp only [get_le]
    rw [h off (by omega) (by omega), ih a b (off + 1) (fun i h1 h2 => h i (by omega) (by omega))]

theorem get_le_put_le (n : Nat) : ∀ (buf : List Nat) (off val : Nat),
    off + n ≤ buf.length → get_le (put_le buf off n val) off n = val % 256 ^ n := by
  induction n with
  | zero => intro buf off val _; simp [get_le, Nat.mod_one]
  | succ n ih =>
    intro buf off val h
    simp only [put_le, get_le]
    rw [ih _ _ _ (by simp; omega)]
    rw [getD_put_le_outside _ _ _ _ _ (Or.inl (by omega)), getD_set_zero]
    have : off = off ∧ off < buf.length := ⟨rfl, by omega⟩
    rw [if_pos this, pow_succ, Nat.mul_comm (256 ^ n) 256, Nat.mod_mul]

theorem get_le_lt (n : Nat) : ∀ (buf : List Nat) (off : Nat),
    (∀ i, buf.getD i 0 < 256) → get_le buf off n < 256 ^ n := by
  induction n with
  | zero => intro buf off _; simp [get_le]
  | succ n ih =>
    intro buf off h
    simp only [get_le]
    have h1 := h off
    have h2 := ih buf (off + 1) h
    rw [pow_succ]; omega

theorem get_le_zero (n : Nat) : ∀ (buf : List Nat) (off : Nat),
    (∀ i, off ≤ i → buf.getD i 0 = 0) → get_le buf off n = 0 := by
  induction n with
  | zero => intro buf off _; rfl
  | succ n ih =>
    intro buf off h
    simp only [get_le]
    rw [h off (Nat.le_refl _), ih buf (off + 1) (fun i hi => h i (by omega))]

theorem length_blit (dst src : List Nat) (off : Nat) (h : off + src.length ≤ dst.length) :
    (blit dst off src).length = dst.length := by
  simp [blit]; omega

theorem getD_blit_lt (dst src : List Nat) (off i : Nat) (hi : i < off) (h : off ≤ dst.length) :
    (blit dst off src).getD i 0 = dst.getD i 0 := by
  unfold blit
  simp only [List.getD_eq_getElem?_getD]
  rw [List.append_assoc, List.getElem?_append_left (by simp; omega)]
  rw [List.getElem?_take_of_lt hi]

/-! ## Record buffers: lemmas -/

theorem strlen_le (key : List Nat) : strlen key ≤ key.length := by
  unfold strlen
  induction key with
  | nil => simp
  | cons a t ih =>
    simp only [List.takeWhile]
    split
    · simp only [List.length_cons]; omega
    · simp

theorem length_set_header (cfg : Config) (r : List Nat) (t l e : Nat) :
    (set_header cfg r t l e).length = r.length := by
  simp [set_header, length_put_le]

theorem length_mk_record (cfg : Config) (key val : List Nat) (len : Nat)
    (hlen : len ≤ val.length) :
    (mk_record cfg key val len).length = cfg.RECORD_HEADER_SIZE + strlen key + len := by
  have hk := strlen_le key
  have h1 : (key.take (strlen key)).length = strlen key := by simp; omega
  have h2 : (val.take len).length = len := by simp; omega
  unfold mk_record
  simp only []
  rw [length_blit, length_blit, length_set_header, List.length_replicate]
  · rw [length_set_header, List.length_replicate, h1]; omega
  · rw [length_blit, length_set_header, List.length_replicate, h2]
    rw [length_set_header, List.length_replicate, h1]; omega

theorem rec_len_mk_record (cfg : Config) (key val : List Nat) (len : Nat)
    (hcfg : cfg.header_ok) :
    rec_len cfg (mk_record cfg key val len) =
      (cfg.RECORD_HEADER_SIZE + strlen key + len) % 256 ^ cfg.LEN_BYTES := by
  have hk := strlen_le key
  have h1 : (key.take (strlen key)).length = strlen key := by simp; omega
  unfold Config.header_ok at hcfg
  unfold rec_len
  have hcongr : get_le (mk_record cfg key val len) 1 cfg.LEN_BYTES =
      get_le (put_le ((List.replicate (cfg.RECORD_HEADER_SIZE + strlen key + len) 0).set 0
        (cfg.RECORD_VAL % 256)) 1 cfg.LEN_BYTES (cfg.RECORD_HEADER_SIZE + strlen key + len))
        1 cfg.LEN_BYTES := by
    apply get_le_congr
    intro i hi1 hi2
    unfold mk_record
    simp only []
    rw [getD_blit_lt _ _ _ _ (by omega)
      (by rw [length_blit, length_set_header, List.length_replicate]
          · omega
          · rw [length_set_header, List.length_replicate, h1]; omega)]
    rw [getD_blit_lt _ _ _ _ (by omega)
      (by rw [length_set_header, List.length_replicate]; omega)]
    unfold set_header
    rw [getD_put_le_outside _ _ _ _ _ (Or.inl (by omega))]
  rw [hcongr, get_le_put_le]
  simp; omega

theorem rec_len_mk_record_le (cfg : Config) (key val : List Nat) (len : Nat)
    (hcfg : cfg.header_ok) (hlen : len ≤ val.length) :
    rec_len cfg (mk_record cfg key val len) ≤ (mk_record cfg key val len).length := by
  rw [rec_len_mk_record cfg key val len hcfg, length_mk_record cfg key val len hlen]
  exact Nat.mod_le _ _

theorem getD_put_le_zero (n : Nat) : ∀ (buf : List Nat) (off i : Nat),
    buf.getD i 0 = 0 → (put_le buf off n 0).getD i 0 = 0 := by
  induction n with
  | zero => intro buf off i h; exact h
  | succ n ih =>
    intro buf off i h
    simp only [put_le]
    apply ih
    rw [getD_set_zero]
    split_ifs
    · rfl
    · exact h

/-- The scratch record of `lightkv_delete` has `len = 0`, whatever the layout. -/
theorem rec_len_tombstone (cfg : Config) (n t : Nat) :
    rec_len cfg (set_header cfg (List.replicate n 0) t 0 0) = 0 := by
  unfold rec_len
  apply get_le_zero
  intro i hi
  unfold set_header
  apply getD_put_le_zero
  apply getD_put_le_zero
  rw [getD_set_zero]
  have : ¬ (0 = i ∧ i < (List.replicate n 0).length) := by omega
  rw [if_neg this]
  simp only [List.getD_eq_getElem?_getD]
  by_cases hn : i < n
  · simp [List.getElem?_replicate, hn]
  · simp [List.getElem?_replicate, hn]

/-! ## Store operations: lemmas -/

theorem blit_nil (dst : List Nat) (off : Nat) : blit dst off [] = dst := by
  simp [blit]

/-- Writing the scratch record of `lightkv_delete` copies no byte. -/
theorem write_record_tombstone (cfg : Config) (kv : lightkv) (l : loc) (n t : Nat)
    (seg : List Nat) (hmap : kv.filemaps l.num = some seg) (hoff : l.offset ≤ seg.length) :
    write_record cfg kv l (set_header cfg (List.replicate n 0) t 0 0) = some (kv, 0) := by
  unfold write_record
  rw [hmap]
  simp only [rec_len_tombstone, List.take_zero, blit_nil, Nat.add_zero, Nat.zero_le, true_and,
    hoff, if_true]
  have hf : (fun i => if i = l.num then some seg else kv.filemaps i) = kv.filemaps := by
    funext i
    by_cases hi : i = l.num
    · simp [hi, hmap]
    · simp [hi]
  rw [hf]

theorem freelist_locs_null (hp : Heap) (fuel : Nat) : freelist_locs hp fuel 0 = some [] := by
  cases fuel <;> simp [freelist_locs]

theorem freelist_locs_nil (hp : Heap) (fuel head : Nat)
    (h : freelist_locs hp fuel head = some []) : head = 0 := by
  by_contra hne
  cases fuel with
  | zero => simp [freelist_locs, hne] at h
  | succ n =>
    simp only [freelist_locs, hne, if_false] at h
    cases hd : hp.deref head with
    | none => simp [hd] at h
    | some nd => simp [hd] at h

theorem freelist_locs_cons (hp : Heap) (fuel head : Nat) (l : loc) (L : List loc)
    (h : freelist_locs hp fuel head = some (l :: L)) :
    head ≠ 0 ∧ ∃ nd n, fuel = n + 1 ∧ hp.deref head = some nd ∧ nd.l = l ∧
      freelist_locs hp n nd.next = some L := by
  have hne : head ≠ 0 := by
    intro h0
    rw [h0, freelist_locs_null] at h
    simp at h
  refine ⟨hne, ?_⟩
  cases fuel with
  | zero => simp [freelist_locs, hne] at h
  | succ n =>
    simp only [freelist_locs, hne, if_false] at h
    cases hd : hp.deref head with
    | none => simp [hd] at h
    | some nd =>
      simp only [hd, Option.map_eq_some'] at h
      obtain ⟨ls, h1, h2⟩ := h
      simp only [List.cons.injEq] at h2
      refine ⟨nd, n, rfl, rfl, h2.1, ?_⟩
      rw [h1, h2.2]

/-- The walk only reads `l` and `next`: a heap that keeps them on every allocated node
gives the same list. -/
theorem freelist_locs_congr (hp hp2 : Heap)
    (hpres : ∀ p nd, hp.deref p = some nd →
      ∃ nd2, hp2.deref p = some nd2 ∧ nd2.l = nd.l ∧ nd2.next = nd.next)
    (fuel : Nat) : ∀ (head : Nat) (L : List loc),
    freelist_locs hp fuel head = some L → freelist_locs hp2 fuel head = some L := by
  induction fuel with
  | zero =>
    intro head L h
    simpa [freelist_locs] using h
  | succ n ih =>
    intro head L h
    by_cases hne : head = 0
    · subst hne
      rw [freelist_locs_null] at h ⊢
      exact h
    · simp only [freelist_locs, hne, if_false] at h ⊢
      cases hd : hp.deref head with
      | none => simp [hd] at h
      | some nd =>
        obtain ⟨nd2, h2, hl, hn⟩ := hpres head nd hd
        simp only [hd, Option.map_eq_some'] at h
        obtain ⟨ls, h1, hL⟩ := h
        simp only [h2, hn, ih _ _ h1, Option.map_some', hl, hL]

theorem deref_set_self (hp : Heap) (p : Nat) (nd : freeloc) (hp0 : p ≠ 0) :
    (hp.set p (some nd)).deref p = some nd := by
  simp [Heap.deref, Heap.set, hp0]

theorem deref_set_ne (hp : Heap) (p q : Nat) (x : Option freeloc) (hne : q ≠ p) :
    (hp.set p x).deref q = hp.deref q := by
  simp [Heap.deref, Heap.set, hne]

theorem deref_some_ne_zero (hp : Heap) (p : Nat) (nd : freeloc) (h : hp.deref p = some nd) :
    p ≠ 0 ∧ hp p = some nd := by
  unfold Heap.deref at h
  by_cases h0 : p = 0
  · simp [h0] at h
  · simp only [h0, if_false] at h
    exact ⟨h0, h⟩

/-- Function `lightkv_delete` on a handle whose segment is mapped and whose class is a valid index,
when the free list of that class is well formed: it returns `true`, leaves every mapped
byte and the cursor as they were, and puts the location in front of the list. -/
theorem lightkv_delete_spec (cfg : Config) (kv : lightkv) (l : loc) (seg : List Nat)
    (L : List loc) (ret : Nat → Nat)
    (hmap : kv.filemaps l.num = some seg) (hoff : l.offset ≤ seg.length)
    (hcls : l.sclass < cfg.MAX_SIZES) (hhdr : holds_header cfg l.sclass)
    (hfresh : heap_fresh kv)
    (hlist : freelist_locs kv.heap kv.nalloc (kv.freelist l.sclass) = some L)
    (hret : ret (kv.nalloc + 1) = kv.nalloc + 1) :
    ∃ kv1, lightkv_delete cfg kv l ret = some (kv1, true) ∧
      kv1.filemaps = kv.filemaps ∧ kv1.end_loc = kv.end_loc ∧ kv1.nfiles = kv.nfiles ∧
      heap_fresh kv1 ∧
      (∀ c, c ≠ l.sclass → kv1.freelist c = kv.freelist c) ∧
      freelist_locs kv1.heap kv1.nalloc (kv1.freelist l.sclass) = some (l :: L) ∧
      kv1.nalloc = kv.nalloc + 1 := by
  have hcls2 : ¬ cfg.MAX_SIZES ≤ l.sclass := by omega
  have hh : ¬ (get_slotsize cfg (l.sclass : Int) < cfg.RECORD_HEADER_SIZE ∨
      get_slotsize cfg (l.sclass : Int) < 1 + cfg.LEN_BYTES + cfg.EXTLEN_BYTES) := by
    obtain ⟨ha, hb⟩ := hhdr
    omega
  unfold lightkv_delete
  simp only [hh, write_record_tombstone cfg kv l _ _ seg hmap hoff, freeloc_new, hret, hcls2,
    if_false]
  by_cases hhead : kv.freelist l.sclass = 0
  · -- empty list
    rw [hhead, freelist_locs_null] at hlist
    have hL : L = [] := by simpa using hlist.symm
    subst hL
    simp only [freelist_add, hhead, ne_eq, not_true_eq_false, if_false]
    refine ⟨_, rfl, rfl, rfl, rfl, ?_, ?_, ?_, rfl⟩
    · intro p hp
      have : p ≠ kv.nalloc + 1 := by simp only [] at hp; omega
      simp only [Heap.set, this, if_false]
      exact hfresh p (by simp only [] at hp; omega)
    · intro c hc; simp [hc]
    · simp only [if_true, freelist_locs, Nat.succ_ne_zero, if_false,
        deref_set_self _ _ _ (Nat.succ_ne_zero _), freelist_locs_null, Option.map_some']
  · -- non-empty list
    cases L with
    | nil => exact absurd (freelist_locs_nil _ _ _ hlist) hhead
    | cons l0 L0 =>
      obtain ⟨_, hd, n, hfuel, hderef, _, _⟩ := freelist_locs_cons _ _ _ _ _ hlist
      obtain ⟨_, hraw⟩ := deref_some_ne_zero _ _ _ hderef
      have hle : kv.freelist l.sclass ≤ kv.nalloc := by
        by_contra hgt
        rw [hfresh _ (by omega)] at hraw
        simp at hraw
      have hne1 : kv.freelist l.sclass ≠ kv.nalloc + 1 := by omega
      have hne2 : kv.nalloc + 1 ≠ kv.freelist l.sclass := by omega
      have hd1 : (kv.heap.set (kv.nalloc + 1) (some ⟨l, 0, 0⟩)).deref (kv.freelist l.sclass)
          = some hd := by
        rw [deref_set_ne _ _ _ _ hne1]; exact hderef
      simp only [freelist_add, ne_eq, hhead, not_false_eq_true, if_true, hd1,
        deref_set_ne _ _ _ _ hne2, deref_set_self _ _ _ (Nat.succ_ne_zero _)]
      refine ⟨_, rfl, rfl, rfl, rfl, ?_, ?_, ?_, rfl⟩
      · intro p hp
        have h1 : p ≠ kv.nalloc + 1 := by simp only [] at hp; omega
        have h2 : p ≠ kv.freelist l.sclass := by simp only [] at hp; omega
        simp only [Heap.set, h1, h2, if_false]
        exact hfresh p (by simp only [] at hp; omega)
      · intro c hc; simp [hc]
      · simp only [if_true, freelist_locs, Nat.succ_ne_zero, if_false,
          deref_set_self _ _ _ (Nat.succ_ne_zero _)]
        have hw : freelist_locs
            (((kv.heap.set (kv.nalloc + 1) (some ⟨l, 0, 0⟩)).set (kv.freelist l.sclass)
              (some { hd with prev := kv.nalloc + 1 })).set (kv.nalloc + 1)
              (some ⟨l, kv.freelist l.sclass, 0⟩))
            kv.nalloc (kv.freelist l.sclass) = some (l0 :: L0) := by
          apply freelist_locs_congr kv.heap _ _ _ _ _ hlist
          intro p nd hpd
          obtain ⟨hp0, hpraw⟩ := deref_some_ne_zero _ _ _ hpd
          have hple : p ≤ kv.nalloc := by
            by_contra hgt
            rw [hfresh _ (by omega)] at hpraw
            simp at hpraw
          rw [deref_set_ne _ _ _ _ (by omega : p ≠ kv.nalloc + 1)]
          by_cases hph : p = kv.freelist l.sclass
          · subst hph
            rw [deref_set_self _ _ _ hp0]
            rw [hderef] at hpd
            cases hpd
            exact ⟨_, rfl, rfl, rfl⟩
          · rw [deref_set_ne _ _ _ _ hph, deref_set_ne _ _ _ _ (by omega : p ≠ kv.nalloc + 1)]
            exact ⟨nd, hpd, rfl, rfl⟩
        simp only [hw, Option.map_some']

theorem freelist_get_null (cfg : Config) (kv : lightkv) (size : Nat) :
    freelist_get cfg kv 0 size = some 0 := by
  simp [freelist_get, freelist_get_loop]

/-- Function `lightkv_insert` when the free list of the record's class is empty, with `r` standing
for the rounded size and `c` for the class: the record is written at the location
`create_nextloc` gives. -/
theorem lightkv_insert_miss_at (cfg : Config) (kv : lightkv) (key val : List Nat) (len r c : Nat)
    (hr : record_rsize cfg key len = r) (hc : (record_slot cfg key len).toNat = c)
    (hlen : len ≤ val.length)
    (h0 : 0 ≤ record_slot cfg key len) (h1 : record_slot cfg key len < (cfg.MAX_SIZES : Int))
    (hhead : kv.freelist c = 0) :
    lightkv_insert cfg kv key val len =
      match write_record cfg (create_nextloc cfg kv r).1
          { (create_nextloc cfg kv r).2 with sclass := c }
          (mk_record cfg key val len) with
      | none => none
      | some (kv2, n) =>
        some ({ kv2 with
                  end_loc := { kv2.end_loc with
                    num := (create_nextloc cfg kv r).2.num,
                    offset := (2 ^ 32 - 1 + ((create_nextloc cfg kv r).2.offset + n))
                                % 2 ^ 32 } },
              { (create_nextloc cfg kv r).2 with sclass := c }) := by
  have hl : ¬ val.length < len := by omega
  have hs : ¬ (record_slot cfg key len < 0 ∨ (cfg.MAX_SIZES : Int) ≤ record_slot cfg key len) := by
    omega
  have hslot : record_slot cfg key len = get_sizeslot cfg r := by
    rw [← hr]
    rfl
  rw [hslot] at hs hc
  unfold record_rsize record_size at hr
  unfold lightkv_insert
  simp only []
  rw [hr, hc]
  simp only [hl, if_false, hs, hhead, freelist_get_null, ne_eq, not_true_eq_false]

/-- Function `create_nextloc` when the 32-bit sum exceeds `MAX_FILESIZE`: the next segment is
opened. -/
theorem create_nextloc_new (cfg : Config) (kv : lightkv) (size : Nat)
    (hov : (kv.end_loc.offset + size + 2) % 2 ^ 32 > cfg.MAX_FILESIZE) :
    create_nextloc cfg kv size =
      ({ kv with
          nfiles := kv.nfiles + 1,
          filemaps := fun i => if i = (kv.end_loc.num + 1) % 2 ^ cfg.NUM_BITS
                               then some (alloc_map cfg.MAX_FILESIZE) else kv.filemaps i },
        ⟨(kv.end_loc.num + 1) % 2 ^ cfg.NUM_BITS, 1, 0⟩) := by
  unfold create_nextloc
  simp only []
  rw [if_pos hov]

/-- Function `create_nextloc` when the 32-bit sum does not exceed `MAX_FILESIZE`: the cursor's
segment is kept. -/
theorem create_nextloc_stay (cfg : Config) (kv : lightkv) (size : Nat)
    (hov : ¬ (kv.end_loc.offset + size + 2) % 2 ^ 32 > cfg.MAX_FILESIZE) :
    create_nextloc cfg kv size =
      (kv, ⟨kv.end_loc.num, (kv.end_loc.offset + 1) % 2 ^ 32, 0⟩) := by
  unfold create_nextloc
  simp only []
  rw [if_neg hov]

/-- Function `create_nextloc` touches neither the free lists nor the cursor. -/
theorem create_nextloc_keeps (cfg : Config) (kv : lightkv) (size : Nat) :
    (create_nextloc cfg kv size).1.freelist = kv.freelist ∧
      (create_nextloc cfg kv size).1.heap = kv.heap ∧
      (create_nextloc cfg kv size).1.nalloc = kv.nalloc ∧
      (create_nextloc cfg kv size).1.end_loc = kv.end_loc := by
  by_cases hov : (kv.end_loc.offset + size + 2) % 2 ^ 32 > cfg.MAX_FILESIZE
  · rw [create_nextloc_new cfg kv size hov]
    exact ⟨rfl, rfl, rfl, rfl⟩
  · rw [create_nextloc_stay cfg kv size hov]
    exact ⟨rfl, rfl, rfl, rfl⟩

/-- Function `create_nextloc` when the sum `offset + size + 2` fits 32 bits. -/
theorem create_nextloc_nowrap (cfg : Config) (kv : lightkv) (size : Nat)
    (hnw : kv.end_loc.offset + size + 2 < 2 ^ 32) :
    create_nextloc cfg kv size =
      if kv.end_loc.offset + size + 2 > cfg.MAX_FILESIZE then
        ({ kv with
            nfiles := kv.nfiles + 1,
            filemaps := fun i => if i = (kv.end_loc.num + 1) % 2 ^ cfg.NUM_BITS
                                 then some (alloc_map cfg.MAX_FILESIZE) else kv.filemaps i },
          ⟨(kv.end_loc.num + 1) % 2 ^ cfg.NUM_BITS, 1, 0⟩)
      else (kv, ⟨kv.end_loc.num, kv.end_loc.offset + 1, 0⟩) := by
  have hm : (kv.end_loc.offset + size + 2) % 2 ^ 32 = kv.end_loc.offset + size + 2 :=
    Nat.mod_eq_of_lt hnw
  have hm1 : (kv.end_loc.offset + 1) % 2 ^ 32 = kv.end_loc.offset + 1 :=
    Nat.mod_eq_of_lt (by omega)
  by_cases hov : kv.end_loc.offset + size + 2 > cfg.MAX_FILESIZE
  · rw [if_pos hov, create_nextloc_new cfg kv size (by rw [hm]; exact hov)]
  · rw [if_neg hov, create_nextloc_stay cfg kv size (by rw [hm]; exact hov), hm1]

theorem write_record_some (cfg : Config) (kv kv2 : lightkv) (l : loc) (r : List Nat) (n : Nat)
    (h : write_record cfg kv l r = some (kv2, n)) :
    n = rec_len cfg r ∧ kv2.nfiles = kv.nfiles ∧ kv2.end_loc = kv.end_loc ∧
      kv2.freelist = kv.freelist ∧ kv2.heap = kv.heap ∧ kv2.nalloc = kv.nalloc := by
  unfold write_record at h
  cases hm : kv.filemaps l.num with
  | none => simp [hm] at h
  | some seg =>
    simp only [hm] at h
    split_ifs at h
    simp only [Option.some.injEq, Prod.mk.injEq] at h
    obtain ⟨h1, h2⟩ := h
    subst h1
    exact ⟨h2.symm, rfl, rfl, rfl, rfl, rfl⟩

theorem write_record_fits (cfg : Config) (kv : lightkv) (l : loc) (r seg : List Nat)
    (hmap : kv.filemaps l.num = some seg) (hr : rec_len cfg r ≤ r.length)
    (hfit : l.offset + rec_len cfg r ≤ seg.length) :
    ∃ kv2, write_record cfg kv l r = some (kv2, rec_len cfg r) := by
  unfold write_record
  simp only [hmap, hr, hfit, and_self, if_true]
  exact ⟨_, rfl⟩

theorem get_sizeslot_nonneg (cfg : Config) (v : Nat) (hmax : 1 ≤ cfg.MAX_SIZES) :
    0 ≤ get_sizeslot cfg v := by
  unfold get_sizeslot
  simp only []
  split_ifs <;> omega

/-- When `lightkv_insert` returns, the value buffer held `len` bytes and the record's class
indexes the free-list table. -/
theorem lightkv_insert_some (cfg : Config) (kv kv2 : lightkv) (key val : List Nat) (len : Nat)
    (h : loc) (hins : lightkv_insert cfg kv key val len = some (kv2, h)) :
    len ≤ val.length ∧ 0 ≤ record_slot cfg key len ∧
      record_slot cfg key len < (cfg.MAX_SIZES : Int) := by
  unfold lightkv_insert at hins
  unfold record_slot record_rsize record_size
  by_cases hl : val.length < len
  · simp [hl] at hins
  · simp only [hl, if_false] at hins
    split_ifs at hins with hs
    exact ⟨by omega, by omega, by omega⟩

/-- The clamp of `get_sizeslot` compares the class index with
`FIRST_SIZECLASS + MAX_SIZES - 1`: whenever `1 ≤ FIRST_SIZECLASS` and
`FIRST_SIZECLASS + MAX_SIZES ≤ 31`, the slot size `2 ^ (FIRST_SIZECLASS + MAX_SIZES)` gets
the index `MAX_SIZES`, one past the table. -/
theorem get_sizeslot_past_table (cfg : Config) (h1 : 1 ≤ cfg.FIRST_SIZECLASS)
    (hmax : 1 ≤ cfg.MAX_SIZES) (h31 : cfg.FIRST_SIZECLASS + cfg.MAX_SIZES ≤ 31) :
    get_sizeslot cfg (2 ^ (cfg.FIRST_SIZECLASS + cfg.MAX_SIZES)) = (cfg.MAX_SIZES : Int) := by
  unfold get_sizeslot
  simp only [sizeslot_loop_two_pow _ h31]
  split_ifs <;> omega

/-- A `delete` that returns changes no mapped byte: every later `get` reports what it
reported before the delete. -/
theorem lightkv_delete_keeps_records (cfg : Config) (kv kv1 : lightkv) (h : loc) (b : Bool)
    (ret : Nat → Nat) (hdel : lightkv_delete cfg kv h ret = some (kv1, b)) :
    kv1.filemaps = kv.filemaps ∧ ∀ g, lightkv_get cfg kv1 g = lightkv_get cfg kv g := by
  have hfm : kv1.filemaps = kv.filemaps := by
    unfold lightkv_delete at hdel
    simp only [] at hdel
    by_cases hh : get_slotsize cfg (h.sclass : Int) < cfg.RECORD_HEADER_SIZE ∨
        get_slotsize cfg (h.sclass : Int) < 1 + cfg.LEN_BYTES + cfg.EXTLEN_BYTES
    · simp [hh] at hdel
    · simp only [hh, if_false] at hdel
      cases hm : kv.filemaps h.num with
      | none => simp [write_record, hm] at hdel
      | some seg =>
        by_cases hoff : h.offset ≤ seg.length
        · simp only [write_record_tombstone cfg kv h _ _ seg hm hoff, freeloc_new] at hdel
          by_cases hc : cfg.MAX_SIZES ≤ h.sclass
          · simp [hc] at hdel
          · simp only [hc, if_false] at hdel
            cases ha : freelist_add (kv.heap.set (kv.nalloc + 1) (some ⟨h, 0, 0⟩))
                (kv.freelist h.sclass) (ret (kv.nalloc + 1)) with
            | none => simp [ha] at hdel
            | some res =>
              simp only [ha, Option.some.injEq, Prod.mk.injEq] at hdel
              rw [← hdel.1]
        · simp [write_record, hm, rec_len_tombstone, hoff] at hdel
  refine ⟨hfm, ?_⟩
  intro g
  unfold lightkv_get read_record
  rw [hfm]

/-! ## Round trip of a record -/

theorem blit_def (dst src : List Nat) (off : Nat) :
    blit dst off src = dst.take off ++ src ++ dst.drop (off + src.length) := rfl

theorem take_blit_left (dst src : List Nat) (off : Nat) (h : off ≤ dst.length) :
    (blit dst off src).take (off + src.length) = dst.take off ++ src := by
  unfold blit
  rw [List.take_append_of_le_length (by simp only [List.length_append, List.length_take]; omega)]
  rw [List.take_of_length_le (by simp only [List.length_append, List.length_take]; omega)]

theorem mk_record_eq (cfg : Config) (key val : List Nat) (len : Nat) (hlen : len ≤ val.length) :
    mk_record cfg key val len =
      (set_header cfg (List.replicate (record_size cfg key len) 0) cfg.RECORD_VAL
          (record_size cfg key len) (strlen key)).take cfg.RECORD_HEADER_SIZE
        ++ key.take (strlen key) ++ val.take len := by
  have hk := strlen_le key
  have h1 : (key.take (strlen key)).length = strlen key := by simp; omega
  have h2 : (val.take len).length = len := by simp; omega
  unfold mk_record record_size
  simp only []
  generalize hr0 : set_header cfg (List.replicate (cfg.RECORD_HEADER_SIZE + strlen key + len) 0)
    cfg.RECORD_VAL (cfg.RECORD_HEADER_SIZE + strlen key + len) (strlen key) = r0
  have hl0 : r0.length = cfg.RECORD_HEADER_SIZE + strlen key + len := by
    rw [← hr0, length_set_header, List.length_replicate]
  have hb1 : (blit r0 cfg.RECORD_HEADER_SIZE (key.take (strlen key))).length = r0.length :=
    length_blit _ _ _ (by rw [h1]; omega)
  have ht := take_blit_left r0 (key.take (strlen key)) cfg.RECORD_HEADER_SIZE (by omega)
  rw [h1] at ht
  rw [blit_def (blit r0 cfg.RECORD_HEADER_SIZE (key.take (strlen key)))
    (val.take len) (cfg.RECORD_HEADER_SIZE + strlen key)]
  rw [ht, h2, List.drop_of_length_le (by rw [hb1]; omega), List.append_nil]

/-- The three fields of a header written by `set_header` on a buffer that holds a whole
header. -/
theorem fields_set_header (cfg : Config) (b : List Nat) (t l e : Nat) (hcfg : cfg.header_ok)
    (hb : cfg.RECORD_HEADER_SIZE ≤ b.length) :
    rec_type (set_header cfg b t l e) = t % 256 ∧
      rec_len cfg (set_header cfg b t l e) = l % 256 ^ cfg.LEN_BYTES ∧
      rec_extlen cfg (set_header cfg b t l e) = e % 256 ^ cfg.EXTLEN_BYTES := by
  unfold Config.header_ok at hcfg
  refine ⟨?_, ?_, ?_⟩
  · unfold rec_type set_header
    rw [getD_put_le_outside _ _ _ _ _ (Or.inl (by omega)),
      getD_put_le_outside _ _ _ _ _ (Or.inl (by omega)), getD_set_zero]
    have : 0 = 0 ∧ 0 < b.length := ⟨rfl, by omega⟩
    rw [if_pos this]
  · unfold rec_len set_header
    rw [get_le_congr _ _ (put_le (b.set 0 (t % 256)) 1 cfg.LEN_BYTES l) 1
      (fun i _ hi2 => getD_put_le_outside _ _ _ _ _ (Or.inl (by omega)))]
    rw [get_le_put_le _ _ _ _ (by simp; omega)]
  · unfold rec_extlen set_header
    rw [get_le_put_le _ _ _ _ (by rw [length_put_le]; simp; omega)]

/-- The header fields only depend on the first `RECORD_HEADER_SIZE` bytes. -/
theorem fields_congr (cfg : Config) (x a : List Nat) (hcfg : cfg.header_ok)
    (h : ∀ i, i < cfg.RECORD_HEADER_SIZE → x.getD i 0 = a.getD i 0) :
    rec_type x = rec_type a ∧ rec_len cfg x = rec_len cfg a ∧
      rec_extlen cfg x = rec_extlen cfg a := by
  unfold Config.header_ok at hcfg
  refine ⟨?_, ?_, ?_⟩
  · unfold rec_type
    exact h 0 (by omega)
  · unfold rec_len
    exact get_le_congr _ _ _ _ (fun i _ hi2 => h i (by omega))
  · unfold rec_extlen
    exact get_le_congr _ _ _ _ (fun i _ hi2 => h i (by omega))

theorem getD_take_append (a rest tail : List Nat) (n i : Nat) (hi : i < n) (hn : n ≤ a.length) :
    (a.take n ++ rest ++ tail).getD i 0 = a.getD i 0 := by
  simp only [List.getD_eq_getElem?_getD]
  rw [List.append_assoc, List.getElem?_append_left (by simp; omega), List.getElem?_take_of_lt hi]

/-- The fields of the record that `lightkv_insert` builds, also when more bytes follow
it in a slot buffer. -/
theorem fields_mk_record (cfg : Config) (key val tail : List Nat) (len : Nat)
    (hcfg : cfg.header_ok) (hlen : len ≤ val.length) :
    rec_type (mk_record cfg key val len ++ tail) = cfg.RECORD_VAL % 256 ∧
      rec_len cfg (mk_record cfg key val len ++ tail)
        = record_size cfg key len % 256 ^ cfg.LEN_BYTES ∧
      rec_extlen cfg (mk_record cfg key val len ++ tail)
        = strlen key % 256 ^ cfg.EXTLEN_BYTES := by
  have hsz : cfg.RECORD_HEADER_SIZE ≤
      (List.replicate (record_size cfg key len) 0).length := by
    rw [List.length_replicate]; unfold record_size; omega
  have hf := fields_set_header cfg (List.replicate (record_size cfg key len) 0) cfg.RECORD_VAL
    (record_size cfg key len) (strlen key) hcfg hsz
  have hc := fields_congr cfg (mk_record cfg key val len ++ tail)
    (set_header cfg (List.replicate (record_size cfg key len) 0) cfg.RECORD_VAL
      (record_size cfg key len) (strlen key)) hcfg
    (by
      intro i hi
      rw [mk_record_eq cfg key val len hlen, List.append_assoc _ (val.take len) tail]
      exact getD_take_append _ _ _ _ _ hi (by rw [length_set_header]; exact hsz))
  rw [hc.1, hc.2.1, hc.2.2]
  exact hf

theorem read_after_write (seg r : List Nat) (off slotsize : Nat)
    (hfit : off + r.length ≤ seg.length) (hslot : r.length ≤ slotsize) :
    ((blit seg off r).drop off).take slotsize
      = r ++ (seg.drop (off + r.length)).take (slotsize - r.length) := by
  unfold blit
  have h1 : (seg.take off).length = off := by simp; omega
  rw [List.append_assoc, List.drop_append_of_le_length (by omega),
    List.drop_of_length_le (by omega), List.nil_append, List.take_append_eq_append_take,
    List.take_of_length_le hslot]

/-- Decoding the record that `lightkv_insert` builds, possibly followed by more bytes of
the slot, when the lengths fit the header fields. -/
theorem get_mk_record (cfg : Config) (key val tail : List Nat) (len : Nat)
    (hcfg : cfg.header_ok) (hlen : len ≤ val.length)
    (hk : strlen key < 256 ^ cfg.EXTLEN_BYTES)
    (hs : record_size cfg key len < 256 ^ cfg.LEN_BYTES) :
    get_key cfg (mk_record cfg key val len ++ tail) = some (key.take (strlen key)) ∧
      get_val cfg (mk_record cfg key val len ++ tail) = some (val.take len, len) := by
  obtain ⟨_, hfl, hfe⟩ := fields_mk_record cfg key val tail len hcfg hlen
  rw [Nat.mod_eq_of_lt hs] at hfl
  rw [Nat.mod_eq_of_lt hk] at hfe
  have hkl := strlen_le key
  have h1 : (key.take (strlen key)).length = strlen key := by simp; omega
  have h2 : (val.take len).length = len := by simp; omega
  have hL : (mk_record cfg key val len).length = cfg.RECORD_HEADER_SIZE + strlen key + len :=
    length_mk_record cfg key val len hlen
  have hH : ((set_header cfg (List.replicate (record_size cfg key len) 0) cfg.RECORD_VAL
      (record_size cfg key len) (strlen key)).take cfg.RECORD_HEADER_SIZE).length
      = cfg.RECORD_HEADER_SIZE := by
    rw [List.length_take, length_set_header, List.length_replicate]
    unfold record_size; omega
  constructor
  · unfold get_key
    simp only [hfe]
    rw [if_pos (Or.inr (by rw [List.length_append, hL]; omega))]
    congr 1
    rw [mk_record_eq cfg key val len hlen]
    rw [List.append_assoc, List.append_assoc, List.drop_append_of_le_length (by omega),
      List.drop_of_length_le (by omega), List.nil_append,
      List.take_append_of_le_length (by omega), List.take_of_length_le (by omega)]
  · unfold get_val
    simp only [hfl, hfe]
    unfold record_size
    rw [if_neg (by omega), if_pos (Or.inr (by rw [List.length_append, hL]; omega))]
    have hl : cfg.RECORD_HEADER_SIZE + strlen key + len - cfg.RECORD_HEADER_SIZE - strlen key
        = len := by omega
    rw [hl]
    congr 2
    rw [mk_record_eq cfg key val len hlen]
    rw [List.append_assoc, List.drop_append_of_le_length
        (by rw [List.length_append, hH, h1]),
      List.drop_of_length_le (by rw [List.length_append, hH, h1]), List.nil_append,
      List.take_append_of_le_length (by omega), List.take_of_length_le (by omega)]

theorem get_slotsize_lt (cfg : Config) (slot : Int) : get_slotsize cfg slot < 2 ^ 32 := by
  unfold get_slotsize
  simp only []
  split_ifs
  · decide
  · exact Nat.mod_lt _ (by decide)

/-- Writing the record of `lightkv_insert` into a slot that holds it, then reading the slot
back with `lightkv_get`, returns the key and the value. -/
theorem get_after_write (cfg : Config) (kv : lightkv) (l : loc) (seg : List Nat)
    (key val : List Nat) (len : Nat)
    (hcfg : cfg.header_ok) (hval : cfg.RECORD_VAL < 256) (hlen : len ≤ val.length)
    (hk : strlen key < 256 ^ cfg.EXTLEN_BYTES)
    (hs : record_size cfg key len < 256 ^ cfg.LEN_BYTES)
    (hmap : kv.filemaps l.num = some seg)
    (hfit : l.offset + get_slotsize cfg (l.sclass : Int) ≤ seg.length)
    (hsz : record_size cfg key len ≤ get_slotsize cfg (l.sclass : Int)) :
    ∃ kvw, write_record cfg kv l (mk_record cfg key val len)
        = some (kvw, record_size cfg key len) ∧
      kvw.nfiles = kv.nfiles ∧ kvw.end_loc = kv.end_loc ∧
      ∀ el, lightkv_get cfg { kvw with end_loc := el } l
        = some (GetResult.found (key.take (strlen key)) (val.take len) len) := by
  have hL : (mk_record cfg key val len).length = record_size cfg key len :=
    length_mk_record cfg key val len hlen
  have hrl : rec_len cfg (mk_record cfg key val len) = record_size cfg key len := by
    rw [rec_len_mk_record cfg key val len hcfg]
    exact Nat.mod_eq_of_lt hs
  have hH : cfg.RECORD_HEADER_SIZE ≤ record_size cfg key len := by unfold record_size; omega
  have h32 := get_slotsize_lt cfg (l.sclass : Int)
  have htake : (mk_record cfg key val len).take (record_size cfg key len)
      = mk_record cfg key val len := List.take_of_length_le (by rw [hL])
  refine ⟨{ kv with filemaps := fun i =>
      if i = l.num then some (blit seg l.offset (mk_record cfg key val len))
      else kv.filemaps i }, ?_, rfl, rfl, ?_⟩
  · unfold write_record
    simp only [hmap, hrl, htake]
    rw [if_pos ⟨by rw [hL], by omega⟩]
  · intro el
    unfold lightkv_get read_record
    simp only [if_true]
    rw [length_blit _ _ _ (by rw [hL]; omega),
      if_pos hfit, read_after_write _ _ _ _ (by rw [hL]; omega) (by rw [hL]; exact hsz)]
    obtain ⟨hft, _, _⟩ := fields_mk_record cfg key val
      ((seg.drop (l.offset + (mk_record cfg key val len).length)).take
        (get_slotsize cfg (l.sclass : Int) - (mk_record cfg key val len).length)) len hcfg hlen
    obtain ⟨hgk, hgv⟩ := get_mk_record cfg key val
      ((seg.drop (l.offset + (mk_record cfg key val len).length)).take
        (get_slotsize cfg (l.sclass : Int) - (mk_record cfg key val len).length)) len hcfg hlen
      hk hs
    simp only [hft, Nat.mod_eq_of_lt hval, hgk, hgv]
    rw [if_neg (by rw [List.length_append, hL]; omega)]
    have hlt : len < 4294967296 := by
      unfold record_size at hsz; omega
    simp
    exact hlt

theorem strlen_nul_free (key : List Nat) (h : ∀ b, b ∈ key → b ≠ 0) : strlen key = key.length := by
  unfold strlen
  induction key with
  | nil => rfl
  | cons a t ih =>
    have ha : a ≠ 0 := h a (List.mem_cons_self a t)
    simp only [List.takeWhile, ne_eq, ha, not_false_eq_true, decide_True, List.length_cons]
    rw [ih (fun b hb => h b (List.mem_cons_of_mem a hb))]

/-- Round trip on an insert that misses the free list: on a store whose cursor segment is
mapped with `MAX_FILESIZE - 1` bytes, for a NUL-free key and a value of `len` bytes whose
lengths fit the header fields and whose rounded size `2 ^ k` is an unclamped class that
fits a segment, `lightkv_insert` returns a handle on which `lightkv_get` returns the key,
the value and `len`. -/
theorem roundtrip_on_miss (cfg : Config) (kv : lightkv) (key val : List Nat) (len k : Nat)
    (seg : List Nat)
    (hcfg : cfg.header_ok) (hval : cfg.RECORD_VAL < 256)
    (hkey : ∀ b, b ∈ key → b ≠ 0) (hvlen : val.length = len)
    (hk : strlen key < 256 ^ cfg.EXTLEN_BYTES)
    (hs : record_size cfg key len < 256 ^ cfg.LEN_BYTES)
    (hs31 : record_size cfg key len ≤ 2 ^ 31)
    (hr : record_rsize cfg key len = 2 ^ k)
    (hk1 : cfg.FIRST_SIZECLASS ≤ k) (hk2 : k < cfg.FIRST_SIZECLASS + cfg.MAX_SIZES)
    (hk31 : k ≤ 31)
    (hhead : kv.freelist (record_slot cfg key len).toNat = 0)
    (hmap : kv.filemaps kv.end_loc.num = some seg) (hseg : seg.length = cfg.MAX_FILESIZE - 1)
    (hmaxfile : 2 ^ k + 2 ≤ cfg.MAX_FILESIZE)
    (hnw : kv.end_loc.offset + 2 ^ k + 2 < 2 ^ 32) :
    ∃ kv2 h, lightkv_insert cfg kv key val len = some (kv2, h) ∧
      lightkv_get cfg kv2 h = some (GetResult.found key val len) := by
  have hlen : len ≤ val.length := by omega
  have hslot : record_slot cfg key len = ((k - cfg.FIRST_SIZECLASS : Nat) : Int) := by
    unfold record_slot
    rw [hr]
    exact get_sizeslot_two_pow cfg k hk31 hk1 hk2
  have h0 : 0 ≤ record_slot cfg key len := by rw [hslot]; omega
  have h1 : record_slot cfg key len < (cfg.MAX_SIZES : Int) := by rw [hslot]; omega
  have htn : (((record_slot cfg key len).toNat : Nat) : Int) = record_slot cfg key len :=
    Int.toNat_of_nonneg h0
  have hS : get_slotsize cfg (((record_slot cfg key len).toNat : Nat) : Int) = 2 ^ k := by
    rw [htn, hslot, get_slotsize_nat cfg _ (by omega)]
    congr 1; omega
  have hH : 1 ≤ record_size cfg key len := by
    unfold Config.header_ok at hcfg; unfold record_size; omega
  have hsz : record_size cfg key len ≤ 2 ^ k := by
    have hge := le_roundsize (record_size cfg key len) hH hs31
    unfold record_rsize at hr
    rw [Nat.mod_eq_of_lt (by omega)] at hr
    omega
  rw [lightkv_insert_miss_at cfg kv key val len (2 ^ k) _ hr rfl hlen h0 h1 hhead]
  have hw : ∃ kvw, write_record cfg (create_nextloc cfg kv (2 ^ k)).1
        { (create_nextloc cfg kv (2 ^ k)).2 with
          sclass := (record_slot cfg key len).toNat } (mk_record cfg key val len)
        = some (kvw, record_size cfg key len) ∧
      ∀ el, lightkv_get cfg { kvw with end_loc := el }
        { (create_nextloc cfg kv (2 ^ k)).2 with
          sclass := (record_slot cfg key len).toNat }
        = some (GetResult.found (key.take (strlen key)) (val.take len) len) := by
    by_cases hov : kv.end_loc.offset + 2 ^ k + 2 > cfg.MAX_FILESIZE
    · obtain ⟨kvw, hw1, _, _, hw2⟩ := get_after_write cfg
        (create_nextloc cfg kv (2 ^ k)).1
        { (create_nextloc cfg kv (2 ^ k)).2 with
          sclass := (record_slot cfg key len).toNat } (alloc_map cfg.MAX_FILESIZE)
        key val len hcfg hval hlen hk hs
        (by simp [create_nextloc_nowrap cfg kv _ hnw, hov])
        (by
          simp only [hS]
          simp only [create_nextloc_nowrap cfg kv _ hnw, hov, if_true, alloc_map,
            List.length_replicate]
          omega)
        (by simp only [hS]; exact hsz)
      exact ⟨kvw, hw1, hw2⟩
    · obtain ⟨kvw, hw1, _, _, hw2⟩ := get_after_write cfg
        (create_nextloc cfg kv (2 ^ k)).1
        { (create_nextloc cfg kv (2 ^ k)).2 with
          sclass := (record_slot cfg key len).toNat } seg
        key val len hcfg hval hlen hk hs
        (by simp [create_nextloc_nowrap cfg kv _ hnw, hov, hmap])
        (by
          simp only [hS]
          simp only [create_nextloc_nowrap cfg kv _ hnw, hov, if_false]
          omega)
        (by simp only [hS]; exact hsz)
      exact ⟨kvw, hw1, hw2⟩
  obtain ⟨kvw, hw1, hw2⟩ := hw
  simp only [hw1]
  refine ⟨_, _, rfl, ?_⟩
  have hg := hw2 { kvw.end_loc with
    num := (create_nextloc cfg kv (2 ^ k)).2.num,
    offset := (2 ^ 32 - 1 + ((create_nextloc cfg kv (2 ^ k)).2.offset
      + record_size cfg key len)) % 2 ^ 32 }
  rw [strlen_nul_free key hkey, List.take_of_length_le (Nat.le_refl _),
    List.take_of_length_le (by omega)] at hg
  exact hg

set_option maxRecDepth 100000

/-- The round trip of `roundtrip_on_miss` on a fresh `demo` store, for `("k", "v")`. -/
theorem roundtrip_on_miss_demo :
    ∃ kv2 h, lightkv_insert demo (lightkv_init demo all_null) [107] [118] 1 = some (kv2, h) ∧
      lightkv_get demo kv2 h = some (GetResult.found [107] [118] 1) :=
  roundtrip_on_miss demo (lightkv_init demo all_null) [107] [118] 1 3 (alloc_map demo.MAX_FILESIZE)
    (by decide) (by decide) (by decide) rfl (by decide) (by decide) (by decide) (by decide)
    (by decide) (by decide) (by decide) rfl rfl (by decide) (by decide) (by decide)

/-! ## Size classes: claims -/

/-- Above `2 ^ 31` the increment wraps: `roundsize` returns `0`. -/
theorem roundsize_wrap (n : Nat) (h1 : 2 ^ 31 < n) (h2 : n < 2 ^ 32) : roundsize n = 0 := by
  have hm : (n + (2 ^ 32 - 1)) % 2 ^ 32 = n - 1 := by omega
  have hne : n - 1 ≠ 0 := by omega
  have hlt : n - 1 < 2 ^ 32 := by omega
  have hlog1 : (n - 1).log2 < 32 := (Nat.log2_lt hne).2 hlt
  have hlog2 : 31 ≤ (n - 1).log2 := (Nat.le_log2 hne).2 (by omega)
  have hlog : (n - 1).log2 = 31 := by omega
  unfold roundsize
  simp only [hm, smear_all_eq (n - 1) hne hlt, hlog]
  decide

/-- C7 (amended): for every `n` with `1 ≤ n ≤ 2 ^ 31`, `roundsize n` is a power of two and
is at least `n`. -/
theorem roundsize_pow2_ge (n : Nat) (h1 : 1 ≤ n) (h2 : n ≤ 2 ^ 31) :
    (∃ k, roundsize n = 2 ^ k) ∧ n ≤ roundsize n := by
  by_cases hn : n = 1
  · subst hn
    rw [roundsize_one]
    exact ⟨⟨0, rfl⟩, Nat.le_refl _⟩
  · have h3 : 2 ≤ n := by omega
    rw [roundsize_eq n h3 h2]
    refine ⟨⟨_, rfl⟩, ?_⟩
    have : n - 1 < 2 ^ ((n - 1).log2 + 1) := Nat.lt_log2_self
    omega

/-- Witness for C7 (amended) at `n = 17`. -/
theorem roundsize_pow2_ge_witness : (∃ k, roundsize 17 = 2 ^ k) ∧ 17 ≤ roundsize 17 :=
  roundsize_pow2_ge 17 (by decide) (by decide)

/-- C7, counterexample: `n = 2 ^ 31 + 1` is a 32-bit value and at least 1, yet
`roundsize n = 0`, which is below `n`. -/
theorem roundsize_overflow_counterexample :
    1 ≤ 2 ^ 31 + 1 ∧ 2 ^ 31 + 1 < 2 ^ 32 ∧ roundsize (2 ^ 31 + 1) = 0 ∧
      ¬ ((∃ k, roundsize (2 ^ 31 + 1) = 2 ^ k) ∧ 2 ^ 31 + 1 ≤ roundsize (2 ^ 31 + 1)) := by
  have h0 : roundsize (2 ^ 31 + 1) = 0 := by decide
  refine ⟨by decide, by decide, h0, ?_⟩
  rw [h0]
  rintro ⟨_, h⟩
  omega

/-- C8, failing input: with `FIRST_SIZECLASS = 3` and `MAX_SIZES = 5`, `get_sizeslot 256`
is `5`, which is not an index of a table of `MAX_SIZES` entries: `8 - 3 = 5` is compared
with `FIRST_SIZECLASS + MAX_SIZES - 1 = 7` and returned as it is. -/
theorem get_sizeslot_out_of_range :
    demo.FIRST_SIZECLASS = 3 ∧ demo.MAX_SIZES = 5 ∧ get_sizeslot demo 256 = 5 ∧
      ¬ (get_sizeslot demo 256 ≤ (demo.MAX_SIZES : Int) - 1) := by
  decide

/-- C9: for every `k` with `FIRST_SIZECLASS ≤ k ≤ FIRST_SIZECLASS + MAX_SIZES - 1` and
`k ≤ 31`, `get_slotsize (get_sizeslot (2 ^ k)) = 2 ^ k`, hence at least `2 ^ k`; and for
every class index `i < MAX_SIZES` with `i + FIRST_SIZECLASS ≤ 31`,
`get_slotsize i = 2 ^ (i + FIRST_SIZECLASS)` and `get_sizeslot (get_slotsize i) = i`. -/
theorem sizeclass_roundtrip (cfg : Config) :
    (∀ k : Nat, cfg.FIRST_SIZECLASS ≤ k → k < cfg.FIRST_SIZECLASS + cfg.MAX_SIZES → k ≤ 31 →
        get_slotsize cfg (get_sizeslot cfg (2 ^ k)) = 2 ^ k ∧
        2 ^ k ≤ get_slotsize cfg (get_sizeslot cfg (2 ^ k))) ∧
    (∀ i : Nat, i < cfg.MAX_SIZES → i + cfg.FIRST_SIZECLASS ≤ 31 →
        get_slotsize cfg (i : Int) = 2 ^ (i + cfg.FIRST_SIZECLASS) ∧
        get_sizeslot cfg (get_slotsize cfg (i : Int)) = (i : Int)) := by
  refine ⟨?_, ?_⟩
  · intro k h1 h2 hk
    have heq : get_slotsize cfg (get_sizeslot cfg (2 ^ k)) = 2 ^ k := by
      rw [get_sizeslot_two_pow cfg k hk h1 h2, get_slotsize_nat cfg _ (by omega)]
      congr 1; omega
    exact ⟨heq, by rw [heq]⟩
  · intro i hi h31
    refine ⟨get_slotsize_nat cfg i h31, ?_⟩
    rw [get_slotsize_nat cfg i h31, get_sizeslot_two_pow cfg _ h31 (by omega) (by omega)]
    congr 1; omega

/-- Witness for C9 on `demo`: slot size `2 ^ 5` and class index `2`. -/
theorem sizeclass_roundtrip_witness :
    (get_slotsize demo (get_sizeslot demo (2 ^ 5)) = 2 ^ 5 ∧
        2 ^ 5 ≤ get_slotsize demo (get_sizeslot demo (2 ^ 5))) ∧
      (get_slotsize demo ((2 : Nat) : Int) = 2 ^ (2 + demo.FIRST_SIZECLASS) ∧
        get_sizeslot demo (get_slotsize demo ((2 : Nat) : Int)) = ((2 : Nat) : Int)) :=
  ⟨(sizeclass_roundtrip demo).1 5 (by decide) (by decide) (by decide),
   (sizeclass_roundtrip demo).2 2 (by decide) (by decide)⟩

/-! ## Store: claims -/

/-- C1, failing input: after `h = insert("a", "x")`, `delete(h)`, `insert("b", "y")`, which
reuses `h`, the head of the class-0 free list is node 1, which `freelist_remove` has
freed. `insert("c", "z")`, of the same class, reads that node in `freelist_get`: neither
`freelist_get`, nor the insert, nor the insert followed by `get` has a defined result. -/
theorem roundtrip_after_reuse_undefined :
    after_reuse.map (fun p => (p.2, p.1.freelist 0, p.1.heap.deref (p.1.freelist 0)))
        = some (⟨0, 1, 0⟩, 1, none) ∧
      record_slot demo [99] 1 = 0 ∧
      after_reuse.bind (fun p =>
        freelist_get demo p.1 (p.1.freelist 0) (record_size demo [99] 1 % 2 ^ 32)) = none ∧
      after_reuse.bind (fun p =>
        (lightkv_insert demo p.1 [99] [122] 1).map (fun q => q.2)) = none ∧
      after_reuse.bind (fun p =>
        (lightkv_insert demo p.1 [99] [122] 1).bind (fun q => lightkv_get demo q.1 q.2))
        = none := by
  decide

/-- C2, failing input: after `h = insert("k", "v")` and `delete(h)`, `get(h)` still
returns `true` with the key `"k"` and the value `"v"`. -/
theorem get_after_delete_found :
    get_after_delete = some (GetResult.found [107] [118] 1) := by
  decide

/-- C3, failing input: `hA = insert("aa", ..)` at offset 1, `hB = insert("b", "2")` at
offset 17, `delete(hA)`, `insert("cc", ..)` reusing offset 1, then `insert("d", "4")`: the
last insert is placed at offset 17 again, and `get(hB)` returns `("d", "4")`. -/
theorem live_record_overwritten :
    overwrite_run =
      some (⟨0, 1, 1⟩, ⟨0, 17, 0⟩, ⟨0, 17, 0⟩, GetResult.found [100] [52] 1) := by
  decide

/-- C4, failing input: in the store `after_reuse` the handle `h = (0, 1, 0)` has been
returned by an insert and is live, and the head of the class-0 free list is node 1, which
`freelist_remove` has freed. `delete(h)` writes `head->prev` through that head in
`freelist_add`: neither `freelist_add` nor the delete has a defined result. -/
theorem delete_after_reuse_undefined :
    after_reuse.map (fun p => (p.2, p.1.freelist 0, p.1.heap.deref (p.1.freelist 0)))
        = some (⟨0, 1, 0⟩, 1, none) ∧
      after_reuse.bind (fun p =>
        (freelist_add (freeloc_new p.1 p.2 yields_node).1.heap (p.1.freelist 0)
          (freeloc_new p.1 p.2 yields_node).2).map (fun q => q.2)) = none ∧
      after_reuse.bind (fun p =>
        (lightkv_delete demo p.1 p.2 yields_node).map (fun q => q.2)) = none := by
  decide

/-! ## Size classes: least power of two -/

theorem log2_two_pow_sub_one (j : Nat) (hj : 1 ≤ j) : (2 ^ j - 1).log2 = j - 1 := by
  have hpos : 2 ≤ 2 ^ j := by
    calc 2 = 2 ^ 1 := rfl
      _ ≤ 2 ^ j := Nat.pow_le_pow_right (by decide) hj
  have hne : 2 ^ j - 1 ≠ 0 := by omega
  have h1 : (2 ^ j - 1).log2 < j := (Nat.log2_lt hne).2 (by omega)
  have h2 : j - 1 ≤ (2 ^ j - 1).log2 := by
    apply (Nat.le_log2 hne).2
    have : 2 ^ j = 2 ^ (j - 1) * 2 := by
      rw [← pow_succ]; congr 1; omega
    omega
  omega

/-- A power of two up to `2 ^ 31` is a fixed point of `roundsize`. -/
theorem roundsize_two_pow (j : Nat) (hj : j ≤ 31) : roundsize (2 ^ j) = 2 ^ j := by
  by_cases h0 : j = 0
  · subst h0; decide
  · have hle : 2 ^ j ≤ 2 ^ 31 := Nat.pow_le_pow_right (by decide) hj
    have h2 : 2 ≤ 2 ^ j := by
      calc 2 = 2 ^ 1 := rfl
        _ ≤ 2 ^ j := Nat.pow_le_pow_right (by decide) (by omega)
    rw [roundsize_eq _ h2 hle, log2_two_pow_sub_one j (by omega)]
    congr 1; omega

/-- The exponent of `roundsize n` on `2 ≤ n ≤ 2 ^ 31`: `2 ^ (k - 1) < n ≤ 2 ^ k`. -/
theorem roundsize_bracket (n : Nat) (h2 : 2 ≤ n) (hn : n ≤ 2 ^ 31) :
    roundsize n = 2 ^ ((n - 1).log2 + 1) ∧ 2 ^ (n - 1).log2 < n ∧ n ≤ 2 ^ ((n - 1).log2 + 1) ∧
      (n - 1).log2 + 1 ≤ 31 := by
  have hne : n - 1 ≠ 0 := by omega
  have h1 : 2 ^ (n - 1).log2 ≤ n - 1 := Nat.log2_self_le hne
  have h3 : n - 1 < 2 ^ ((n - 1).log2 + 1) := Nat.lt_log2_self
  have h4 : (n - 1).log2 < 31 := (Nat.log2_lt hne).2 (by omega)
  exact ⟨roundsize_eq n h2 hn, by omega, by omega, by omega⟩

theorem roundsize_mono (m n : Nat) (hm : 1 ≤ m) (hmn : m ≤ n) (hn : n ≤ 2 ^ 31) :
    roundsize m ≤ roundsize n := by
  by_cases h1 : m = 1
  · subst h1
    rw [roundsize_one]
    have := le_roundsize n (by omega) hn
    omega
  · obtain ⟨hrm, hlm, _, _⟩ := roundsize_bracket m (by omega) (by omega)
    obtain ⟨hrn, _, hun, _⟩ := roundsize_bracket n (by omega) hn
    rw [hrm, hrn]
    apply Nat.pow_le_pow_right (by decide)
    have hlt : 2 ^ (m - 1).log2 < 2 ^ ((n - 1).log2 + 1) := by omega
    have := (Nat.pow_lt_pow_iff_right (by decide : 1 < 2)).1 hlt
    omega

/-- C15: for every `n` with `1 ≤ n ≤ 2 ^ 31`, `roundsize n` is the least power of two that
is at least `n`: it is `2 ^ k` with `n ≤ 2 ^ k`, with `k = 0` when `n = 1` and
`2 ^ (k - 1) < n` otherwise, and no smaller power of two is at least `n`. Every power of
two up to `2 ^ 31` is a fixed point, and on this range `roundsize` is idempotent and
monotone. -/
theorem roundsize_least_pow2 :
    (∀ n : Nat, 1 ≤ n → n ≤ 2 ^ 31 →
      ∃ k, roundsize n = 2 ^ k ∧ n ≤ 2 ^ k ∧ (n = 1 → k = 0) ∧ (n ≠ 1 → 2 ^ (k - 1) < n) ∧
        (∀ j, n ≤ 2 ^ j → 2 ^ k ≤ 2 ^ j)) ∧
    (∀ j : Nat, j ≤ 31 → roundsize (2 ^ j) = 2 ^ j) ∧
    (∀ n : Nat, 1 ≤ n → n ≤ 2 ^ 31 → roundsize (roundsize n) = roundsize n) ∧
    (∀ m n : Nat, 1 ≤ m → m ≤ n → n ≤ 2 ^ 31 → roundsize m ≤ roundsize n) := by
  refine ⟨?_, roundsize_two_pow, ?_, roundsize_mono⟩
  · intro n h1 hn
    by_cases hn1 : n = 1
    · subst hn1
      refine ⟨0, roundsize_one, by decide, fun _ => rfl, fun h => absurd rfl h, ?_⟩
      intro j _
      exact Nat.pow_le_pow_right (by decide) (Nat.zero_le j)
    · obtain ⟨hr, hl, hu, _⟩ := roundsize_bracket n (by omega) hn
      refine ⟨(n - 1).log2 + 1, hr, hu, fun h => absurd h hn1, fun _ => by simpa using hl, ?_⟩
      intro j hj
      apply Nat.pow_le_pow_right (by decide)
      have hlt : 2 ^ (n - 1).log2 < 2 ^ j := by omega
      have := (Nat.pow_lt_pow_iff_right (by decide : 1 < 2)).1 hlt
      omega
  · intro n h1 hn
    by_cases hn1 : n = 1
    · subst hn1
      rw [roundsize_one, roundsize_one]
    · obtain ⟨hr, _, _, hk⟩ := roundsize_bracket n (by omega) hn
      rw [hr]
      exact roundsize_two_pow _ hk

/-- Witness for C15 at `n = 17`, `j = 5` and `m = 9 ≤ n = 17`. -/
theorem roundsize_least_pow2_witness :
    (∃ k, roundsize 17 = 2 ^ k ∧ 17 ≤ 2 ^ k ∧ (17 = 1 → k = 0) ∧ (17 ≠ 1 → 2 ^ (k - 1) < 17) ∧
        (∀ j, 17 ≤ 2 ^ j → 2 ^ k ≤ 2 ^ j)) ∧
      roundsize (2 ^ 5) = 2 ^ 5 ∧ roundsize (roundsize 17) = roundsize 17 ∧
      roundsize 9 ≤ roundsize 17 :=
  ⟨roundsize_least_pow2.1 17 (by decide) (by decide),
   roundsize_least_pow2.2.1 5 (by decide),
   roundsize_least_pow2.2.2.1 17 (by decide) (by decide),
   roundsize_least_pow2.2.2.2 9 17 (by decide) (by decide) (by decide)⟩

/-! ## What an insert writes -/

/-- An insert that returns has passed the record buffer to `write_record` at the returned
location, which copied `rec->len` bytes, and has then set the cursor to the last byte
copied. -/
theorem lightkv_insert_writes (cfg : Config) (kv kv2 : lightkv) (key val : List Nat) (len : Nat)
    (h : loc) (hins : lightkv_insert cfg kv key val len = some (kv2, h)) :
    ∃ kv1 kvw, write_record cfg kv1 h (mk_record cfg key val len)
        = some (kvw, rec_len cfg (mk_record cfg key val len)) ∧
      kv2 = { kvw with end_loc := { kvw.end_loc with
                num := h.num,
                offset := (2 ^ 32 - 1 + (h.offset + rec_len cfg (mk_record cfg key val len)))
                            % 2 ^ 32 } } := by
  unfold lightkv_insert at hins
  simp only [] at hins
  split_ifs at hins with hl hs
  split at hins
  · simp at hins
  · rename_i f hget
    split at hins
    · simp at hins
    · rename_i kv1 diskloc0 hfound
      split at hins
      · simp at hins
      · rename_i kvw n hw
        simp only [Option.some.injEq, Prod.mk.injEq] at hins
        obtain ⟨hkv, hh⟩ := hins
        obtain ⟨hn, _⟩ := write_record_some _ _ _ _ _ _ hw
        subst hh
        refine ⟨kv1, kvw, ?_, ?_⟩
        · rw [hw, hn]
        · rw [← hkv, hn]

theorem write_record_eq (cfg : Config) (kv kvw : lightkv) (l : loc) (r : List Nat) (n : Nat)
    (h : write_record cfg kv l r = some (kvw, n)) :
    ∃ seg, kv.filemaps l.num = some seg ∧ n = rec_len cfg r ∧ n ≤ r.length ∧
      l.offset + n ≤ seg.length ∧
      kvw.filemaps l.num = some (blit seg l.offset (r.take n)) ∧
      ∀ i, i ≠ l.num → kvw.filemaps i = kv.filemaps i := by
  unfold write_record at h
  cases hm : kv.filemaps l.num with
  | none => simp [hm] at h
  | some seg =>
    simp only [hm] at h
    split_ifs at h with hc
    simp only [Option.some.injEq, Prod.mk.injEq] at h
    obtain ⟨h1, h2⟩ := h
    subst h1
    subst h2
    refine ⟨seg, rfl, rfl, hc.1, hc.2, by simp, ?_⟩
    intro i hi
    simp [hi]

theorem read_record_length (cfg : Config) (kv : lightkv) (l : loc) (r : List Nat)
    (h : read_record cfg kv l = some r) : r.length = get_slotsize cfg (l.sclass : Int) := by
  unfold read_record at h
  cases hm : kv.filemaps l.num with
  | none => simp [hm] at h
  | some seg =>
    simp only [hm] at h
    split_ifs at h with hc
    simp only [Option.some.injEq] at h
    rw [← h, List.length_take, List.length_drop]
    omega

/-- The function `get_key` has a defined result exactly when its read stays inside the buffer. -/
theorem get_key_defined (cfg : Config) (r : List Nat) :
    (get_key cfg r).isSome = true ↔ reads_below r.length (get_key_span cfg r) := by
  unfold get_key get_key_span reads_below
  simp only []
  split_ifs with hc
  · simp only [Option.isSome_some, true_iff]
    exact hc
  · simp only [Option.isSome_none, Bool.false_eq_true, false_iff]
    exact hc

/-- The function `get_val` has a defined result exactly when its read stays inside the buffer. -/
theorem get_val_defined (cfg : Config) (r : List Nat) :
    (get_val cfg r).isSome = true ↔ reads_below r.length (get_val_span cfg r) := by
  unfold get_val get_val_span
  simp only []
  split_ifs with h1 h2
  · simp [reads_below]
  · simp only [Option.isSome_some, true_iff, reads_below]
    omega
  · simp only [Option.isSome_none, Bool.false_eq_true, false_iff, reads_below]
    omega

/-- C11 (amended): `get_key` reads `extlen` bytes from index `RECORD_HEADER_SIZE` and
`get_val` reads `len - RECORD_HEADER_SIZE - extlen` bytes from index
`RECORD_HEADER_SIZE + extlen` of the slot buffer of `read_record`, which has
`get_slotsize c` bytes, and nothing compares these lengths with the slot size. For every
segment content and every handle, the reads stay below `get_slotsize c` when the stored
header has `RECORD_HEADER_SIZE + extlen ≤ len ≤ get_slotsize c`, and `lightkv_get` then
has a result; they do not stay below it when `extlen` is not zero and
`RECORD_HEADER_SIZE + extlen` exceeds the slot size, when `len` exceeds both
`RECORD_HEADER_SIZE + extlen` and the slot size, or when `len` is below
`RECORD_HEADER_SIZE + extlen`. -/
theorem decode_reads (cfg : Config) (kv : lightkv) (h : loc) (r : List Nat)
    (hread : read_record cfg kv h = some r) :
    r.length = get_slotsize cfg (h.sclass : Int) ∧
    (cfg.RECORD_HEADER_SIZE + rec_extlen cfg r ≤ rec_len cfg r →
      rec_len cfg r ≤ get_slotsize cfg (h.sclass : Int) →
      reads_below (get_slotsize cfg (h.sclass : Int)) (get_key_span cfg r) ∧
      reads_below (get_slotsize cfg (h.sclass : Int)) (get_val_span cfg r) ∧
      (lightkv_get cfg kv h).isSome = true) ∧
    (rec_extlen cfg r ≠ 0 →
      get_slotsize cfg (h.sclass : Int) < cfg.RECORD_HEADER_SIZE + rec_extlen cfg r →
      ¬ reads_below (get_slotsize cfg (h.sclass : Int)) (get_key_span cfg r)) ∧
    (cfg.RECORD_HEADER_SIZE + rec_extlen cfg r < rec_len cfg r →
      get_slotsize cfg (h.sclass : Int) < rec_len cfg r →
      ¬ reads_below (get_slotsize cfg (h.sclass : Int)) (get_val_span cfg r)) ∧
    (rec_len cfg r < cfg.RECORD_HEADER_SIZE + rec_extlen cfg r →
      ¬ reads_below (get_slotsize cfg (h.sclass : Int)) (get_val_span cfg r)) := by
  have hL := read_record_length cfg kv h r hread
  refine ⟨hL, ?_, ?_, ?_, ?_⟩
  · intro h1 h2
    have hk : reads_below (get_slotsize cfg (h.sclass : Int)) (get_key_span cfg r) := by
      simp only [get_key_span, reads_below]; omega
    have hv : reads_below (get_slotsize cfg (h.sclass : Int)) (get_val_span cfg r) := by
      simp only [get_val_span, if_neg (by omega : ¬ rec_len cfg r <
        cfg.RECORD_HEADER_SIZE + rec_extlen cfg r), reads_below]
      omega
    refine ⟨hk, hv, ?_⟩
    rw [← hL] at hk hv
    have hgk := (get_key_defined cfg r).2 hk
    have hgv := (get_val_defined cfg r).2 hv
    obtain ⟨key, hkey⟩ := Option.isSome_iff_exists.1 hgk
    obtain ⟨vl, hvl⟩ := Option.isSome_iff_exists.1 hgv
    unfold lightkv_get
    simp only [hread]
    rw [if_neg (by omega)]
    split_ifs
    · rfl
    · simp only [hkey, hvl, Option.isSome_some]
  · intro h1 h2
    simp only [get_key_span, reads_below]
    omega
  · intro h1 h2
    simp only [get_val_span, if_neg (by omega : ¬ rec_len cfg r <
      cfg.RECORD_HEADER_SIZE + rec_extlen cfg r), reads_below]
    omega
  · intro h1
    simp only [get_val_span, if_pos h1, reads_below, not_false_eq_true]

/-- C11, counterexample: after the run of `overread_run` the slot of the live handle
`hB = (0, 17, 0)` holds the header of a 20-byte record. The slot buffer has
`get_slotsize 0 = 8` bytes, and `get_val` reads 12 bytes from index 8 of it: indices
`8 .. 19`, none of them below 8; `get(hB)` has no defined result. -/
theorem decode_reads_past_slot :
    get_slotsize demo 0 = 8 ∧
      overread_run = some (⟨0, 17, 0⟩, [1, 20, 0, 0, 0, 2, 100, 100], false) ∧
      get_key_span demo [1, 20, 0, 0, 0, 2, 100, 100] = some (6, 2) ∧
      get_val_span demo [1, 20, 0, 0, 0, 2, 100, 100] = some (8, 12) ∧
      ¬ reads_below (get_slotsize demo 0) (get_val_span demo [1, 20, 0, 0, 0, 2, 100, 100]) := by
  decide

/-- Witness for C11 (amended) on `demo`: the slot of the first record of a fresh store. -/
theorem decode_reads_witness :
    ∃ kv1 h r, lightkv_insert demo (lightkv_init demo all_null) [107] [118] 1 = some (kv1, h) ∧
      read_record demo kv1 h = some r ∧ r.length = get_slotsize demo (h.sclass : Int) ∧
      reads_below (get_slotsize demo (h.sclass : Int)) (get_key_span demo r) ∧
      reads_below (get_slotsize demo (h.sclass : Int)) (get_val_span demo r) := by
  have hsome : ((lightkv_insert demo (lightkv_init demo all_null) [107] [118] 1).bind
      (fun p => (read_record demo p.1 p.2).map (fun r => (p.2, r)))).isSome = true := by decide
  have hval : ((lightkv_insert demo (lightkv_init demo all_null) [107] [118] 1).bind
      (fun p => (read_record demo p.1 p.2).map (fun r => (p.2, r))))
      = some (⟨0, 1, 0⟩, [1, 8, 0, 0, 0, 1, 107, 118]) := by decide
  cases hins : lightkv_insert demo (lightkv_init demo all_null) [107] [118] 1 with
  | none => simp [hins] at hsome
  | some p =>
    obtain ⟨kv1, h⟩ := p
    simp only [hins, Option.some_bind] at hval
    cases hr : read_record demo kv1 h with
    | none => simp [hr] at hval
    | some r =>
      simp only [hr, Option.map_some', Option.some.injEq, Prod.mk.injEq] at hval
      obtain ⟨hh, hrv⟩ := hval
      have hT := decode_reads demo kv1 h r hr
      have hc := hT.2.1 (by rw [hrv]; decide) (by rw [hrv, hh]; decide)
      exact ⟨kv1, h, r, rfl, hr, hT.1, hc.1, hc.2.1⟩

/-! ## Best fit -/

theorem freelist_nodes_null (hp : Heap) (fuel : Nat) : freelist_nodes hp fuel 0 = some [] := by
  cases fuel <;> simp [freelist_nodes]

theorem freelist_nodes_nil (hp : Heap) (fuel head : Nat)
    (h : freelist_nodes hp fuel head = some []) : head = 0 := by
  by_contra hne
  cases fuel with
  | zero => simp [freelist_nodes, hne] at h
  | succ n =>
    simp only [freelist_nodes, hne, if_false] at h
    cases hd : hp.deref head with
    | none => simp [hd] at h
    | some nd => simp [hd] at h

theorem freelist_nodes_cons (hp : Heap) (fuel head p : Nat) (ps : List Nat)
    (h : freelist_nodes hp fuel head = some (p :: ps)) :
    head ≠ 0 ∧ p = head ∧ ∃ nd n, fuel = n + 1 ∧ hp.deref head = some nd ∧
      freelist_nodes hp n nd.next = some ps := by
  have hne : head ≠ 0 := by
    intro h0
    rw [h0, freelist_nodes_null] at h
    simp at h
  refine ⟨hne, ?_⟩
  cases fuel with
  | zero => simp [freelist_nodes, hne] at h
  | succ n =>
    simp only [freelist_nodes, hne, if_false] at h
    cases hd : hp.deref head with
    | none => simp [hd] at h
    | some nd =>
      simp only [hd, Option.map_eq_some'] at h
      obtain ⟨ls, h1, h2⟩ := h
      simp only [List.cons.injEq] at h2
      refine ⟨h2.1.symm, nd, n, rfl, rfl, ?_⟩
      rw [h1, h2.2]

/-- The loop of `freelist_get` on a list that can be walked: it returns, and the result is
the candidate `f` it was entered with, if no node beats `diff`, and the first node of least
slack otherwise. -/
theorem freelist_get_loop_spec (cfg : Config) (hp : Heap) (size : Nat) (fuel : Nat) :
    ∀ (head f diff : Nat) (ps : List Nat), freelist_nodes hp fuel head = some ps →
      ∃ g, freelist_get_loop cfg hp size fuel head f diff = some g ∧
        (ps = [] → g = f) ∧
        (f = 0 → ps ≠ [] → first_min (slack cfg hp size) g ps) ∧
        (f ≠ 0 → (g = f ∧ ∀ p, p ∈ ps → diff ≤ slack cfg hp size p) ∨
          (first_min (slack cfg hp size) g ps ∧ slack cfg hp size g < diff)) := by
  induction fuel with
  | zero =>
    intro head f diff ps hw
    by_cases h0 : head = 0
    · subst h0
      rw [freelist_nodes_null] at hw
      simp only [Option.some.injEq] at hw
      subst hw
      refine ⟨f, by simp [freelist_get_loop], fun _ => rfl, fun _ hne => absurd rfl hne, ?_⟩
      intro _
      exact Or.inl ⟨rfl, fun p hp => by simp at hp⟩
    · simp [freelist_nodes, h0] at hw
  | succ n ih =>
    intro head f diff ps hw
    by_cases h0 : head = 0
    · subst h0
      rw [freelist_nodes_null] at hw
      simp only [Option.some.injEq] at hw
      subst hw
      refine ⟨f, by simp [freelist_get_loop], fun _ => rfl, fun _ hne => absurd rfl hne, ?_⟩
      intro _
      exact Or.inl ⟨rfl, fun p hp => by simp at hp⟩
    · cases ps with
      | nil => exact absurd (freelist_nodes_nil _ _ _ hw) h0
      | cons p ps2 =>
        obtain ⟨_, hp0, nd, m, hm, hderef, hrest⟩ := freelist_nodes_cons _ _ _ _ _ hw
        have hmn : m = n := by omega
        subst hmn
        subst hp0
        have hsl : slack cfg hp size p
            = (get_slotsize cfg (nd.l.sclass : Int) + (2 ^ 32 - size)) % 2 ^ 32 := by
          simp [slack, hderef]
        simp only [freelist_get_loop, h0, if_false, hderef]
        rw [← hsl]
        by_cases hf : f = 0
        · simp only [hf, if_true]
          obtain ⟨g, hg, _, _, h3⟩ := ih nd.next p (slack cfg hp size p) ps2 hrest
          refine ⟨g, hg, fun hnil => by simp at hnil, ?_, fun hne => absurd rfl hne⟩
          intro _ _
          rcases h3 h0 with ⟨hgp, hall⟩ | ⟨⟨pre, post, hps, hpre, hpost⟩, hlt⟩
          · subst hgp
            exact ⟨[], ps2, rfl, fun q hq => by simp at hq, hall⟩
          · refine ⟨p :: pre, post, by rw [hps]; rfl, ?_, hpost⟩
            intro q hq
            rcases List.mem_cons.1 hq with hqp | hqpre
            · rw [hqp]; exact hlt
            · exact hpre q hqpre
        · simp only [hf, if_false]
          by_cases ht : slack cfg hp size p < diff
          · simp only [ht, if_true]
            obtain ⟨g, hg, _, _, h3⟩ := ih nd.next p (slack cfg hp size p) ps2 hrest
            refine ⟨g, hg, fun hnil => by simp at hnil, fun hf0 => hf0.elim, ?_⟩
            intro _
            right
            rcases h3 h0 with ⟨hgp, hall⟩ | ⟨⟨pre, post, hps, hpre, hpost⟩, hlt⟩
            · subst hgp
              exact ⟨⟨[], ps2, rfl, fun q hq => by simp at hq, hall⟩, ht⟩
            · refine ⟨⟨p :: pre, post, by rw [hps]; rfl, ?_, hpost⟩, by omega⟩
              intro q hq
              rcases List.mem_cons.1 hq with hqp | hqpre
              · rw [hqp]; exact hlt
              · exact hpre q hqpre
          · simp only [ht, if_false]
            obtain ⟨g, hg, _, _, h3⟩ := ih nd.next f diff ps2 hrest
            refine ⟨g, hg, fun hnil => by simp at hnil, fun hf0 => hf0.elim, ?_⟩
            intro _
            rcases h3 hf with ⟨hgf, hall⟩ | ⟨⟨pre, post, hps, hpre, hpost⟩, hlt⟩
            · left
              refine ⟨hgf, ?_⟩
              intro q hq
              rcases List.mem_cons.1 hq with hqp | hq2
              · rw [hqp]; omega
              · exact hall q hq2
            · right
              refine ⟨⟨p :: pre, post, by rw [hps]; rfl, ?_, hpost⟩, hlt⟩
              intro q hq
              rcases List.mem_cons.1 hq with hqp | hqpre
              · rw [hqp]; omega
              · exact hpre q hqpre

theorem freelist_nodes_refuel (hp : Heap) (fuel : Nat) : ∀ (head : Nat) (ps : List Nat),
    freelist_nodes hp fuel head = some ps →
    ps.length ≤ fuel ∧ ∀ G, ps.length ≤ G → freelist_nodes hp G head = some ps := by
  induction fuel with
  | zero =>
    intro head ps hw
    by_cases h0 : head = 0
    · subst h0
      rw [freelist_nodes_null] at hw
      simp only [Option.some.injEq] at hw
      subst hw
      exact ⟨Nat.le_refl _, fun G _ => freelist_nodes_null hp G⟩
    · simp [freelist_nodes, h0] at hw
  | succ n ih =>
    intro head ps hw
    cases ps with
    | nil =>
      have h0 := freelist_nodes_nil _ _ _ hw
      subst h0
      exact ⟨Nat.zero_le _, fun G _ => freelist_nodes_null hp G⟩
    | cons p ps2 =>
      obtain ⟨hne, hp0, nd, m, hm, hderef, hrest⟩ := freelist_nodes_cons _ _ _ _ _ hw
      have hmn : m = n := by omega
      subst hmn
      obtain ⟨hlen, hG⟩ := ih nd.next ps2 hrest
      refine ⟨by simp only [List.length_cons]; omega, ?_⟩
      intro G hGl
      cases G with
      | zero => simp at hGl
      | succ G2 =>
        simp only [List.length_cons] at hGl
        simp only [freelist_nodes, hne, if_false, hderef, hG G2 (by omega), Option.map_some',
          hp0]

theorem freelist_nodes_live (hp : Heap) (fuel : Nat) : ∀ (head : Nat) (ps : List Nat),
    freelist_nodes hp fuel head = some ps →
    ∀ p, p ∈ ps → p ≠ 0 ∧ ∃ nd, hp.deref p = some nd := by
  induction fuel with
  | zero =>
    intro head ps hw p hp1
    by_cases h0 : head = 0
    · subst h0
      rw [freelist_nodes_null] at hw
      simp only [Option.some.injEq] at hw
      subst hw
      simp at hp1
    · simp [freelist_nodes, h0] at hw
  | succ n ih =>
    intro head ps hw p hp1
    cases ps with
    | nil => simp at hp1
    | cons q ps2 =>
      obtain ⟨hne, hq, nd, m, hm, hderef, hrest⟩ := freelist_nodes_cons _ _ _ _ _ hw
      have hmn : m = n := by omega
      subst hmn
      rcases List.mem_cons.1 hp1 with hpq | hp2
      · rw [hpq, hq]
        exact ⟨hne, nd, hderef⟩
      · exact ih nd.next ps2 hrest p hp2

/-- Walking from a node of the list gives the rest of the list from that node on. -/
theorem freelist_nodes_suffix (hp : Heap) (fuel : Nat) : ∀ (head : Nat) (ps : List Nat),
    freelist_nodes hp fuel head = some ps →
    ∀ q, q ∈ ps → ∃ pre suf, ps = pre ++ q :: suf ∧
      freelist_nodes hp (suf.length + 1) q = some (q :: suf) := by
  induction fuel with
  | zero =>
    intro head ps hw q hq
    by_cases h0 : head = 0
    · subst h0
      rw [freelist_nodes_null] at hw
      simp only [Option.some.injEq] at hw
      subst hw
      simp at hq
    · simp [freelist_nodes, h0] at hw
  | succ n ih =>
    intro head ps hw q hq
    cases ps with
    | nil => simp at hq
    | cons p ps2 =>
      obtain ⟨hne, hp0, nd, m, hm, hderef, hrest⟩ := freelist_nodes_cons _ _ _ _ _ hw
      have hmn : m = n := by omega
      subst hmn
      rcases List.mem_cons.1 hq with hqp | hq2
      · refine ⟨[], ps2, by rw [hqp]; rfl, ?_⟩
        rw [hqp, hp0]
        rw [hp0] at hw
        exact (freelist_nodes_refuel hp _ head (head :: ps2) hw).2 (ps2.length + 1) (by simp)
      · obtain ⟨pre, suf, hps, hwq⟩ := ih nd.next ps2 hrest q hq2
        exact ⟨p :: pre, suf, by rw [hps]; rfl, hwq⟩

/-- A list that can be walked to its end visits no node twice. -/
theorem freelist_nodes_nodup (hp : Heap) (fuel : Nat) : ∀ (head : Nat) (ps : List Nat),
    freelist_nodes hp fuel head = some ps → ps.Nodup := by
  induction fuel with
  | zero =>
    intro head ps hw
    by_cases h0 : head = 0
    · subst h0
      rw [freelist_nodes_null] at hw
      simp only [Option.some.injEq] at hw
      subst hw
      exact List.nodup_nil
    · simp [freelist_nodes, h0] at hw
  | succ n ih =>
    intro head ps hw
    cases ps with
    | nil => exact List.nodup_nil
    | cons p ps2 =>
      obtain ⟨hne, hp0, nd, m, hm, hderef, hrest⟩ := freelist_nodes_cons _ _ _ _ _ hw
      have hmn : m = n := by omega
      subst hmn
      refine List.nodup_cons.2 ⟨?_, ih nd.next ps2 hrest⟩
      intro hmem
      obtain ⟨pre, suf, hps, hwq⟩ := freelist_nodes_suffix hp m nd.next ps2 hrest p hmem
      have h1 := (freelist_nodes_refuel hp _ head (p :: ps2) hw).2 (ps2.length + 1) (by simp)
      have h2 := (freelist_nodes_refuel hp _ p (p :: suf) hwq).2 (ps2.length + 1)
        (by rw [hps]; simp; omega)
      rw [hp0] at h2
      rw [h1] at h2
      simp only [Option.some.injEq, List.cons.injEq] at h2
      obtain ⟨_, h3⟩ := h2
      have hl : ps2.length = (pre ++ p :: suf).length := by rw [← hps]
      rw [h3, List.length_append, List.length_cons] at hl
      omega

/-- In a heap as `malloc` leaves it, a list that can be walked to its end has at most
`nalloc` nodes: the fuel `freelist_get` runs with is enough for it. -/
theorem freelist_nodes_bounded (kv : lightkv) (hfresh : heap_fresh kv) (fuel head : Nat)
    (ps : List Nat) (hw : freelist_nodes kv.heap fuel head = some ps) :
    ps.length ≤ kv.nalloc := by
  have hnd := freelist_nodes_nodup kv.heap fuel head ps hw
  have hsub : ps.toFinset ⊆ Finset.Icc 1 kv.nalloc := by
    intro p hp
    rw [List.mem_toFinset] at hp
    obtain ⟨hp0, nd, hnd2⟩ := freelist_nodes_live kv.heap fuel head ps hw p hp
    obtain ⟨_, hraw⟩ := deref_some_ne_zero _ _ _ hnd2
    rw [Finset.mem_Icc]
    refine ⟨by omega, ?_⟩
    by_contra hgt
    rw [hfresh p (by omega)] at hraw
    simp at hraw
  have hcard := Finset.card_le_card hsub
  rw [List.toFinset_card_of_nodup hnd, Nat.card_Icc] at hcard
  omega

/-- C13: `freelist_get` on a list that ends (its nodes `ps` can be walked from `head`), in
a heap as `malloc` leaves it. It returns a node, which is `NULL` exactly when the list is
empty, that is, when `head` is `NULL`; for a non-empty list the node is the first one, from
the head on, whose slack `get_slotsize(sclass) - size` (a 32-bit unsigned difference) is
the least: the nodes before it have a larger slack and the nodes after it have a slack at
least as large. The function returns the node only; the heap is not changed by it. -/
theorem freelist_get_best_fit (cfg : Config) (kv : lightkv) (head size fuel : Nat)
    (ps : List Nat) (hfresh : heap_fresh kv)
    (hlist : freelist_nodes kv.heap fuel head = some ps) :
    ∃ f, freelist_get cfg kv head size = some f ∧
      (f = 0 ↔ ps = []) ∧ (ps = [] ↔ head = 0) ∧
      (ps ≠ [] → first_min (slack cfg kv.heap size) f ps) := by
  have hlen := freelist_nodes_bounded kv hfresh fuel head ps hlist
  have hw := (freelist_nodes_refuel kv.heap fuel head ps hlist).2 (kv.nalloc + 1) (by omega)
  obtain ⟨g, hg, h1, h2, _⟩ := freelist_get_loop_spec cfg kv.heap size (kv.nalloc + 1) head 0 0
    ps hw
  refine ⟨g, hg, ?_, ?_, h2 rfl⟩
  · constructor
    · intro hg0
      by_contra hne
      obtain ⟨pre, post, hps, _, _⟩ := h2 rfl hne
      have hmem : g ∈ ps := by rw [hps]; simp
      exact (freelist_nodes_live kv.heap _ head ps hw g hmem).1 hg0
    · exact h1
  · constructor
    · intro hnil
      rw [hnil] at hw
      exact freelist_nodes_nil _ _ _ hw
    · intro h0
      rw [h0, freelist_nodes_null] at hw
      simpa using hw.symm

/-- Witness for C13: on the list `1 -> 2 -> 3` of `mixed_list`, with slot sizes 32, 8 and
8, a request of 8 bytes gets node 2, the first of the two nodes with slack 0. -/
theorem freelist_get_best_fit_witness :
    ∃ f, freelist_get demo mixed_list 1 8 = some f ∧ f = 2 ∧
      first_min (slack demo mixed_list.heap 8) f [1, 2, 3] := by
  have hfresh : heap_fresh mixed_list := by
    intro p hp
    have h3 : 3 < p := hp
    have h1 : p ≠ 1 := by omega
    have h2 : p ≠ 2 := by omega
    have h4 : p ≠ 3 := by omega
    simp [mixed_list, h1, h2, h4]
  obtain ⟨f, hget, _, _, hmin⟩ := freelist_get_best_fit demo mixed_list 1 8 3 [1, 2, 3] hfresh
    (by decide)
  have hval : freelist_get demo mixed_list 1 8 = some 2 := by decide
  rw [hval] at hget
  simp only [Option.some.injEq] at hget
  exact ⟨f, by rw [hval, hget], hget.symm, hmin (by simp)⟩

/-! ## Removal from a free list -/

/-- C14, failing inputs: the class-0 list of `three_free` is well formed and holds the
locations at offsets 17, 9 and 1 (nodes 3, 2, 1). Removing the head node 3 returns node 3
itself, which has been freed, so the returned list cannot be walked, where the list of
offsets 9 and 1 with head 2 is expected. Removing the tail node 1 writes `tmp->prev` with
`tmp = NULL`: there is no result. Removing the interior node 2 returns head 3 and the list
of offsets 17 and 1. -/
theorem freelist_remove_head_and_tail :
    three_free.map (fun kv => (kv.freelist 0, freelist_locs kv.heap kv.nalloc (kv.freelist 0)))
        = some (3, some [⟨0, 17, 0⟩, ⟨0, 9, 0⟩, ⟨0, 1, 0⟩]) ∧
      remove_run 3 = some (3, none) ∧
      remove_run 1 = none ∧
      remove_run 2 = some (3, some [⟨0, 17, 0⟩, ⟨0, 1, 0⟩]) := by
  decide

/-! ## The class of free-list entries -/

/-- C18, failing input: in the store `after_reuse`, reached by insert, delete and insert,
the head of the class-0 free list is the non-`NULL` pointer 1 to a freed node: the entries
of the list cannot be read, and `freelist_get` on it has no defined result instead of
returning the head. -/
theorem freelist_head_dangles :
    after_reuse.map (fun p => (p.1.freelist 0, p.1.heap.deref (p.1.freelist 0),
        freelist_locs p.1.heap p.1.nalloc (p.1.freelist 0))) = some (1, none, none) ∧
      after_reuse.bind (fun p => freelist_get demo p.1 (p.1.freelist 0) 8) = none := by
  decide

/-! ## The class invariant on reachable stores -/

theorem deref_set (hp : Heap) (p q : Nat) (x : Option freeloc) :
    (hp.set p x).deref q = if q = 0 then none else if q = p then x else hp.deref q := by
  unfold Heap.deref Heap.set
  by_cases h0 : q = 0
  · simp [h0]
  · simp [h0]

theorem heap_ok_free (hp : Heap) (n f : Nat) (h : heap_ok hp n) : heap_ok (hp.set f none) n := by
  obtain ⟨h1, h2⟩ := h
  refine ⟨?_, ?_⟩
  · intro p hp1
    unfold Heap.set
    split_ifs
    · rfl
    · exact h1 p hp1
  · intro p nd hd
    rw [deref_set] at hd
    split_ifs at hd with hp0 hpf
    obtain ⟨a, b, c, d⟩ := h2 p nd hd
    refine ⟨a, b, ?_, ?_⟩
    · intro nx hnx
      rw [deref_set] at hnx
      split_ifs at hnx
      exact c nx hnx
    · intro pv hpv
      rw [deref_set] at hpv
      split_ifs at hpv
      exact d pv hpv

/-- Replacing the links of an allocated node keeps `heap_ok` when the new links point
only at nodes of the node's class. -/
theorem heap_ok_relink (hp : Heap) (n q nx2 pv2 : Nat) (qd : freeloc) (h : heap_ok hp n)
    (hq : hp.deref q = some qd)
    (hnx : nx2 ≤ n ∧ ∀ xd, hp.deref nx2 = some xd → xd.l.sclass = qd.l.sclass)
    (hpv : pv2 ≤ n ∧ ∀ xd, hp.deref pv2 = some xd → xd.l.sclass = qd.l.sclass) :
    heap_ok (hp.set q (some ⟨qd.l, nx2, pv2⟩)) n := by
  obtain ⟨h1, h2⟩ := h
  obtain ⟨hq0, hqraw⟩ := deref_some_ne_zero _ _ _ hq
  have hqn : q ≤ n := by
    by_contra hgt
    rw [h1 q (by omega)] at hqraw
    simp at hqraw
  refine ⟨?_, ?_⟩
  · intro p hp1
    unfold Heap.set
    have : p ≠ q := by omega
    simp only [this, if_false]
    exact h1 p hp1
  · intro p nd hd
    rw [deref_set] at hd
    split_ifs at hd with hp0 hpq
    · simp only [Option.some.injEq] at hd
      subst hd
      refine ⟨hnx.1, hpv.1, ?_, ?_⟩
      · intro nx hx
        rw [deref_set] at hx
        split_ifs at hx with hx0 hxq
        · simp only [Option.some.injEq] at hx
          rw [← hx]
        · exact hnx.2 nx hx
      · intro pv hx
        rw [deref_set] at hx
        split_ifs at hx with hx0 hxq
        · simp only [Option.some.injEq] at hx
          rw [← hx]
        · exact hpv.2 pv hx
    · obtain ⟨a, b, c, d⟩ := h2 p nd hd
      refine ⟨a, b, ?_, ?_⟩
      · intro nx hx
        rw [deref_set] at hx
        split_ifs at hx with hx0 hxq
        · simp only [Option.some.injEq] at hx
          rw [← hx]
          simp only []
          rw [hxq] at c
          exact c qd hq
        · exact c nx hx
      · intro pv hx
        rw [deref_set] at hx
        split_ifs at hx with hx0 hxq
        · simp only [Option.some.injEq] at hx
          rw [← hx]
          simp only []
          rw [hxq] at d
          exact d qd hq
        · exact d pv hx

theorem heap_ok_alloc (hp : Heap) (n : Nat) (l : loc) (h : heap_ok hp n) :
    heap_ok (hp.set (n + 1) (some ⟨l, 0, 0⟩)) (n + 1) := by
  obtain ⟨h1, h2⟩ := h
  refine ⟨?_, ?_⟩
  · intro p hp1
    unfold Heap.set
    have : p ≠ n + 1 := by omega
    simp only [this, if_false]
    exact h1 p (by omega)
  · intro p nd hd
    rw [deref_set] at hd
    split_ifs at hd with hp0 hpq
    · simp only [Option.some.injEq] at hd
      subst hd
      refine ⟨Nat.zero_le _, Nat.zero_le _, ?_, ?_⟩
      · intro nx hx
        simp [Heap.deref] at hx
      · intro pv hx
        simp [Heap.deref] at hx
    · obtain ⟨a, b, c, d⟩ := h2 p nd hd
      refine ⟨by omega, by omega, ?_, ?_⟩
      · intro nx hx
        rw [deref_set] at hx
        split_ifs at hx with hx0 hxq
        · omega
        · exact c nx hx
      · intro pv hx
        rw [deref_set] at hx
        split_ifs at hx with hx0 hxq
        · omega
        · exact d pv hx

/-- What an insert that returns does to the heap and to the table of heads: nothing, or
one `freelist_remove` on the list of one class. -/
theorem lightkv_insert_heap (cfg : Config) (kv kv2 : lightkv) (key val : List Nat) (len : Nat)
    (h : loc) (hins : lightkv_insert cfg kv key val len = some (kv2, h)) :
    kv2.nalloc = kv.nalloc ∧
      ((kv2.heap = kv.heap ∧ kv2.freelist = kv.freelist) ∨
        ∃ f hp2 r slot, freelist_remove kv.heap (kv.freelist slot) f = some (hp2, r) ∧
          kv2.heap = hp2 ∧ kv2.freelist = fun i => if i = slot then r else kv.freelist i) := by
  unfold lightkv_insert at hins
  simp only [] at hins
  split_ifs at hins with hl hs
  split at hins
  · simp at hins
  · rename_i f hget
    split at hins
    · simp at hins
    · rename_i kv1 diskloc0 hfound
      split at hins
      · simp at hins
      · rename_i kvw n hw
        simp only [Option.some.injEq, Prod.mk.injEq] at hins
        obtain ⟨hkv, _⟩ := hins
        obtain ⟨_, _, _, hfl, hhp, hna⟩ := write_record_some _ _ _ _ _ _ hw
        subst hkv
        simp only [hfl, hhp, hna]
        split_ifs at hfound with hf
        · split at hfound
          · simp at hfound
          · rename_i fd hfd
            split at hfound
            · simp at hfound
            · rename_i hp2 r hrem
              simp only [Option.some.injEq, Prod.mk.injEq] at hfound
              obtain ⟨hk1, _⟩ := hfound
              subst hk1
              exact ⟨rfl, Or.inr ⟨f, hp2, r, _, hrem, rfl, rfl⟩⟩
        · simp only [Option.some.injEq] at hfound
          have hc := create_nextloc_keeps cfg kv
            (roundsize ((cfg.RECORD_HEADER_SIZE + strlen key + len) % 2 ^ 32))
          rw [hfound] at hc
          simp only [] at hc
          exact ⟨hc.2.2.1, Or.inl ⟨hc.2.1, hc.1⟩⟩

/-- What a delete that returns does to the heap and to the table of heads: one new node
and one `freelist_add` on the list of the handle's class. -/
theorem lightkv_delete_heap (cfg : Config) (kv kv2 : lightkv) (h : loc) (b : Bool)
    (ret : Nat → Nat) (hdel : lightkv_delete cfg kv h ret = some (kv2, b)) :
    kv2.nalloc = kv.nalloc + 1 ∧
      ∃ hp2 r, freelist_add (kv.heap.set (kv.nalloc + 1) (some ⟨h, 0, 0⟩))
          (kv.freelist h.sclass) (ret (kv.nalloc + 1)) = some (hp2, r) ∧
        kv2.heap = hp2 ∧ kv2.freelist = fun i => if i = h.sclass then r else kv.freelist i := by
  unfold lightkv_delete at hdel
  simp only [] at hdel
  by_cases hh : get_slotsize cfg (h.sclass : Int) < cfg.RECORD_HEADER_SIZE ∨
      get_slotsize cfg (h.sclass : Int) < 1 + cfg.LEN_BYTES + cfg.EXTLEN_BYTES
  · simp [hh] at hdel
  · simp only [hh, if_false] at hdel
    cases hm : kv.filemaps h.num with
    | none => simp [write_record, hm] at hdel
    | some seg =>
      by_cases hoff : h.offset ≤ seg.length
      · simp only [write_record_tombstone cfg kv h _ _ seg hm hoff, freeloc_new] at hdel
        by_cases hc : cfg.MAX_SIZES ≤ h.sclass
        · simp [hc] at hdel
        · simp only [hc, if_false] at hdel
          cases ha : freelist_add (kv.heap.set (kv.nalloc + 1) (some ⟨h, 0, 0⟩))
              (kv.freelist h.sclass) (ret (kv.nalloc + 1)) with
          | none => simp [ha] at hdel
          | some res =>
            obtain ⟨hp2, r⟩ := res
            simp only [ha, Option.some.injEq, Prod.mk.injEq] at hdel
            obtain ⟨hkv, _⟩ := hdel
            subst hkv
            exact ⟨rfl, hp2, r, rfl, rfl, rfl⟩
      · simp [write_record, hm, rec_len_tombstone, hoff] at hdel

theorem freelist_add_ok (hp0 : Heap) (n0 head : Nat) (l : loc) (h0 : heap_ok hp0 n0)
    (hhead : head ≤ n0) (hcls : ∀ hd, hp0.deref head = some hd → hd.l.sclass = l.sclass)
    (hp2 : Heap) (r : Nat)
    (hadd : freelist_add (hp0.set (n0 + 1) (some ⟨l, 0, 0⟩)) head (n0 + 1) = some (hp2, r)) :
    heap_ok hp2 (n0 + 1) ∧ r = n0 + 1 ∧ (∃ nd, hp2.deref (n0 + 1) = some nd ∧ nd.l = l) ∧
      ∀ p nd2, p ≠ n0 + 1 → hp2.deref p = some nd2 →
        ∃ nd, hp0.deref p = some nd ∧ nd.l = nd2.l := by
  have ha := heap_ok_alloc hp0 n0 l h0
  have hne : head ≠ n0 + 1 := by omega
  have hnew : (hp0.set (n0 + 1) (some ⟨l, 0, 0⟩)).deref (n0 + 1) = some ⟨l, 0, 0⟩ :=
    deref_set_self _ _ _ (Nat.succ_ne_zero _)
  unfold freelist_add at hadd
  by_cases hh0 : head = 0
  · simp only [hh0, ne_eq, not_true_eq_false, if_false, Option.some.injEq, Prod.mk.injEq] at hadd
    obtain ⟨h1, h2⟩ := hadd
    subst h1
    refine ⟨ha, h2.symm, ⟨_, hnew, rfl⟩, ?_⟩
    intro p nd2 hp1 hd
    rw [deref_set_ne _ _ _ _ hp1] at hd
    exact ⟨nd2, hd, rfl⟩
  · simp only [ne_eq, hh0, not_false_eq_true, if_true] at hadd
    rw [deref_set_ne _ _ _ _ hne] at hadd
    cases hd0 : hp0.deref head with
    | none => simp [hd0] at hadd
    | some hd =>
      simp only [hd0] at hadd
      rw [deref_set_ne _ _ _ _ (Ne.symm hne), hnew] at hadd
      simp only [Option.some.injEq, Prod.mk.injEq] at hadd
      obtain ⟨h1, h2⟩ := hadd
      have hda : (hp0.set (n0 + 1) (some ⟨l, 0, 0⟩)).deref head = some hd := by
        rw [deref_set_ne _ _ _ _ hne]; exact hd0
      obtain ⟨hnx, _, hnc, _⟩ := ha.2 head hd hda
      have hk1 : heap_ok ((hp0.set (n0 + 1) (some ⟨l, 0, 0⟩)).set head
          (some ⟨hd.l, hd.next, n0 + 1⟩)) (n0 + 1) := by
        apply heap_ok_relink _ _ _ _ _ hd ha hda ⟨hnx, hnc⟩
        refine ⟨Nat.le_refl _, ?_⟩
        intro xd hx
        rw [hnew] at hx
        simp only [Option.some.injEq] at hx
        rw [← hx, hcls hd hd0]
      have hf1 : ((hp0.set (n0 + 1) (some ⟨l, 0, 0⟩)).set head
          (some ⟨hd.l, hd.next, n0 + 1⟩)).deref (n0 + 1) = some ⟨l, 0, 0⟩ := by
        rw [deref_set_ne _ _ _ _ (Ne.symm hne)]; exact hnew
      have hk2 : heap_ok (((hp0.set (n0 + 1) (some ⟨l, 0, 0⟩)).set head
          (some ⟨hd.l, hd.next, n0 + 1⟩)).set (n0 + 1) (some ⟨l, head, 0⟩)) (n0 + 1) := by
        apply heap_ok_relink _ _ _ _ _ ⟨l, 0, 0⟩ hk1 hf1
        · refine ⟨by omega, ?_⟩
          intro xd hx
          rw [deref_set_self _ _ _ hh0] at hx
          simp only [Option.some.injEq] at hx
          rw [← hx]
          exact hcls hd hd0
        · refine ⟨Nat.zero_le _, ?_⟩
          intro xd hx
          simp [Heap.deref] at hx
      subst h1
      refine ⟨hk2, h2.symm, ⟨_, deref_set_self _ _ _ (Nat.succ_ne_zero _), rfl⟩, ?_⟩
      intro p nd2 hp1 hd2
      rw [deref_set_ne _ _ _ _ hp1] at hd2
      by_cases hph : p = head
      · subst hph
        rw [deref_set_self _ _ _ hh0] at hd2
        simp only [Option.some.injEq] at hd2
        exact ⟨hd, hd0, by rw [← hd2]⟩
      · rw [deref_set_ne _ _ _ _ hph, deref_set_ne _ _ _ _ hp1] at hd2
        exact ⟨nd2, hd2, rfl⟩

theorem freelist_remove_ok (hp : Heap) (n head f : Nat) (h : heap_ok hp n) (hp2 : Heap)
    (r : Nat) (hrem : freelist_remove hp head f = some (hp2, r)) :
    heap_ok hp2 n ∧ r = head ∧
      ∀ p nd2, hp2.deref p = some nd2 → ∃ nd, hp.deref p = some nd ∧ nd.l = nd2.l := by
  unfold freelist_remove at hrem
  by_cases hf0 : f = 0
  · simp only [hf0, ne_eq, not_true_eq_false, if_false, Option.some.injEq, Prod.mk.injEq] at hrem
    obtain ⟨h1, h2⟩ := hrem
    subst h1
    exact ⟨h, h2.symm, fun p nd2 hd => ⟨nd2, hd, rfl⟩⟩
  · simp only [ne_eq, hf0, not_false_eq_true, if_true] at hrem
    cases hfd : hp.deref f with
    | none => simp [hfd] at hrem
    | some fd =>
      simp only [hfd] at hrem
      obtain ⟨hfn, hfp, hfnc, hfpc⟩ := h.2 f fd hfd
      by_cases hfh : f = head
      · simp only [hfh, if_true] at hrem
        by_cases hnx0 : fd.next = 0
        · simp only [hnx0, not_true_eq_false, if_false, Option.some.injEq, Prod.mk.injEq] at hrem
          obtain ⟨h1, h2⟩ := hrem
          subst h1
          refine ⟨heap_ok_free _ _ _ h, h2.symm, ?_⟩
          intro p nd2 hd
          rw [deref_set] at hd
          split_ifs at hd
          exact ⟨nd2, hd, rfl⟩
        · simp only [hnx0, not_false_eq_true, if_true] at hrem
          cases hnd : hp.deref fd.next with
          | none => simp [hnd] at hrem
          | some nx =>
            simp only [hnd, Option.some.injEq, Prod.mk.injEq] at hrem
            obtain ⟨h1, h2⟩ := hrem
            obtain ⟨hxn, _, hxnc, _⟩ := h.2 fd.next nx hnd
            have hk1 : heap_ok (hp.set fd.next (some ⟨nx.l, nx.next, 0⟩)) n := by
              apply heap_ok_relink _ _ _ _ _ nx h hnd ⟨hxn, hxnc⟩
              refine ⟨Nat.zero_le _, ?_⟩
              intro xd hx
              simp [Heap.deref] at hx
            subst h1
            refine ⟨heap_ok_free _ _ _ hk1, h2.symm, ?_⟩
            intro p nd2 hd
            rw [deref_set] at hd
            split_ifs at hd with hp0 hpf
            rw [deref_set] at hd
            split_ifs at hd with hpn
            · simp only [Option.some.injEq] at hd
              rw [hpn]
              exact ⟨nx, hnd, by rw [← hd]⟩
            · exact ⟨nd2, hd, rfl⟩
      · simp only [hfh, if_false] at hrem
        cases htd : hp.deref fd.next with
        | none => simp [htd] at hrem
        | some td =>
          simp only [htd] at hrem
          obtain ⟨htn, _, htnc, _⟩ := h.2 fd.next td htd
          have ht0 : fd.next ≠ 0 := (deref_some_ne_zero _ _ _ htd).1
          have hk1 : heap_ok (hp.set fd.next (some ⟨td.l, td.next, fd.prev⟩)) n := by
            apply heap_ok_relink _ _ _ _ _ td h htd ⟨htn, htnc⟩
            refine ⟨hfp, ?_⟩
            intro xd hx
            rw [hfpc xd hx, hfnc td htd]
          have hl1 : ∀ p nd2, (hp.set fd.next (some ⟨td.l, td.next, fd.prev⟩)).deref p = some nd2 →
              ∃ nd, hp.deref p = some nd ∧ nd.l = nd2.l := by
            intro p nd2 hd
            rw [deref_set] at hd
            split_ifs at hd with hp0 hpn
            · simp only [Option.some.injEq] at hd
              rw [hpn]
              exact ⟨td, htd, by rw [← hd]⟩
            · exact ⟨nd2, hd, rfl⟩
          cases hf1 : (hp.set fd.next (some ⟨td.l, td.next, fd.prev⟩)).deref f with
          | none => simp [hf1] at hrem
          | some fd1 =>
            simp only [hf1] at hrem
            cases hpd : (hp.set fd.next (some ⟨td.l, td.next, fd.prev⟩)).deref fd1.prev with
            | none => simp [hpd] at hrem
            | some pd =>
              simp only [hpd, Option.some.injEq, Prod.mk.injEq] at hrem
              obtain ⟨h1, h2⟩ := hrem
              obtain ⟨hpn, hpp, hpnc, hppc⟩ := hk1.2 fd1.prev pd hpd
              obtain ⟨_, _, _, hf1pc⟩ := hk1.2 f fd1 hf1
              obtain ⟨fd0, hfd0, hfl⟩ := hl1 f fd1 hf1
              rw [hfd] at hfd0
              simp only [Option.some.injEq] at hfd0
              have hk2 : heap_ok ((hp.set fd.next (some ⟨td.l, td.next, fd.prev⟩)).set fd1.prev
                  (some ⟨pd.l, fd.next, pd.prev⟩)) n := by
                apply heap_ok_relink _ _ _ _ _ pd hk1 hpd
                · refine ⟨hfn, ?_⟩
                  intro xd hx
                  rw [deref_set_self _ _ _ ht0] at hx
                  simp only [Option.some.injEq] at hx
                  rw [← hx]
                  simp only []
                  rw [hf1pc pd hpd, ← hfl, ← hfd0]
                  exact hfnc td htd
                · exact ⟨hpp, hppc⟩
              subst h1
              refine ⟨heap_ok_free _ _ _ hk2, h2.symm, ?_⟩
              intro p nd2 hd
              rw [deref_set] at hd
              split_ifs at hd with hp0 hpf
              rw [deref_set] at hd
              split_ifs at hd with hpq
              · simp only [Option.some.injEq] at hd
                obtain ⟨nd, hnd, hndl⟩ := hl1 fd1.prev pd hpd
                rw [hpq]
                exact ⟨nd, hnd, by rw [hndl, ← hd]⟩
              · exact hl1 p nd2 hd

theorem class_inv_init (cfg : Config) : class_inv (lightkv_init cfg all_null) := by
  refine ⟨⟨fun _ _ => rfl, ?_⟩, fun _ => Nat.le_refl _, ?_⟩
  · intro p nd hd
    simp [lightkv_init, Heap.deref] at hd
  · intro c nd hd
    simp [lightkv_init, Heap.deref] at hd

theorem class_inv_delete (cfg : Config) (kv kv2 : lightkv) (h : loc) (b : Bool)
    (ret : Nat → Nat) (hinv : class_inv kv)
    (hret : ret (kv.nalloc + 1) = kv.nalloc + 1 ∨ ret (kv.nalloc + 1) = 0)
    (hdel : lightkv_delete cfg kv h ret = some (kv2, b)) : class_inv kv2 := by
  obtain ⟨hok, hle, hcl⟩ := hinv
  obtain ⟨hna, hp2, r, hadd, hhp, hfl⟩ := lightkv_delete_heap cfg kv kv2 h b ret hdel
  unfold class_inv
  rw [hna, hhp, hfl]
  rcases hret with hnode | hnull
  · rw [hnode] at hadd
    obtain ⟨hok2, hr, ⟨ndn, hndn, hndl⟩, hpres⟩ := freelist_add_ok kv.heap kv.nalloc
      (kv.freelist h.sclass) h hok (hle _) (hcl h.sclass) hp2 r hadd
    refine ⟨hok2, ?_, ?_⟩
    · intro c
      simp only []
      split_ifs
      · omega
      · have := hle c
        omega
    · intro c nd hd
      simp only [] at hd
      split_ifs at hd with hc
      · rw [hr, hndn] at hd
        simp only [Option.some.injEq] at hd
        rw [← hd, hndl, hc]
      · have hne : kv.freelist c ≠ kv.nalloc + 1 := by
          have := hle c
          omega
        obtain ⟨nd0, hnd0, hl0⟩ := hpres _ nd hne hd
        rw [← hl0]
        exact hcl c nd0 hnd0
  · rw [hnull] at hadd
    have hres : hp2 = kv.heap.set (kv.nalloc + 1) (some ⟨h, 0, 0⟩) ∧ r = 0 := by
      unfold freelist_add at hadd
      by_cases hh0 : kv.freelist h.sclass = 0
      · simp only [hh0, ne_eq, not_true_eq_false, if_false, Option.some.injEq,
          Prod.mk.injEq] at hadd
        exact ⟨hadd.1.symm, hadd.2.symm⟩
      · simp only [ne_eq, hh0, not_false_eq_true, if_true] at hadd
        cases hd : (kv.heap.set (kv.nalloc + 1) (some ⟨h, 0, 0⟩)).deref (kv.freelist h.sclass) with
        | none => simp [hd] at hadd
        | some nd =>
          simp only [hd] at hadd
          have hz : ∀ hq : Heap, hq.deref 0 = none := fun hq => by simp [Heap.deref]
          simp [hz] at hadd
    obtain ⟨hhp2, hr0⟩ := hres
    subst hhp2
    subst hr0
    refine ⟨heap_ok_alloc kv.heap kv.nalloc h hok, ?_, ?_⟩
    · intro c
      simp only []
      split_ifs
      · omega
      · have := hle c
        omega
    · intro c nd hd
      simp only [] at hd
      split_ifs at hd with hc
      · simp [Heap.deref] at hd
      · have hne : kv.freelist c ≠ kv.nalloc + 1 := by
          have := hle c
          omega
        rw [deref_set_ne _ _ _ _ hne] at hd
        exact hcl c nd hd

theorem class_inv_insert (cfg : Config) (kv kv2 : lightkv) (key val : List Nat) (len : Nat)
    (h : loc) (hinv : class_inv kv) (hins : lightkv_insert cfg kv key val len = some (kv2, h)) :
    class_inv kv2 := by
  obtain ⟨hok, hle, hcl⟩ := hinv
  obtain ⟨hna, hcase⟩ := lightkv_insert_heap cfg kv kv2 key val len h hins
  unfold class_inv
  rcases hcase with ⟨hhp, hfl⟩ | ⟨f, hp2, r, slot, hrem, hhp, hfl⟩
  · rw [hna, hhp, hfl]
    exact ⟨hok, hle, hcl⟩
  · obtain ⟨hok2, hr, hpres⟩ := freelist_remove_ok kv.heap kv.nalloc (kv.freelist slot) f hok
      hp2 r hrem
    have hsame : kv2.freelist = kv.freelist := by
      rw [hfl]
      funext i
      by_cases hi : i = slot
      · simp [hi, hr]
      · simp [hi]
    rw [hna, hhp, hsame]
    refine ⟨hok2, hle, ?_⟩
    intro c nd hd
    obtain ⟨nd0, hnd0, hl0⟩ := hpres _ nd hd
    rw [← hl0]
    exact hcl c nd0 hnd0

/-- Every reachable store satisfies the class invariant. -/
theorem reachable_class_inv (cfg : Config) (kv : lightkv) (hr : Reachable cfg kv) :
    class_inv kv := by
  induction hr with
  | init => exact class_inv_init cfg
  | insert kv kv2 key val len h _ hins ih => exact class_inv_insert cfg kv kv2 key val len h ih hins
  | delete kv kv2 h b ret _ hret hdel ih => exact class_inv_delete cfg kv kv2 h b ret ih hret hdel

/-- In a heap whose links respect classes, the list that starts at a node of class `c`
holds locations of class `c` only, and its nodes all have class `c`. -/
theorem walk_class (hp : Heap) (n c : Nat) (hok : heap_ok hp n) (fuel : Nat) :
    ∀ (head : Nat) (L : List loc), (∀ nd, hp.deref head = some nd → nd.l.sclass = c) →
      freelist_locs hp fuel head = some L →
      (∀ l, l ∈ L → l.sclass = c) ∧
      ∃ ps, freelist_nodes hp fuel head = some ps ∧ ps.length = L.length ∧
        ∀ p, p ∈ ps → ∃ nd, hp.deref p = some nd ∧ nd.l.sclass = c := by
  induction fuel with
  | zero =>
    intro head L _ hw
    by_cases h0 : head = 0
    · subst h0
      rw [freelist_locs_null] at hw
      simp only [Option.some.injEq] at hw
      subst hw
      exact ⟨fun l hl => by simp at hl, [], freelist_nodes_null hp 0, rfl,
        fun p hp1 => by simp at hp1⟩
    · simp [freelist_locs, h0] at hw
  | succ m ih =>
    intro head L hc hw
    cases L with
    | nil =>
      have h0 := freelist_locs_nil _ _ _ hw
      subst h0
      exact ⟨fun l hl => by simp at hl, [], freelist_nodes_null hp _, rfl,
        fun p hp1 => by simp at hp1⟩
    | cons l L2 =>
      obtain ⟨hne, nd, k, hk, hderef, hl, hrest⟩ := freelist_locs_cons _ _ _ _ _ hw
      have hkm : k = m := by omega
      subst hkm
      have hcn : nd.l.sclass = c := hc nd hderef
      obtain ⟨_, _, hnc, _⟩ := hok.2 head nd hderef
      obtain ⟨hL2, ps2, hps2, hlen2, hcl2⟩ := ih nd.next L2
        (fun nx hx => by rw [hnc nx hx, hcn]) hrest
      refine ⟨?_, head :: ps2, ?_, by simp [hlen2], ?_⟩
      · intro l2 hl2
        rcases List.mem_cons.1 hl2 with h1 | h2
        · rw [h1, ← hl]; exact hcn
        · exact hL2 l2 h2
      · simp only [freelist_nodes, hne, if_false, hderef, hps2, Option.map_some']
      · intro p hp1
        rcases List.mem_cons.1 hp1 with h1 | h2
        · rw [h1]; exact ⟨nd, hderef, hcn⟩
        · exact hcl2 p h2

/-- The class invariant on reachable stores: in every store reached from `lightkv_init`
by inserts and deletes, whenever the list of class `c` can be walked to its end, every
location in it has size class `c`, and if it is not empty `freelist_get` returns its head
for every requested size. -/
theorem reachable_entries_class (cfg : Config) (kv : lightkv) (hr : Reachable cfg kv)
    (c fuel : Nat) (L : List loc)
    (hw : freelist_locs kv.heap fuel (kv.freelist c) = some L) :
    (∀ l, l ∈ L → l.sclass = c) ∧
      (L ≠ [] → ∀ size, freelist_get cfg kv (kv.freelist c) size = some (kv.freelist c)) := by
  obtain ⟨hok, _, hcl⟩ := reachable_class_inv cfg kv hr
  obtain ⟨hL, ps, hps, hlen, hpc⟩ := walk_class kv.heap kv.nalloc c hok fuel (kv.freelist c) L
    (hcl c) hw
  refine ⟨hL, ?_⟩
  intro hne size
  have hfresh : heap_fresh kv := hok.1
  have hb := freelist_nodes_bounded kv hfresh fuel _ ps hps
  have hw2 := (freelist_nodes_refuel kv.heap fuel _ ps hps).2 (kv.nalloc + 1) (by omega)
  obtain ⟨g, hg, _, h2, _⟩ := freelist_get_loop_spec cfg kv.heap size (kv.nalloc + 1)
    (kv.freelist c) 0 0 ps hw2
  have hpsne : ps ≠ [] := by
    intro hnil
    rw [hnil] at hlen
    exact hne (List.length_eq_zero.1 hlen.symm)
  obtain ⟨pre, post, hdec, hpre, _⟩ := h2 rfl hpsne
  have hslack : ∀ p, p ∈ ps → slack cfg kv.heap size p
      = (get_slotsize cfg (c : Int) + (2 ^ 32 - size)) % 2 ^ 32 := by
    intro p hp1
    obtain ⟨nd, hnd, hndc⟩ := hpc p hp1
    simp [slack, hnd, hndc]
  have hgmem : g ∈ ps := by rw [hdec]; simp
  have hprenil : pre = [] := by
    cases pre with
    | nil => rfl
    | cons q pre2 =>
      have hq : q ∈ ps := by rw [hdec]; simp
      have := hpre q (List.mem_cons_self _ _)
      rw [hslack q hq, hslack g hgmem] at this
      omega
  rw [hprenil] at hdec
  simp only [List.nil_append] at hdec
  rw [hdec] at hw2
  obtain ⟨_, hgh, _⟩ := freelist_nodes_cons _ _ _ _ _ hw2
  unfold freelist_get
  rw [hg, hgh]

/-! ## Inserts that miss the free list -/

theorem getD_blit_ge (dst src : List Nat) (off i : Nat) (hi : off + src.length ≤ i)
    (h : off + src.length ≤ dst.length) :
    (blit dst off src).getD i 0 = dst.getD i 0 := by
  unfold blit
  simp only [List.getD_eq_getElem?_getD]
  have h1 : (dst.take off ++ src).length = off + src.length := by
    simp only [List.length_append, List.length_take]
    omega
  rw [List.getElem?_append_right (by rw [h1]; exact hi), h1, List.getElem?_drop]
  congr 2
  omega

/-- A `delete` that returns reports `true`: the function has no other result. -/
theorem lightkv_delete_true (cfg : Config) (kv kv1 : lightkv) (h : loc) (b : Bool)
    (ret : Nat → Nat) (hdel : lightkv_delete cfg kv h ret = some (kv1, b)) : b = true := by
  unfold lightkv_delete at hdel
  simp only [] at hdel
  by_cases hh : get_slotsize cfg (h.sclass : Int) < cfg.RECORD_HEADER_SIZE ∨
      get_slotsize cfg (h.sclass : Int) < 1 + cfg.LEN_BYTES + cfg.EXTLEN_BYTES
  · simp [hh] at hdel
  · simp only [hh, if_false] at hdel
    cases hw : write_record cfg kv h
        (set_header cfg (List.replicate (get_slotsize cfg (h.sclass : Int)) 0) cfg.RECORD_DEL 0 0) with
    | none => simp [hw] at hdel
    | some res =>
      obtain ⟨kvw, n⟩ := res
      simp only [hw] at hdel
      by_cases hc : cfg.MAX_SIZES ≤ h.sclass
      · simp [hc] at hdel
      · simp only [hc, if_false] at hdel
        cases ha : freelist_add (freeloc_new kvw h ret).1.heap
            ((freeloc_new kvw h ret).1.freelist h.sclass) (freeloc_new kvw h ret).2 with
        | none => simp [ha] at hdel
        | some res2 =>
          simp only [ha, Option.some.injEq, Prod.mk.injEq] at hdel
          exact hdel.2.symm

/-- An insert that misses the free list, with `r` standing for the rounded size and `c` for
the class: when it returns, its handle is the location `create_nextloc` gives, tagged with
the class; `write_record` has copied the `len`-field many bytes of the record there,
inside the mapping; the cursor is the handle's offset plus that count minus one, on 32
bits. -/
theorem lightkv_insert_miss_handle (cfg : Config) (kv kv2 : lightkv) (key val : List Nat)
    (len r c : Nat) (h : loc)
    (hr : record_rsize cfg key len = r) (hc : (record_slot cfg key len).toNat = c)
    (hhead : kv.freelist c = 0)
    (hins : lightkv_insert cfg kv key val len = some (kv2, h)) :
    h = ⟨(create_nextloc cfg kv r).2.num, (create_nextloc cfg kv r).2.offset, c⟩ ∧
      kv2.nfiles = (create_nextloc cfg kv r).1.nfiles ∧
      kv2.freelist = kv.freelist ∧ kv2.heap = kv.heap ∧ kv2.nalloc = kv.nalloc ∧
      kv2.end_loc.num = (create_nextloc cfg kv r).2.num ∧
      kv2.end_loc.offset
        = (2 ^ 32 - 1 + ((create_nextloc cfg kv r).2.offset
            + rec_len cfg (mk_record cfg key val len))) % 2 ^ 32 ∧
      ∃ seg kvw,
        (create_nextloc cfg kv r).1.filemaps (create_nextloc cfg kv r).2.num = some seg ∧
        rec_len cfg (mk_record cfg key val len) ≤ (mk_record cfg key val len).length ∧
        (create_nextloc cfg kv r).2.offset + rec_len cfg (mk_record cfg key val len)
          ≤ seg.length ∧
        write_record cfg (create_nextloc cfg kv r).1
            ⟨(create_nextloc cfg kv r).2.num, (create_nextloc cfg kv r).2.offset, c⟩
            (mk_record cfg key val len)
          = some (kvw, rec_len cfg (mk_record cfg key val len)) ∧
        kv2.filemaps = kvw.filemaps ∧
        kv2.filemaps (create_nextloc cfg kv r).2.num
          = some (blit seg (create_nextloc cfg kv r).2.offset
              ((mk_record cfg key val len).take (rec_len cfg (mk_record cfg key val len)))) ∧
        ∀ i, i ≠ (create_nextloc cfg kv r).2.num →
          kv2.filemaps i = (create_nextloc cfg kv r).1.filemaps i := by
  obtain ⟨hlen, h0, h1⟩ := lightkv_insert_some cfg kv kv2 key val len h hins
  rw [lightkv_insert_miss_at cfg kv key val len r c hr hc hlen h0 h1 hhead] at hins
  generalize hcn : create_nextloc cfg kv r = cn at hins ⊢
  obtain ⟨kv1, l1⟩ := cn
  obtain ⟨hc1, hc2, hc3, _⟩ := create_nextloc_keeps cfg kv r
  rw [hcn] at hc1 hc2 hc3
  simp only [] at hins hc1 hc2 hc3 ⊢
  cases hw : write_record cfg kv1 ⟨l1.num, l1.offset, c⟩ (mk_record cfg key val len) with
  | none => simp [hw] at hins
  | some res =>
    obtain ⟨kvw, n⟩ := res
    simp only [hw, Option.some.injEq, Prod.mk.injEq] at hins
    obtain ⟨hkv, hh⟩ := hins
    obtain ⟨hn, hnf, _, hfl, hhp, hna⟩ := write_record_some _ _ _ _ _ _ hw
    obtain ⟨seg, hseg, _, hle, hfit, hfm, hoth⟩ := write_record_eq _ _ _ _ _ _ hw
    simp only [] at hseg hfit hfm hoth
    subst hkv
    subst hh
    subst hn
    exact ⟨rfl, hnf, hfl.trans hc1, hhp.trans hc2, hna.trans hc3, rfl, rfl, seg, kvw, hseg, hle,
      hfit, rfl, rfl, hfm, hoth⟩

/-- An insert that misses the free list, with `r` standing for the rounded size and `c` for
the class, returns when the bytes `write_record` copies fit the mapping at the location
`create_nextloc` gives. -/
theorem lightkv_insert_miss_returns (cfg : Config) (kv : lightkv) (key val : List Nat)
    (len r c : Nat) (seg : List Nat)
    (hr : record_rsize cfg key len = r) (hc : (record_slot cfg key len).toNat = c)
    (hcfg : cfg.header_ok) (hlen : len ≤ val.length)
    (h0 : 0 ≤ record_slot cfg key len) (h1 : record_slot cfg key len < (cfg.MAX_SIZES : Int))
    (hhead : kv.freelist c = 0)
    (hmap : (create_nextloc cfg kv r).1.filemaps (create_nextloc cfg kv r).2.num = some seg)
    (hfit : (create_nextloc cfg kv r).2.offset + rec_len cfg (mk_record cfg key val len)
      ≤ seg.length) :
    ∃ kv2, lightkv_insert cfg kv key val len =
      some (kv2, ⟨(create_nextloc cfg kv r).2.num, (create_nextloc cfg kv r).2.offset, c⟩) := by
  have hrl := rec_len_mk_record_le cfg key val len hcfg hlen
  rw [lightkv_insert_miss_at cfg kv key val len r c hr hc hlen h0 h1 hhead]
  generalize hcn : create_nextloc cfg kv r = cn at hmap hfit ⊢
  obtain ⟨kv1, l1⟩ := cn
  simp only [] at hmap hfit ⊢
  obtain ⟨kvw, hw⟩ := write_record_fits cfg kv1 ⟨l1.num, l1.offset, c⟩
    (mk_record cfg key val len) seg hmap hrl hfit
  simp only [hw]
  exact ⟨_, rfl⟩

/-! ## Reuse of a freed slot -/

/-- C6, counterexample: in the run `h = insert("k", "v")`, `delete(h)`, `delete(h)` the
second delete returns `true`. When `freeloc_new` yields its node, the location of `h` is
then twice in the free list of its class; when it yields `NULL` the second delete returns
`true` as well and the list is empty. -/
theorem double_delete_counterexample :
    double_delete_run yields_node = some (⟨0, 1, 0⟩, true, [⟨0, 1, 0⟩, ⟨0, 1, 0⟩]) ∧
      double_delete_run yields_null = some (⟨0, 1, 0⟩, true, []) := by
  decide

/-- C6 (amended): `lightkv_delete` has no failure result: every call that returns reports
`true`, whatever `freeloc_new` yields. For a handle `h` whose segment is mapped, whose
class indexes the free-list table and has slots that hold a record header, with the free
list of that class well formed and holding the locations `L`: when each call of
`freeloc_new` yields the node it built, a first and a second `delete(h)` both return
`true`, and after them the list holds `h`, `h` and then `L`, so the location of `h` is in
it twice. -/
theorem double_delete_accepted (cfg : Config) (kv : lightkv) (h : loc) (seg : List Nat)
    (L : List loc) (ret : Nat → Nat)
    (hmap : kv.filemaps h.num = some seg) (hoff : h.offset ≤ seg.length)
    (hcls : h.sclass < cfg.MAX_SIZES) (hhdr : holds_header cfg h.sclass)
    (hfresh : heap_fresh kv)
    (hlist : freelist_locs kv.heap kv.nalloc (kv.freelist h.sclass) = some L) :
    (∀ (kva kvb : lightkv) (g : loc) (b : Bool) (yielded : Nat → Nat),
      lightkv_delete cfg kva g yielded = some (kvb, b) → b = true) ∧
    (ret (kv.nalloc + 1) = kv.nalloc + 1 → ret (kv.nalloc + 2) = kv.nalloc + 2 →
      ∃ kv1 kv2, lightkv_delete cfg kv h ret = some (kv1, true) ∧
        lightkv_delete cfg kv1 h ret = some (kv2, true) ∧
        freelist_locs kv2.heap kv2.nalloc (kv2.freelist h.sclass) = some (h :: h :: L)) := by
  refine ⟨?_, ?_⟩
  · intro kva kvb g b yielded hdel
    exact lightkv_delete_true cfg kva kvb g b yielded hdel
  · intro hret1 hret2
    obtain ⟨kv1, hd1, hf1, _, _, hfresh1, _, hl1, hn1⟩ :=
      lightkv_delete_spec cfg kv h seg L ret hmap hoff hcls hhdr hfresh hlist hret1
    obtain ⟨kv2, hd2, _, _, _, _, _, hl2, _⟩ :=
      lightkv_delete_spec cfg kv1 h seg (h :: L) ret (by rw [hf1]; exact hmap) hoff hcls hhdr
        hfresh1 hl1 (by rw [hn1]; exact hret2)
    exact ⟨kv1, kv2, hd1, hd2, hl2⟩

/-- Witness for C6 (amended): the handle `(0, 1, 0)` on a fresh `demo` store whose table
reads `NULL`, with `freeloc_new` yielding its node. -/
theorem double_delete_accepted_witness :
    ∃ kv1 kv2, lightkv_delete demo (lightkv_init demo all_null) ⟨0, 1, 0⟩ yields_node
        = some (kv1, true) ∧
      lightkv_delete demo kv1 ⟨0, 1, 0⟩ yields_node = some (kv2, true) ∧
      freelist_locs kv2.heap kv2.nalloc (kv2.freelist 0) = some [⟨0, 1, 0⟩, ⟨0, 1, 0⟩] :=
  (double_delete_accepted demo (lightkv_init demo all_null) ⟨0, 1, 0⟩
    (alloc_map demo.MAX_FILESIZE) [] yields_node rfl (by decide) (by decide) (by decide)
    (fun _ _ => rfl) rfl).2 rfl rfl

/-! ## Segment overflow -/

/-- C10, counterexample. On `wrap_store` the cursor offset is `e = 2 ^ 32 - 16`; for the
19-byte record `("k", 12 bytes)` the rounded size is `r = 32`, so `e + r + 2 >
MAX_FILESIZE`, yet the 32-bit sum is 18 and `create_nextloc` stays in segment 0 at offset
`e + 1` without opening a file; the write there is outside the mapping and the insert has
no defined result. On `last_segment_store`, whose cursor is in segment `2 ^ 16 - 1`, the
insert of `("k", "v")` overflows the segment and returns segment id 0, not `s + 1`. -/
theorem cursor_sum_wraps :
    record_rsize demo [107] 12 = 32 ∧
      wrap_store.freelist (record_slot demo [107] 12).toNat = 0 ∧
      wrap_store.end_loc.offset + record_rsize demo [107] 12 + 2 > demo.MAX_FILESIZE ∧
      (create_nextloc demo wrap_store (record_rsize demo [107] 12)).2 = ⟨0, 4294967281, 0⟩ ∧
      (create_nextloc demo wrap_store (record_rsize demo [107] 12)).1.nfiles
        = wrap_store.nfiles ∧
      (lightkv_insert demo wrap_store [107] (List.replicate 12 118) 12).map (fun p => p.2)
        = none ∧
      last_segment_store.end_loc.offset + record_rsize demo [107] 1 + 2 > demo.MAX_FILESIZE ∧
      (lightkv_insert demo last_segment_store [107] [118] 1).map
        (fun p => (p.2, p.1.nfiles)) = some (⟨0, 1, 0⟩, 65537) := by
  decide

/-- C10 (amended): an insert that misses the free list (the head of its class is `NULL`)
with rounded slot size `r`, on a store whose cursor is `(s, e)`, where `e + r + 2` fits 32
bits and `s + 1` fits the `num` field. Whenever it returns a handle, the handle is
`(s + 1, 1)` and `nfiles` has grown by one if and only if `e + r + 2 > MAX_FILESIZE`, and
otherwise it is `(s, e + 1)` with `nfiles` unchanged. It does return when the record's
class indexes the table and the record fits the segment it is placed in. -/
theorem insert_miss_segment (cfg : Config) (kv : lightkv) (key val : List Nat) (len : Nat)
    (hhead : kv.freelist (record_slot cfg key len).toNat = 0)
    (hnw : kv.end_loc.offset + record_rsize cfg key len + 2 < 2 ^ 32)
    (hnum : kv.end_loc.num + 1 < 2 ^ cfg.NUM_BITS) :
    (∀ kv2 h, lightkv_insert cfg kv key val len = some (kv2, h) →
      ((h.num = kv.end_loc.num + 1 ∧ h.offset = 1 ∧ kv2.nfiles = kv.nfiles + 1) ↔
        kv.end_loc.offset + record_rsize cfg key len + 2 > cfg.MAX_FILESIZE) ∧
      (¬ (kv.end_loc.offset + record_rsize cfg key len + 2 > cfg.MAX_FILESIZE) →
        h.num = kv.end_loc.num ∧ h.offset = kv.end_loc.offset + 1 ∧
          kv2.nfiles = kv.nfiles)) ∧
    (cfg.header_ok → len ≤ val.length →
      0 ≤ record_slot cfg key len → record_slot cfg key len < (cfg.MAX_SIZES : Int) →
      (kv.end_loc.offset + record_rsize cfg key len + 2 > cfg.MAX_FILESIZE →
        1 + record_size cfg key len ≤ cfg.MAX_FILESIZE - 1) →
      (¬ (kv.end_loc.offset + record_rsize cfg key len + 2 > cfg.MAX_FILESIZE) →
        ∃ seg, kv.filemaps kv.end_loc.num = some seg ∧
          kv.end_loc.offset + 1 + record_size cfg key len ≤ seg.length) →
      ∃ kv2 h, lightkv_insert cfg kv key val len = some (kv2, h)) := by
  generalize hr : record_rsize cfg key len = r at hnw ⊢
  generalize hc : (record_slot cfg key len).toNat = c at hhead
  have hcn := create_nextloc_nowrap cfg kv r hnw
  have hmod : (kv.end_loc.num + 1) % 2 ^ cfg.NUM_BITS = kv.end_loc.num + 1 :=
    Nat.mod_eq_of_lt hnum
  refine ⟨?_, ?_⟩
  · intro kv2 h hins
    obtain ⟨hh, hnf, _⟩ :=
      lightkv_insert_miss_handle cfg kv kv2 key val len r c h hr hc hhead hins
    rw [hcn] at hh hnf
    by_cases hov : kv.end_loc.offset + r + 2 > cfg.MAX_FILESIZE
    · rw [if_pos hov] at hh hnf
      simp only [hmod] at hh hnf
      subst hh
      exact ⟨⟨fun _ => hov, fun _ => ⟨rfl, rfl, hnf⟩⟩, fun hn => absurd hov hn⟩
    · rw [if_neg hov] at hh hnf
      simp only [] at hh hnf
      subst hh
      refine ⟨⟨fun hcc => ?_, fun hcc => absurd hcc hov⟩, fun _ => ⟨rfl, rfl, hnf⟩⟩
      have := hcc.1
      simp only [] at this
      omega
  · intro hcfg hlen h0 h1 hnew hstay
    have hrl := rec_len_mk_record_le cfg key val len hcfg hlen
    rw [length_mk_record cfg key val len hlen] at hrl
    have hrl2 : rec_len cfg (mk_record cfg key val len) ≤ record_size cfg key len := hrl
    by_cases hov : kv.end_loc.offset + r + 2 > cfg.MAX_FILESIZE
    · have hfit := hnew hov
      obtain ⟨kv2, hins⟩ := lightkv_insert_miss_returns cfg kv key val len r c
        (alloc_map cfg.MAX_FILESIZE) hr hc hcfg hlen h0 h1 hhead
        (by rw [hcn, if_pos hov]; simp)
        (by
          rw [hcn, if_pos hov]
          simp only [alloc_map, List.length_replicate]
          omega)
      exact ⟨kv2, _, hins⟩
    · obtain ⟨seg, hseg, hfit⟩ := hstay hov
      obtain ⟨kv2, hins⟩ := lightkv_insert_miss_returns cfg kv key val len r c seg hr hc hcfg
        hlen h0 h1 hhead
        (by rw [hcn, if_neg hov]; exact hseg)
        (by
          rw [hcn, if_neg hov]
          simp only []
          omega)
      exact ⟨kv2, _, hins⟩

/-- Witness for C10 (amended) on `demo`: the first insert on a fresh store whose table
reads `NULL` stays in segment 0 at offset 1, and an insert with the cursor at offset 250
opens segment 1. -/
theorem insert_miss_segment_witness :
    (∃ kv2 h, lightkv_insert demo (lightkv_init demo all_null) [107] [118] 1 = some (kv2, h) ∧
      h.num = 0 ∧ h.offset = 1 ∧ kv2.nfiles = 1) ∧
    (∃ kv2 h, lightkv_insert demo { lightkv_init demo all_null with end_loc := ⟨0, 250, 0⟩ }
        [107] [118] 1 = some (kv2, h) ∧
      h.num = 1 ∧ h.offset = 1 ∧ kv2.nfiles = 2) := by
  have hA := insert_miss_segment demo (lightkv_init demo all_null) [107] [118] 1 rfl
    (by decide) (by decide)
  have hB := insert_miss_segment demo { lightkv_init demo all_null with end_loc := ⟨0, 250, 0⟩ }
    [107] [118] 1 rfl (by decide) (by decide)
  obtain ⟨kvA, hdA, hinsA⟩ := hA.2 (by decide) (by decide) (by decide) (by decide)
    (by decide) (fun _ => ⟨_, rfl, by decide⟩)
  obtain ⟨kvB, hdB, hinsB⟩ := hB.2 (by decide) (by decide) (by decide) (by decide)
    (by decide) (fun hn => absurd (by decide) hn)
  exact ⟨⟨kvA, hdA, hinsA, (hA.1 kvA hdA hinsA).2 (by decide)⟩,
    ⟨kvB, hdB, hinsB, (hB.1 kvB hdB hinsB).1.2 (by decide)⟩⟩

/-! ## Lengths that do not fit the header -/

/-- C12, counterexample: on `demo_wide`, where `extlen` is one byte wide, the insert of a
256-byte key with a 1-byte value returns the handle `(0, 1, 6)`; the header stored there
has `extlen = 0` and `len = 263`, and `get` on the handle reports an empty key and a
257-byte value. -/
theorem long_key_stored_truncated :
    ¬ (strlen long_key < 256 ^ demo_wide.EXTLEN_BYTES) ∧
      long_key_run = some (⟨0, 1, 6⟩, 0, 263, some (0, 257)) := by
  decide

/-- C12 (amended): `lightkv_insert` makes no length check and has no failure result for
lengths. For every key and value, the header of the record it builds holds
`len = (RECORD_HEADER_SIZE + strlen key + len) mod 256 ^ LEN_BYTES` and
`extlen = strlen key mod 256 ^ EXTLEN_BYTES`; whenever it returns a handle, `write_record`
has copied that many (`len` field) bytes of the record to the handle's location. It does
return when the record's class indexes the free-list table, the free list of that class is
empty, the sum `e + r + 2` of the cursor offset and the rounded size fits 32 bits, and the
`len`-field many bytes fit the segment `create_nextloc` places them in. -/
theorem insert_truncates (cfg : Config) (key val : List Nat) (len : Nat)
    (hcfg : cfg.header_ok) (hlen : len ≤ val.length) :
    rec_len cfg (mk_record cfg key val len)
      = (cfg.RECORD_HEADER_SIZE + strlen key + len) % 256 ^ cfg.LEN_BYTES ∧
    rec_extlen cfg (mk_record cfg key val len) = strlen key % 256 ^ cfg.EXTLEN_BYTES ∧
    (∀ (kv kv2 : lightkv) (h : loc), lightkv_insert cfg kv key val len = some (kv2, h) →
      ∃ seg, kv2.filemaps h.num = some (blit seg h.offset ((mk_record cfg key val len).take
        ((cfg.RECORD_HEADER_SIZE + strlen key + len) % 256 ^ cfg.LEN_BYTES)))) ∧
    (∀ kv : lightkv, 0 ≤ record_slot cfg key len →
      record_slot cfg key len < (cfg.MAX_SIZES : Int) →
      kv.freelist (record_slot cfg key len).toNat = 0 →
      kv.end_loc.offset + record_rsize cfg key len + 2 < 2 ^ 32 →
      (kv.end_loc.offset + record_rsize cfg key len + 2 > cfg.MAX_FILESIZE →
        1 + (cfg.RECORD_HEADER_SIZE + strlen key + len) % 256 ^ cfg.LEN_BYTES
          ≤ cfg.MAX_FILESIZE - 1) →
      (¬ (kv.end_loc.offset + record_rsize cfg key len + 2 > cfg.MAX_FILESIZE) →
        ∃ seg, kv.filemaps kv.end_loc.num = some seg ∧
          kv.end_loc.offset + 1 +
            (cfg.RECORD_HEADER_SIZE + strlen key + len) % 256 ^ cfg.LEN_BYTES ≤ seg.length) →
      ∃ kv2 h, lightkv_insert cfg kv key val len = some (kv2, h)) := by
  obtain ⟨_, hfl, hfe⟩ := fields_mk_record cfg key val [] len hcfg hlen
  rw [List.append_nil] at hfl hfe
  unfold record_size at hfl
  refine ⟨hfl, hfe, ?_, ?_⟩
  · intro kv kv2 h hins
    obtain ⟨kv1, kvw, hw, hkv2⟩ := lightkv_insert_writes cfg kv kv2 key val len h hins
    obtain ⟨seg, _, _, _, _, hfm, _⟩ := write_record_eq _ _ _ _ _ _ hw
    refine ⟨seg, ?_⟩
    rw [hkv2]
    simp only []
    rw [hfm, hfl]
  · intro kv h0 h1 hhead hnw hnew hstay
    rw [← hfl] at hnew hstay
    generalize hr : record_rsize cfg key len = r at hnw hnew hstay
    generalize hc : (record_slot cfg key len).toNat = c at hhead
    have hcn := create_nextloc_nowrap cfg kv r hnw
    by_cases hov : kv.end_loc.offset + r + 2 > cfg.MAX_FILESIZE
    · have hfit := hnew hov
      obtain ⟨kv2, hins⟩ := lightkv_insert_miss_returns cfg kv key val len r c
        (alloc_map cfg.MAX_FILESIZE) hr hc hcfg hlen h0 h1 hhead
        (by rw [hcn, if_pos hov]; simp)
        (by
          rw [hcn, if_pos hov]
          simp only [alloc_map, List.length_replicate]
          omega)
      exact ⟨kv2, _, hins⟩
    · obtain ⟨seg, hseg, hfit⟩ := hstay hov
      obtain ⟨kv2, hins⟩ := lightkv_insert_miss_returns cfg kv key val len r c seg hr hc hcfg
        hlen h0 h1 hhead
        (by rw [hcn, if_neg hov]; exact hseg)
        (by
          rw [hcn, if_neg hov]
          simp only []
          omega)
      exact ⟨kv2, _, hins⟩

/-- Witness for C12 (amended) on `demo_wide`: the record of the 256-byte key has
`len = 263` and `extlen = 0`, and its insert on a fresh store whose table reads `NULL`
returns. -/
theorem insert_truncates_witness :
    rec_len demo_wide (mk_record demo_wide long_key [118] 1) = 263 ∧
      rec_extlen demo_wide (mk_record demo_wide long_key [118] 1) = 0 ∧
      ∃ kv2 h, lightkv_insert demo_wide (lightkv_init demo_wide all_null) long_key [118] 1
        = some (kv2, h) := by
  have hT := insert_truncates demo_wide long_key [118] 1 (by decide) (by decide)
  refine ⟨hT.1.trans (by decide), hT.2.1.trans (by decide), ?_⟩
  exact hT.2.2.2 (lightkv_init demo_wide all_null) (by decide) (by decide) rfl (by decide)
    (by decide) (fun _ => ⟨_, rfl, by decide⟩)

/-! ## The cursor and the first insert -/

/-- An insert that misses the free list leaves the cursor at the handle's offset plus the
bytes written minus one, on 32 bits; when `create_nextloc` keeps the segment, the handle is
one past the old cursor. So the next insert of this kind starts where this one ends. -/
theorem cursor_after_miss (cfg : Config) (kv kv2 : lightkv) (key val : List Nat) (len : Nat)
    (h : loc) (hhead : kv.freelist (record_slot cfg key len).toNat = 0)
    (hins : lightkv_insert cfg kv key val len = some (kv2, h)) :
    kv2.end_loc.num = h.num ∧
      kv2.end_loc.offset
        = (2 ^ 32 - 1 + (h.offset + rec_len cfg (mk_record cfg key val len))) % 2 ^ 32 ∧
      (¬ (kv.end_loc.offset + record_rsize cfg key len + 2) % 2 ^ 32 > cfg.MAX_FILESIZE →
        h.num = kv.end_loc.num ∧ h.offset = (kv.end_loc.offset + 1) % 2 ^ 32) := by
  generalize hr : record_rsize cfg key len = r
  generalize hc : (record_slot cfg key len).toNat = c at hhead
  obtain ⟨hh, _, _, _, _, hn, ho, _⟩ :=
    lightkv_insert_miss_handle cfg kv kv2 key val len r c h hr hc hhead hins
  generalize hcn : create_nextloc cfg kv r = cn at hh hn ho
  obtain ⟨kv1, l1⟩ := cn
  simp only [] at hh hn ho
  subst hh
  refine ⟨hn, ho, ?_⟩
  intro hov
  rw [create_nextloc_stay cfg kv r hov] at hcn
  simp only [Prod.mk.injEq] at hcn
  obtain ⟨_, hl⟩ := hcn
  subst hl
  exact ⟨rfl, rfl⟩

/-- On a store fresh from `lightkv_init` whose table reads `NULL`, an insert that returns
without opening a segment lands at `start_loc = (0, 1)`. -/
theorem first_insert_on_null_table (cfg : Config) (kv2 : lightkv) (key val : List Nat)
    (len : Nat) (h : loc)
    (hins : lightkv_insert cfg (lightkv_init cfg all_null) key val len = some (kv2, h))
    (hov : ¬ (record_rsize cfg key len + 2) % 2 ^ 32 > cfg.MAX_FILESIZE) :
    h.num = 0 ∧ h.offset = 1 ∧ h.num = (lightkv_init cfg all_null).start_loc.num ∧
      h.offset = (lightkv_init cfg all_null).start_loc.offset := by
  generalize hr : record_rsize cfg key len = r at hov
  have hov2 : ¬ ((lightkv_init cfg all_null).end_loc.offset + r + 2) % 2 ^ 32
      > cfg.MAX_FILESIZE := by
    have he : (lightkv_init cfg all_null).end_loc.offset = 0 := rfl
    rw [he, Nat.zero_add]
    exact hov
  obtain ⟨_, _, hs⟩ := cursor_after_miss cfg (lightkv_init cfg all_null) kv2 key val len h rfl hins
  rw [hr] at hs
  obtain ⟨hn, ho⟩ := hs hov2
  have he : (lightkv_init cfg all_null).end_loc = ⟨0, 0, 0⟩ := rfl
  have hst : (lightkv_init cfg all_null).start_loc = ⟨0, 1, 0⟩ := rfl
  rw [he] at hn ho
  rw [hst]
  simp only [] at hn ho ⊢
  have h1 : (0 + 1) % 2 ^ 32 = 1 := by decide
  rw [h1] at ho
  exact ⟨hn, ho, hn, ho⟩

/-- C17, failing input: `lightkv_init` passes on the table it is given, for every
configuration: the source never assigns `freelist[]`. On `demo`, when the block holds the
stale address `1` in every head, the first insert `insert("k", "v")` reads the head `1` of
its class, which is not a node of the store, and has no defined result; with a table that
reads `NULL` the same insert lands at `start_loc = (0, 1)`. -/
theorem first_insert_reads_unset_table :
    (∀ (cfg : Config) (table : Nat → Nat) (c : Nat),
      (lightkv_init cfg table).freelist c = table c) ∧
    (lightkv_init demo stale_table).freelist (record_slot demo [107] 1).toNat = 1 ∧
    (lightkv_init demo stale_table).heap.deref 1 = none ∧
    freelist_get demo (lightkv_init demo stale_table)
      ((lightkv_init demo stale_table).freelist (record_slot demo [107] 1).toNat)
      (record_size demo [107] 1 % 2 ^ 32) = none ∧
    (lightkv_insert demo (lightkv_init demo stale_table) [107] [118] 1).isNone = true ∧
    (lightkv_insert demo (lightkv_init demo all_null) [107] [118] 1).map (fun p => p.2)
      = some ⟨0, 1, 0⟩ ∧
    (lightkv_init demo all_null).start_loc = ⟨0, 1, 0⟩ := by
  refine ⟨fun _ _ _ => rfl, ?_, ?_, ?_, ?_, ?_, ?_⟩ <;> decide

/-! ## Fresh writes and the segment -/

/-- C19, counterexample. On `wrap_store` the cursor offset is `e = 2 ^ 32 - 16`; the
19-byte record `("k", 12 bytes)` misses the free list, `L = 19 ≤ r = 32` and
`r + 2 ≤ MAX_FILESIZE`. `create_nextloc` stays in segment 0, whose mapping has 255 bytes,
and `write_record` is called at offset `2 ^ 32 - 15`: the first byte index it would write is
past `MAX_FILESIZE - 2` and the call has no defined result. -/
theorem fresh_write_past_segment :
    wrap_store.freelist (record_slot demo [107] 12).toNat = 0 ∧
      rec_len demo (mk_record demo [107] (List.replicate 12 118) 12)
        ≤ record_rsize demo [107] 12 ∧
      record_rsize demo [107] 12 + 2 ≤ demo.MAX_FILESIZE ∧
      (wrap_store.filemaps wrap_store.end_loc.num).map List.length
        = some (demo.MAX_FILESIZE - 1) ∧
      (create_nextloc demo wrap_store (record_rsize demo [107] 12)).2.offset = 4294967281 ∧
      ¬ (4294967281 ≤ demo.MAX_FILESIZE - 2) ∧
      (write_record demo (create_nextloc demo wrap_store (record_rsize demo [107] 12)).1
        ⟨0, 4294967281, 2⟩ (mk_record demo [107] (List.replicate 12 118) 12)).isNone = true ∧
      (lightkv_insert demo wrap_store [107] (List.replicate 12 118) 12).isNone = true := by
  decide

/-- C19 (amended): an insert that misses the free list, with `L` bytes to write (the `len`
field of its record) and rounded slot size `r`, where `L ≤ r`, `r + 2 ≤ MAX_FILESIZE` and
`e + r + 2` fits 32 bits, on a store whose cursor segment is a mapping of
`MAX_FILESIZE - 1` bytes, the size `alloc_file` followed by `map_file` provides. The insert
returns; its handle has offset `1` when `create_nextloc` opens a segment and `e + 1` when
it stays in the current one; `write_record` is called on a mapping of `MAX_FILESIZE - 1`
bytes and returns `L`, having replaced the bytes at the indices `[offset, offset + L)`,
all of which lie in `[1, MAX_FILESIZE - 2]`: the mapping keeps its length, every byte at
another index and every other mapping are as before. -/
theorem fresh_write_in_segment (cfg : Config) (kv : lightkv) (key val : List Nat) (len : Nat)
    (seg : List Nat)
    (hcfg : cfg.header_ok) (hlen : len ≤ val.length)
    (h0 : 0 ≤ record_slot cfg key len) (h1 : record_slot cfg key len < (cfg.MAX_SIZES : Int))
    (hhead : kv.freelist (record_slot cfg key len).toNat = 0)
    (hL : rec_len cfg (mk_record cfg key val len) ≤ record_rsize cfg key len)
    (hr : record_rsize cfg key len + 2 ≤ cfg.MAX_FILESIZE)
    (hnw : kv.end_loc.offset + record_rsize cfg key len + 2 < 2 ^ 32)
    (hseg : kv.filemaps kv.end_loc.num = some seg)
    (hsegl : seg.length = cfg.MAX_FILESIZE - 1) :
    ∃ kv2 h kvw segw,
      lightkv_insert cfg kv key val len = some (kv2, h) ∧
      (h.offset = if kv.end_loc.offset + record_rsize cfg key len + 2 > cfg.MAX_FILESIZE
          then 1 else kv.end_loc.offset + 1) ∧
      (create_nextloc cfg kv (record_rsize cfg key len)).1.filemaps h.num = some segw ∧
      segw.length = cfg.MAX_FILESIZE - 1 ∧
      write_record cfg (create_nextloc cfg kv (record_rsize cfg key len)).1 h
          (mk_record cfg key val len)
        = some (kvw, rec_len cfg (mk_record cfg key val len)) ∧
      kv2.filemaps = kvw.filemaps ∧
      kvw.filemaps h.num = some (blit segw h.offset
        ((mk_record cfg key val len).take (rec_len cfg (mk_record cfg key val len)))) ∧
      (∀ j, j ≠ h.num →
        kvw.filemaps j = (create_nextloc cfg kv (record_rsize cfg key len)).1.filemaps j) ∧
      (∀ i, h.offset ≤ i → i < h.offset + rec_len cfg (mk_record cfg key val len) →
        1 ≤ i ∧ i ≤ cfg.MAX_FILESIZE - 2) ∧
      (blit segw h.offset
        ((mk_record cfg key val len).take (rec_len cfg (mk_record cfg key val len)))).length
          = cfg.MAX_FILESIZE - 1 ∧
      ∀ i, (i < h.offset ∨ h.offset + rec_len cfg (mk_record cfg key val len) ≤ i) →
        (blit segw h.offset ((mk_record cfg key val len).take
          (rec_len cfg (mk_record cfg key val len)))).getD i 0 = segw.getD i 0 := by
  generalize hrr : record_rsize cfg key len = r at hL hr hnw ⊢
  generalize hc : (record_slot cfg key len).toNat = c at hhead
  have hcn := create_nextloc_nowrap cfg kv r hnw
  have hrl := rec_len_mk_record_le cfg key val len hcfg hlen
  have htl : ((mk_record cfg key val len).take
      (rec_len cfg (mk_record cfg key val len))).length
      = rec_len cfg (mk_record cfg key val len) := by
    rw [List.length_take]
    omega
  -- the mapping written to and the offset inside it
  have hplace : ∃ segw, (create_nextloc cfg kv r).1.filemaps (create_nextloc cfg kv r).2.num
        = some segw ∧ segw.length = cfg.MAX_FILESIZE - 1 ∧
      ((create_nextloc cfg kv r).2.offset
        = if kv.end_loc.offset + r + 2 > cfg.MAX_FILESIZE then 1 else kv.end_loc.offset + 1) ∧
      1 ≤ (create_nextloc cfg kv r).2.offset ∧
      (create_nextloc cfg kv r).2.offset + rec_len cfg (mk_record cfg key val len)
        ≤ cfg.MAX_FILESIZE - 1 := by
    by_cases hov : kv.end_loc.offset + r + 2 > cfg.MAX_FILESIZE
    · rw [hcn, if_pos hov, if_pos hov]
      refine ⟨alloc_map cfg.MAX_FILESIZE, by simp, by simp [alloc_map], rfl, Nat.le_refl _, ?_⟩
      simp only []
      omega
    · rw [hcn, if_neg hov, if_neg hov]
      refine ⟨seg, hseg, hsegl, rfl, ?_, ?_⟩
      · simp only []
        omega
      · simp only []
        omega
  obtain ⟨segw, hmapw, hlenw, hoffw, hpos, hend⟩ := hplace
  obtain ⟨kv2, hins⟩ := lightkv_insert_miss_returns cfg kv key val len r c segw hrr hc hcfg
    hlen h0 h1 hhead hmapw (by omega)
  obtain ⟨_, _, _, _, _, _, _, seg2, kvw, hseg2, _, hfit2, hw, hfm, hfmh, hoth⟩ :=
    lightkv_insert_miss_handle cfg kv kv2 key val len r c _ hrr hc hhead hins
  have hsame : seg2 = segw := Option.some.inj (hseg2.symm.trans hmapw)
  subst hsame
  generalize hcnv : create_nextloc cfg kv r = cn at *
  obtain ⟨kv1, l1⟩ := cn
  simp only [] at *
  refine ⟨kv2, _, kvw, seg2, hins, hoffw, hmapw, hlenw, hw, hfm, ?_, ?_, ?_, ?_, ?_⟩
  · rw [← hfm]; exact hfmh
  · intro j hj
    rw [← hfm]
    exact hoth j hj
  · intro i hi1 hi2
    simp only [] at hi1 hi2
    omega
  · simp only []
    rw [length_blit _ _ _ (by rw [htl]; exact hfit2)]
    exact hlenw
  · intro i hi
    simp only [] at hi ⊢
    rcases hi with hlt | hge
    · exact getD_blit_lt _ _ _ _ hlt (by omega)
    · exact getD_blit_ge _ _ _ _ (by rw [htl]; exact hge) (by rw [htl]; exact hfit2)

/-- Witness for C19 (amended) on `demo`: the first insert on a fresh store whose table
reads `NULL` returns a handle at offset 1 and writes the byte indices `1 .. 8`. -/
theorem fresh_write_in_segment_witness :
    ∃ kv2 h, lightkv_insert demo (lightkv_init demo all_null) [107] [118] 1 = some (kv2, h) ∧
      h.offset = 1 ∧
      ∀ i, h.offset ≤ i → i < h.offset + rec_len demo (mk_record demo [107] [118] 1) →
        1 ≤ i ∧ i ≤ demo.MAX_FILESIZE - 2 := by
  obtain ⟨kv2, h, _, _, hins, hoff, _, _, _, _, _, _, hidx, _⟩ :=
    fresh_write_in_segment demo (lightkv_init demo all_null) [107] [118] 1
      (alloc_map demo.MAX_FILESIZE) (by decide) (by decide) (by decide) (by decide) rfl
      (by decide) (by decide) (by decide) rfl (by decide)
  exact ⟨kv2, h, hins, hoff.trans (by decide), hidx⟩

end LightKV
